import Mathlib

/-!
Verification of the reinda asset-resolution engine.

This file gives a shallow embedding, in Lean 4, of the core components of the
reinda repository:

* the dependency graph with Kahn topological sort and cycle extraction
  (src/dep_graph.rs),
* the template fragment scanner and renderer (reinda-core/src/template.rs),
* the content-hash path naming scheme (src/hash.rs), including SHA-256 and
  URL-safe base64,
* the resolver (src/resolve.rs) over a Setup (core/src/lib.rs),
* the builder flattening and the eager (prod, src/imp_prod.rs) and lazy
  (dev, src/imp_dev.rs) build strategies.

Rust hash maps/sets are modelled as association lists / duplicate-free lists,
preserving insertion order (the source's iteration order is arbitrary; all
properties proved here are order-independent).  Machine integers are Nat.
Fallible code returns Except/Option.  Rust panics that are unreachable in the
flows considered here are modelled by explicitly marked default branches.
-/

set_option maxHeartbeats 1000000
set_option linter.unusedSectionVars false

namespace Reinda

/-! ## Dependency graph (src/dep_graph.rs)

The Rust code stores an `AHashMap<AssetId, NodeData>` where `NodeData` holds
two `AHashSet<AssetId>`: `dependencies` and `rev_dependencies`.  We model the
map as an association list (keys unique in the reachable states) and the sets
as duplicate-free lists.  The node key type is kept generic: `dep_graph.rs`
uses `AssetId` (a `u32`, modelled as `Nat`), while `imp_prod.rs` uses string
keys.
-/

structure NodeData (α : Type) where
  /-- List of assets this asset depends on. -/
  dependencies : List α
  /-- Set of assets that are dependant on this asset. -/
  revDependencies : List α
deriving Repr, DecidableEq

def NodeData.empty {α : Type} : NodeData α := ⟨[], []⟩

instance {α : Type} : Inhabited (NodeData α) := ⟨NodeData.empty⟩

structure DepGraph (α : Type) where
  nodes : List (α × NodeData α)
deriving Repr, DecidableEq

variable {α : Type} [DecidableEq α]

/-- Lookup in the association list modelling the hash map. -/
def lookupND : List (α × NodeData α) → α → Option (NodeData α)
  | [], _ => none
  | (k, d) :: rest, id => if k = id then some d else lookupND rest id

/-- Update the entry for a key, if present (models in-place mutation of a
hash-map entry). -/
def updateND (f : NodeData α → NodeData α) : List (α × NodeData α) → α → List (α × NodeData α)
  | [], _ => []
  | (k, d) :: rest, id =>
    if k = id then (k, f d) :: rest else (k, d) :: updateND f rest id

/-- Models `self.0.entry(id).or_default()`: make sure a key is present. -/
def entryOrDefault : List (α × NodeData α) → α → List (α × NodeData α)
  | [], id => [(id, NodeData.empty)]
  | (k, d) :: rest, id =>
    if k = id then (k, d) :: rest else (k, d) :: entryOrDefault rest id

/-- Models `AHashSet::insert` (no duplicates; insertion order for iteration). -/
def setInsert (x : α) (xs : List α) : List α :=
  if x ∈ xs then xs else xs ++ [x]

/-- Models `DepGraph::add_asset`. -/
def DepGraph.addAsset (g : DepGraph α) (id : α) : DepGraph α :=
  ⟨entryOrDefault g.nodes id⟩

/-- Models `DepGraph::add_dependency`: `depender` depends on `dependee`. -/
def DepGraph.addDependency (g : DepGraph α) (depender dependee : α) : DepGraph α :=
  let n1 := updateND (fun d => { d with dependencies := setInsert dependee d.dependencies })
    (entryOrDefault g.nodes depender) depender
  let n2 := updateND (fun d => { d with revDependencies := setInsert depender d.revDependencies })
    (entryOrDefault n1 dependee) dependee
  ⟨n2⟩

def DepGraph.empty {α : Type} : DepGraph α := ⟨[]⟩

/-- The dependencies currently recorded for a node (empty for absent nodes). -/
def depsOf (nodes : List (α × NodeData α)) (id : α) : List α :=
  ((lookupND nodes id).map NodeData.dependencies).getD []

/-- The reverse dependencies currently recorded for a node. -/
def revsOf (nodes : List (α × NodeData α)) (id : α) : List α :=
  ((lookupND nodes id).map NodeData.revDependencies).getD []

/-- Edge relation of a graph: `a` depends on `b`, i.e. `add_dependency(a, b)`
was recorded. -/
def hasEdge (g : DepGraph α) (depender dependee : α) : Prop :=
  dependee ∈ depsOf g.nodes depender

instance (g : DepGraph α) (a b : α) : Decidable (hasEdge g a b) := by
  unfold hasEdge; infer_instance

/-- One step of the `for depender_id in rev_deps` loop body of
`topological_sort`: remove the processed dependee from one depender's
dependency set and enqueue the depender if it just became ready. -/
def removeDepStep (dependee : α) :
    List (α × NodeData α) × List α → α → List (α × NodeData α) × List α :=
  fun st r =>
    let nodes' := updateND (fun d => { d with dependencies := d.dependencies.erase dependee })
      st.1 r
    let nowEmpty := match lookupND nodes' r with
      | some d => d.dependencies.isEmpty
      | none => false      -- unreachable: `node_mut` would panic in the source
    (nodes', if nowEmpty then st.2 ++ [r] else st.2)

/-- Number of reverse-dependency edges still stored; used only as fuel bound
for the Kahn loop. -/
def edgeRevCount (nodes : List (α × NodeData α)) : Nat :=
  (nodes.map (fun p => p.2.revDependencies.length)).sum

/-- The Kahn loop of `topological_sort`, with explicit fuel (the source loop
terminates because every iteration consumes one queue slot and queue pushes
are paid for by removed reverse edges; `kahnFuel` below is always enough).
State: current node map, pending queue, processed output. -/
def kahnLoop : Nat → List (α × NodeData α) → List α → List α →
    List α × List (α × NodeData α)
  | 0, nodes, _, out => (out, nodes)    -- unreachable with adequate fuel
  | _ + 1, nodes, [], out => (out, nodes)
  | fuel + 1, nodes, id :: rest, out =>
    -- `mem::take(&mut self.node_mut(dependee_id).rev_dependencies)`
    let revs := revsOf nodes id
    let nodes1 := updateND (fun d => { d with revDependencies := [] }) nodes id
    let st := revs.foldl (removeDepStep id) (nodes1, [])
    kahnLoop fuel st.1 (rest ++ st.2) (out ++ [id])

/-- Fuel that always suffices for `kahnLoop` (strictly larger than the
decreasing measure `edgeRevCount + pending length`). -/
def kahnFuel (nodes : List (α × NodeData α)) (pending : List α) : Nat :=
  edgeRevCount nodes + pending.length + 1

/-- Position of the first occurrence of an element (models
`Iterator::position`). -/
def posOf : List α → α → Option Nat
  | [], _ => none
  | x :: rest, a =>
    if x = a then some 0 else (posOf rest a).map (· + 1)

/-- The cycle-reconstruction walk of `topological_sort`: follow an arbitrary
(first) remaining dependency edge until a visited node repeats, then return
the sub-path starting at the first repeat.  Fuel is always sufficient in the
reachable states (proved below). -/
def cycleWalk (nodes : List (α × NodeData α)) :
    Nat → List α → α → List α
  | 0, _, _ => []        -- unreachable with adequate fuel
  | fuel + 1, out, id =>
    match depsOf nodes id with
    | [] => []           -- unreachable: `unwrap` in the source
    | next :: _ =>
      match posOf out next with
      | some pos => out.drop pos   -- `out.drain(..pos); return Err(out)`
      | none => cycleWalk nodes fuel (out ++ [next]) next

/-- Models `DepGraph::topological_sort` (Kahn's algorithm; on failure one
concrete cycle is returned as the error). -/
def DepGraph.topologicalSort (g : DepGraph α) : Except (List α) (List α) :=
  let queue0 := (g.nodes.filter (fun p => p.2.dependencies.isEmpty)).map (·.1)
  let res := kahnLoop (kahnFuel g.nodes queue0) g.nodes queue0 []
  let order := res.1
  let rem := res.2
  if order.length = g.nodes.length then
    .ok order
  else
    match rem.find? (fun p => !p.2.dependencies.isEmpty) with
    | none => .error []  -- unreachable: `expect` in the source
    | some s => .error (cycleWalk rem (rem.length + 1) [s.1] s.1)

/-! ### Building a graph from a sequence of calls

Claims C1 and C2 quantify over every graph built by `add_asset` /
`add_dependency` calls, which we represent as a list of operations. -/

inductive GraphOp (α : Type) where
  | addAsset (id : α)
  | addDep (depender dependee : α)
deriving Repr, DecidableEq

def applyOp (g : DepGraph α) : GraphOp α → DepGraph α
  | .addAsset id => g.addAsset id
  | .addDep a b => g.addDependency a b

def buildGraph (ops : List (GraphOp α)) : DepGraph α :=
  ops.foldl applyOp DepGraph.empty

/-- A node was added to the graph (explicitly or as an edge endpoint). -/
def addedIn (ops : List (GraphOp α)) (x : α) : Prop :=
  (GraphOp.addAsset x) ∈ ops ∨ (∃ b, (GraphOp.addDep x b) ∈ ops) ∨
    (∃ a, (GraphOp.addDep a x) ∈ ops)

/-- Consecutive pairs of a list, wrapping from the last element back to the
first: for [a, b, c] this is [(a, b), (b, c), (c, a)]. -/
def wrapPairs (c : List α) : List (α × α) :=
  c.zip (c.rotate 1)

/-- A (directed) cycle of the graph: a non-empty node sequence in which every
consecutive pair, wrapping around, is a recorded edge (depender, dependee). -/
def IsCycleOf (g : DepGraph α) (c : List α) : Prop :=
  c ≠ [] ∧ ∀ p ∈ wrapPairs c, hasEdge g p.1 p.2

/-- The edge set of the graph is acyclic. -/
def Acyclic (g : DepGraph α) : Prop :=
  ∀ c : List α, ¬ IsCycleOf g c

/-! ### Association-list lemmas -/

theorem lookupND_eq_none {ns : List (α × NodeData α)} {id : α} :
    lookupND ns id = none ↔ id ∉ ns.map Prod.fst := by
  induction ns with
  | nil => simp [lookupND]
  | cons p rest ih =>
    obtain ⟨k, d⟩ := p
    by_cases h : k = id
    · subst h; simp [lookupND]
    · have h2 : ¬ id = k := fun he => h he.symm
      simp only [lookupND, if_neg h, ih, List.map_cons, List.mem_cons]
      tauto

theorem lookupND_updateND (f : NodeData α → NodeData α)
    (ns : List (α × NodeData α)) (id j : α) :
    lookupND (updateND f ns id) j =
      if j = id then (lookupND ns id).map f else lookupND ns j := by
  induction ns with
  | nil => simp [updateND, lookupND]
  | cons p rest ih =>
    obtain ⟨k, d⟩ := p
    by_cases hk : k = id
    · subst hk
      by_cases hj : j = k
      · subst hj; simp [updateND, lookupND]
      · have h2 : ¬ k = j := fun he => hj he.symm
        simp [updateND, lookupND, hj, h2]
    · by_cases hj : k = j
      · subst hj
        have h2 : ¬ k = id := hk
        simp [updateND, lookupND, hk, h2]
      · simp [updateND, lookupND, hk, hj, ih]

theorem keys_updateND (f : NodeData α → NodeData α)
    (ns : List (α × NodeData α)) (id : α) :
    (updateND f ns id).map Prod.fst = ns.map Prod.fst := by
  induction ns with
  | nil => simp [updateND]
  | cons p rest ih =>
    obtain ⟨k, d⟩ := p
    by_cases hk : k = id <;> simp [updateND, hk, ih]

theorem lookupND_entryOrDefault (ns : List (α × NodeData α)) (id j : α) :
    lookupND (entryOrDefault ns id) j =
      if j = id then some ((lookupND ns id).getD NodeData.empty)
      else lookupND ns j := by
  induction ns with
  | nil =>
    by_cases hj : j = id
    · subst hj; simp [entryOrDefault, lookupND]
    · have h2 : ¬ id = j := fun he => hj he.symm
      simp [entryOrDefault, lookupND, hj, h2]
  | cons p rest ih =>
    obtain ⟨k, d⟩ := p
    by_cases hk : k = id
    · subst hk
      by_cases hj : j = k
      · subst hj; simp [entryOrDefault, lookupND]
      · have h2 : ¬ k = j := fun he => hj he.symm
        simp [entryOrDefault, lookupND, hj, h2]
    · by_cases hj : k = j
      · subst hj
        have h2 : ¬ k = id := hk
        simp [entryOrDefault, lookupND, hk, h2]
      · simp [entryOrDefault, lookupND, hk, hj, ih]

theorem keys_entryOrDefault (ns : List (α × NodeData α)) (id : α) :
    (entryOrDefault ns id).map Prod.fst =
      if id ∈ ns.map Prod.fst then ns.map Prod.fst else ns.map Prod.fst ++ [id] := by
  induction ns with
  | nil => simp [entryOrDefault]
  | cons p rest ih =>
    obtain ⟨k, d⟩ := p
    by_cases hk : k = id
    · simp [entryOrDefault, hk]
    · have : ¬ id = k := fun h => hk h.symm
      by_cases hm : id ∈ rest.map Prod.fst <;>
        simp [entryOrDefault, hk, ih, hm, this]

theorem mem_setInsert {x y : α} {xs : List α} :
    x ∈ setInsert y xs ↔ x = y ∨ x ∈ xs := by
  by_cases h : y ∈ xs
  · simp only [setInsert, if_pos h]
    constructor
    · exact Or.inr
    · rintro (rfl | hx)
      · exact h
      · exact hx
  · simp [setInsert, h, or_comm]

theorem setInsert_nodup {y : α} {xs : List α} (h : xs.Nodup) :
    (setInsert y xs).Nodup := by
  unfold setInsert
  by_cases hm : y ∈ xs
  · simpa [hm]
  · simp [hm, List.nodup_append, h, hm]

theorem lookupND_mem {ns : List (α × NodeData α)} {id : α} {d : NodeData α}
    (h : lookupND ns id = some d) : (id, d) ∈ ns := by
  induction ns with
  | nil => simp [lookupND] at h
  | cons p rest ih =>
    obtain ⟨k, d0⟩ := p
    by_cases hk : k = id
    · subst hk
      simp [lookupND] at h
      simp [h]
    · simp [lookupND, hk] at h
      exact List.mem_cons_of_mem _ (ih h)

theorem lookupND_of_mem {ns : List (α × NodeData α)} {id : α} {d : NodeData α}
    (hnd : (ns.map Prod.fst).Nodup) (h : (id, d) ∈ ns) : lookupND ns id = some d := by
  induction ns with
  | nil => simp at h
  | cons p rest ih =>
    obtain ⟨k, d0⟩ := p
    rw [List.map_cons, List.nodup_cons] at hnd
    obtain ⟨hk1, hk2⟩ := hnd
    rcases List.mem_cons.mp h with h1 | h1
    · rw [Prod.mk.injEq] at h1
      obtain ⟨h2, h3⟩ := h1
      subst h2; subst h3
      simp [lookupND]
    · have hk : k ≠ id := by
        intro he; subst he
        exact hk1 (List.mem_map.mpr ⟨(k, d), h1, rfl⟩)
      simp [lookupND, hk]
      exact ih hk2 h1

theorem posOf_eq_none_iff {l : List α} {a : α} : posOf l a = none ↔ a ∉ l := by
  induction l with
  | nil => simp [posOf]
  | cons x rest ih =>
    by_cases hx : x = a
    · simp [posOf, hx]
    · have hax : ¬ a = x := fun he => hx he.symm
      simp [posOf, hx, Option.map_eq_none', ih, hax]

theorem posOf_spec {l : List α} {a : α} {i : Nat} (h : posOf l a = some i) :
    ∃ hi : i < l.length, l.get ⟨i, hi⟩ = a := by
  induction l generalizing i with
  | nil => simp [posOf] at h
  | cons x rest ih =>
    by_cases hx : x = a
    · simp [posOf, hx] at h
      subst h
      exact ⟨by simp, hx⟩
    · simp [posOf, hx] at h
      obtain ⟨j, hj, hji⟩ := h
      obtain ⟨hlt, hget⟩ := ih hj
      subst hji
      exact ⟨by simpa using Nat.succ_lt_succ hlt, by simpa using hget⟩

theorem posOf_drop {l : List α} {a : α} {i : Nat} (h : posOf l a = some i) :
    ∃ t, l.drop i = a :: t := by
  induction l generalizing i with
  | nil => simp [posOf] at h
  | cons x rest ih =>
    by_cases hx : x = a
    · simp [posOf, hx] at h
      subst h hx
      exact ⟨rest, rfl⟩
    · simp [posOf, hx] at h
      obtain ⟨j, hj, hji⟩ := h
      subst hji
      simpa using ih hj

theorem posOf_take {l : List α} {a : α} {n : Nat} (h : a ∈ l.take n) :
    ∃ i, posOf l a = some i ∧ i < n := by
  induction l generalizing n with
  | nil => simp at h
  | cons x rest ih =>
    cases n with
    | zero => simp at h
    | succ m =>
      by_cases hx : x = a
      · exact ⟨0, by simp [posOf, hx], Nat.succ_pos m⟩
      · simp [hx, eq_comm] at h
        obtain ⟨i, hi, hlt⟩ := ih (h.resolve_left (fun he => hx he.symm))
        exact ⟨i + 1, by simp [posOf, hx, hi], Nat.succ_lt_succ hlt⟩

theorem posOf_getElem_nodup {l : List α} {a : α} {j : Nat} (hnd : l.Nodup)
    (hj : j < l.length) (hget : l.get ⟨j, hj⟩ = a) : posOf l a = some j := by
  induction l generalizing j with
  | nil => simp at hj
  | cons x rest ih =>
    simp at hnd
    cases j with
    | zero =>
      simp at hget
      simp [posOf, hget]
    | succ m =>
      simp at hget
      have hm : m < rest.length := by simpa using Nat.lt_of_succ_lt_succ hj
      have hx : x ≠ a := by
        intro he; subst he
        exact hnd.1 (hget ▸ List.get_mem rest m hm)
      simp [posOf, hx, ih hnd.2 hm hget]

/-! ### Characterization of the graph-building operations -/

theorem depsOf_updateND_of_fix {f : NodeData α → NodeData α}
    (hf : ∀ d, (f d).dependencies = d.dependencies)
    (ns : List (α × NodeData α)) (id k : α) :
    depsOf (updateND f ns id) k = depsOf ns k := by
  unfold depsOf
  rw [lookupND_updateND]
  by_cases hk : k = id
  · subst hk
    cases lookupND ns k <;> simp [hf]
  · simp [hk]

theorem revsOf_updateND_of_fix {f : NodeData α → NodeData α}
    (hf : ∀ d, (f d).revDependencies = d.revDependencies)
    (ns : List (α × NodeData α)) (id k : α) :
    revsOf (updateND f ns id) k = revsOf ns k := by
  unfold revsOf
  rw [lookupND_updateND]
  by_cases hk : k = id
  · subst hk
    cases lookupND ns k <;> simp [hf]
  · simp [hk]

theorem depsOf_entryOrDefault (ns : List (α × NodeData α)) (id k : α) :
    depsOf (entryOrDefault ns id) k = depsOf ns k := by
  unfold depsOf
  rw [lookupND_entryOrDefault]
  by_cases hk : k = id
  · subst hk
    cases lookupND ns k <;> simp [NodeData.empty]
  · simp [hk]

theorem revsOf_entryOrDefault (ns : List (α × NodeData α)) (id k : α) :
    revsOf (entryOrDefault ns id) k = revsOf ns k := by
  unfold revsOf
  rw [lookupND_entryOrDefault]
  by_cases hk : k = id
  · subst hk
    cases lookupND ns k <;> simp [NodeData.empty]
  · simp [hk]

theorem mem_keys_entryOrDefault (ns : List (α × NodeData α)) (id k : α) :
    k ∈ (entryOrDefault ns id).map Prod.fst ↔ k ∈ ns.map Prod.fst ∨ k = id := by
  rw [keys_entryOrDefault]
  by_cases h : id ∈ ns.map Prod.fst
  · simp only [if_pos h]
    constructor
    · exact Or.inl
    · rintro (hk | rfl)
      · exact hk
      · exact h
  · simp [if_neg h]

theorem nodup_keys_entryOrDefault {ns : List (α × NodeData α)} (id : α)
    (h : (ns.map Prod.fst).Nodup) : ((entryOrDefault ns id).map Prod.fst).Nodup := by
  rw [keys_entryOrDefault]
  by_cases hm : id ∈ ns.map Prod.fst
  · simpa [hm]
  · simp [hm, List.nodup_append, h]

theorem depsOf_addAsset (g : DepGraph α) (id k : α) :
    depsOf (g.addAsset id).nodes k = depsOf g.nodes k :=
  depsOf_entryOrDefault g.nodes id k

theorem revsOf_addAsset (g : DepGraph α) (id k : α) :
    revsOf (g.addAsset id).nodes k = revsOf g.nodes k :=
  revsOf_entryOrDefault g.nodes id k

theorem mem_keys_addAsset (g : DepGraph α) (id k : α) :
    k ∈ (g.addAsset id).nodes.map Prod.fst ↔ k ∈ g.nodes.map Prod.fst ∨ k = id :=
  mem_keys_entryOrDefault g.nodes id k

theorem depsOf_setInsert_lookup (ns : List (α × NodeData α)) (b id : α) :
    depsOf (updateND (fun d => { d with dependencies := setInsert b d.dependencies })
      (entryOrDefault ns id) id) id = setInsert b (depsOf ns id) := by
  unfold depsOf
  rw [lookupND_updateND, if_pos rfl, lookupND_entryOrDefault, if_pos rfl]
  cases lookupND ns id <;> simp [NodeData.empty]

theorem depsOf_addDependency (g : DepGraph α) (a b k : α) :
    depsOf (g.addDependency a b).nodes k =
      if k = a then setInsert b (depsOf g.nodes a) else depsOf g.nodes k := by
  show depsOf (updateND _ (entryOrDefault _ b) b) k = _
  rw [depsOf_updateND_of_fix (by intro d; rfl), depsOf_entryOrDefault]
  by_cases hk : k = a
  · subst hk
    rw [if_pos rfl]
    exact depsOf_setInsert_lookup g.nodes b k
  · rw [if_neg hk]
    unfold depsOf
    rw [lookupND_updateND, if_neg hk, lookupND_entryOrDefault, if_neg hk]

theorem revsOf_setInsert_lookup (ns : List (α × NodeData α)) (a id : α) :
    revsOf (updateND (fun d => { d with revDependencies := setInsert a d.revDependencies })
      (entryOrDefault ns id) id) id = setInsert a (revsOf ns id) := by
  unfold revsOf
  rw [lookupND_updateND, if_pos rfl, lookupND_entryOrDefault, if_pos rfl]
  cases lookupND ns id <;> simp [NodeData.empty]

theorem revsOf_addDependency (g : DepGraph α) (a b k : α) :
    revsOf (g.addDependency a b).nodes k =
      if k = b then setInsert a (revsOf g.nodes b) else revsOf g.nodes k := by
  have hfix : revsOf (updateND (fun d =>
      { d with dependencies := setInsert b d.dependencies })
      (entryOrDefault g.nodes a) a) k = revsOf g.nodes k := by
    rw [revsOf_updateND_of_fix (by intro d; rfl), revsOf_entryOrDefault]
  by_cases hk : k = b
  · rw [if_pos hk, hk]
    show revsOf (updateND _ (entryOrDefault (updateND (fun d =>
      { d with dependencies := setInsert b d.dependencies })
      (entryOrDefault g.nodes a) a) b) b) b = _
    rw [revsOf_setInsert_lookup]
    congr 1
    rw [revsOf_updateND_of_fix (by intro d; rfl), revsOf_entryOrDefault]
  · rw [if_neg hk]
    show revsOf (updateND _ (entryOrDefault _ b) b) k = _
    unfold revsOf
    rw [lookupND_updateND, if_neg hk, lookupND_entryOrDefault, if_neg hk]
    exact hfix

theorem mem_keys_addDependency (g : DepGraph α) (a b k : α) :
    k ∈ (g.addDependency a b).nodes.map Prod.fst ↔
      k ∈ g.nodes.map Prod.fst ∨ k = a ∨ k = b := by
  show k ∈ (updateND _ (entryOrDefault _ b) b).map Prod.fst ↔ _
  rw [keys_updateND, mem_keys_entryOrDefault, keys_updateND, mem_keys_entryOrDefault]
  tauto

theorem nodup_keys_addAsset {g : DepGraph α} (id : α)
    (h : (g.nodes.map Prod.fst).Nodup) : ((g.addAsset id).nodes.map Prod.fst).Nodup :=
  nodup_keys_entryOrDefault id h

theorem nodup_keys_addDependency {g : DepGraph α} (a b : α)
    (h : (g.nodes.map Prod.fst).Nodup) :
    ((g.addDependency a b).nodes.map Prod.fst).Nodup := by
  show ((updateND _ (entryOrDefault _ b) b).map Prod.fst).Nodup
  rw [keys_updateND]
  apply nodup_keys_entryOrDefault
  rw [keys_updateND]
  exact nodup_keys_entryOrDefault a h

/-! ### Well-formedness of built graphs -/

/-- Invariants of any graph reachable by `add_asset` / `add_dependency`:
unique keys, duplicate-free edge sets, edge targets are keys, and the
dependency and reverse-dependency sets mirror each other. -/
structure WFG (g : DepGraph α) : Prop where
  keys_nodup : (g.nodes.map Prod.fst).Nodup
  deps_nodup : ∀ k, (depsOf g.nodes k).Nodup
  revs_nodup : ∀ k, (revsOf g.nodes k).Nodup
  deps_keys : ∀ k x, x ∈ depsOf g.nodes k → x ∈ g.nodes.map Prod.fst
  revs_keys : ∀ k x, x ∈ revsOf g.nodes k → x ∈ g.nodes.map Prod.fst
  sym : ∀ k x, x ∈ depsOf g.nodes k ↔ k ∈ revsOf g.nodes x

theorem WFG.empty : WFG (DepGraph.empty (α := α)) := by
  constructor <;> simp [DepGraph.empty, depsOf, revsOf, lookupND]

theorem WFG.addAsset {g : DepGraph α} (h : WFG g) (id : α) : WFG (g.addAsset id) := by
  constructor
  · exact nodup_keys_addAsset id h.keys_nodup
  · intro k; rw [depsOf_addAsset]; exact h.deps_nodup k
  · intro k; rw [revsOf_addAsset]; exact h.revs_nodup k
  · intro k x hx
    rw [depsOf_addAsset] at hx
    exact (mem_keys_addAsset g id x).mpr (Or.inl (h.deps_keys k x hx))
  · intro k x hx
    rw [revsOf_addAsset] at hx
    exact (mem_keys_addAsset g id x).mpr (Or.inl (h.revs_keys k x hx))
  · intro k x
    rw [depsOf_addAsset, revsOf_addAsset]
    exact h.sym k x

theorem WFG.addDependency {g : DepGraph α} (h : WFG g) (a b : α) :
    WFG (g.addDependency a b) := by
  constructor
  · exact nodup_keys_addDependency a b h.keys_nodup
  · intro k
    rw [depsOf_addDependency]
    by_cases hk : k = a
    · simp only [if_pos hk]
      exact setInsert_nodup (h.deps_nodup a)
    · simp only [if_neg hk]
      exact h.deps_nodup k
  · intro k
    rw [revsOf_addDependency]
    by_cases hk : k = b
    · simp only [if_pos hk]
      exact setInsert_nodup (h.revs_nodup b)
    · simp only [if_neg hk]
      exact h.revs_nodup k
  · intro k x hx
    rw [depsOf_addDependency] at hx
    rw [mem_keys_addDependency]
    by_cases hk : k = a
    · rw [if_pos hk] at hx
      rcases mem_setInsert.mp hx with rfl | hx2
      · tauto
      · exact Or.inl (h.deps_keys a x hx2)
    · rw [if_neg hk] at hx
      exact Or.inl (h.deps_keys k x hx)
  · intro k x hx
    rw [revsOf_addDependency] at hx
    rw [mem_keys_addDependency]
    by_cases hk : k = b
    · rw [if_pos hk] at hx
      rcases mem_setInsert.mp hx with rfl | hx2
      · tauto
      · exact Or.inl (h.revs_keys b x hx2)
    · rw [if_neg hk] at hx
      exact Or.inl (h.revs_keys k x hx)
  · intro k x
    rw [depsOf_addDependency, revsOf_addDependency]
    by_cases hk : k = a
    · subst hk
      rw [if_pos rfl]
      by_cases hx : x = b
      · subst hx
        rw [if_pos rfl, mem_setInsert, mem_setInsert]
        simp [h.sym k x]
      · rw [if_neg hx, mem_setInsert]
        have : ¬ x = b := hx
        simp only [this, false_or]
        exact h.sym k x
    · rw [if_neg hk]
      by_cases hx : x = b
      · subst hx
        rw [if_pos rfl, mem_setInsert]
        have : ¬ k = a := hk
        simp only [this, false_or]
        exact h.sym k x
      · rw [if_neg hx]
        exact h.sym k x

theorem WFG.buildAux (g : DepGraph α) (ops : List (GraphOp α)) (h : WFG g) :
    WFG (ops.foldl applyOp g) := by
  induction ops generalizing g with
  | nil => exact h
  | cons op rest ih =>
    cases op with
    | addAsset id => exact ih _ (h.addAsset id)
    | addDep a b => exact ih _ (h.addDependency a b)

theorem WFG.build (ops : List (GraphOp α)) : WFG (buildGraph ops) :=
  WFG.buildAux _ ops WFG.empty

/-! ### Edges and keys of built graphs -/

theorem hasEdge_addDependency (g : DepGraph α) (a b x y : α) :
    hasEdge (g.addDependency a b) x y ↔ (x = a ∧ y = b) ∨ hasEdge g x y := by
  unfold hasEdge
  rw [depsOf_addDependency]
  by_cases hx : x = a
  · subst hx
    rw [if_pos rfl, mem_setInsert]
    tauto
  · rw [if_neg hx]
    tauto

theorem hasEdge_addAsset (g : DepGraph α) (id x y : α) :
    hasEdge (g.addAsset id) x y ↔ hasEdge g x y := by
  unfold hasEdge
  rw [depsOf_addAsset]

theorem hasEdge_foldl (ops : List (GraphOp α)) (g : DepGraph α) (x y : α) :
    hasEdge (ops.foldl applyOp g) x y ↔ GraphOp.addDep x y ∈ ops ∨ hasEdge g x y := by
  induction ops generalizing g with
  | nil => simp
  | cons op rest ih =>
    cases op with
    | addAsset id =>
      rw [List.foldl_cons, List.mem_cons]
      show hasEdge (rest.foldl applyOp (g.addAsset id)) x y ↔ _
      rw [ih, hasEdge_addAsset]
      simp
    | addDep a b =>
      rw [List.foldl_cons, List.mem_cons]
      show hasEdge (rest.foldl applyOp (g.addDependency a b)) x y ↔ _
      rw [ih, hasEdge_addDependency]
      constructor
      · rintro (hm | (⟨rfl, rfl⟩ | he))
        · exact Or.inl (Or.inr hm)
        · exact Or.inl (Or.inl rfl)
        · exact Or.inr he
      · rintro ((he | hm) | he)
        · rw [GraphOp.addDep.injEq] at he
          exact Or.inr (Or.inl ⟨he.1, he.2⟩)
        · exact Or.inl hm
        · exact Or.inr (Or.inr he)

/-- Edges of a built graph are exactly the recorded `add_dependency` calls. -/
theorem hasEdge_buildGraph (ops : List (GraphOp α)) (x y : α) :
    hasEdge (buildGraph ops) x y ↔ GraphOp.addDep x y ∈ ops := by
  unfold buildGraph
  rw [hasEdge_foldl]
  have : ¬ hasEdge DepGraph.empty x y := by
    unfold hasEdge depsOf DepGraph.empty
    simp [lookupND]
  tauto

theorem addedIn_cons_addAsset (id : α) (rest : List (GraphOp α)) (k : α) :
    addedIn (GraphOp.addAsset id :: rest) k ↔ k = id ∨ addedIn rest k := by
  unfold addedIn
  simp only [List.mem_cons]
  aesop

theorem addedIn_cons_addDep (a b : α) (rest : List (GraphOp α)) (k : α) :
    addedIn (GraphOp.addDep a b :: rest) k ↔ k = a ∨ k = b ∨ addedIn rest k := by
  unfold addedIn
  simp only [List.mem_cons]
  aesop

theorem mem_keys_foldl (ops : List (GraphOp α)) (g : DepGraph α) (k : α) :
    k ∈ (ops.foldl applyOp g).nodes.map Prod.fst ↔
      k ∈ g.nodes.map Prod.fst ∨ addedIn ops k := by
  induction ops generalizing g with
  | nil => simp [addedIn]
  | cons op rest ih =>
    cases op with
    | addAsset id =>
      rw [List.foldl_cons]
      show k ∈ ((rest.foldl applyOp (g.addAsset id)).nodes.map Prod.fst) ↔ _
      rw [ih, mem_keys_addAsset, addedIn_cons_addAsset]
      tauto
    | addDep a b =>
      rw [List.foldl_cons]
      show k ∈ ((rest.foldl applyOp (g.addDependency a b)).nodes.map Prod.fst) ↔ _
      rw [ih, mem_keys_addDependency, addedIn_cons_addDep]
      tauto

/-- Keys of a built graph are exactly the nodes ever added. -/
theorem mem_keys_buildGraph (ops : List (GraphOp α)) (k : α) :
    k ∈ (buildGraph ops).nodes.map Prod.fst ↔ addedIn ops k := by
  unfold buildGraph
  rw [mem_keys_foldl]
  simp [DepGraph.empty]

/-! ### The inner edge-removal fold of the Kahn loop -/

theorem depsOf_updateND_erase (dee : α) (ns : List (α × NodeData α)) (r k : α) :
    depsOf (updateND (fun d => { d with dependencies := d.dependencies.erase dee }) ns r) k =
      if k = r then (depsOf ns k).erase dee else depsOf ns k := by
  unfold depsOf
  rw [lookupND_updateND]
  by_cases hk : k = r
  · subst hk
    cases lookupND ns k <;> simp
  · simp [hk]

theorem removeDepStep_fst (dee : α) (st : List (α × NodeData α) × List α) (r : α) :
    (removeDepStep dee st r).1 =
      updateND (fun d => { d with dependencies := d.dependencies.erase dee }) st.1 r := rfl

theorem removeDepStep_snd (dee : α) (st : List (α × NodeData α) × List α) (r : α) :
    (removeDepStep dee st r).2 =
      if decide (r ∈ st.1.map Prod.fst) && ((depsOf st.1 r).erase dee).isEmpty
      then st.2 ++ [r] else st.2 := by
  show (if _ then st.2 ++ [r] else st.2) = _
  congr 1
  rw [lookupND_updateND, if_pos rfl]
  rcases hc : lookupND st.1 r with _ | d
  · rw [lookupND_eq_none] at hc
    simp [hc]
  · have hr : r ∈ st.1.map Prod.fst := by
      by_contra hn
      rw [← lookupND_eq_none] at hn
      rw [hn] at hc
      cases hc
    simp [hr, depsOf, hc]

theorem foldl_removeDep_keys (dee : α) (rs : List α) (ns : List (α × NodeData α))
    (acc : List α) :
    ((rs.foldl (removeDepStep dee) (ns, acc)).1).map Prod.fst = ns.map Prod.fst := by
  induction rs generalizing ns acc with
  | nil => rfl
  | cons r rest ih =>
    rw [List.foldl_cons]
    rcases hst : removeDepStep dee (ns, acc) r with ⟨ns1, acc1⟩
    have h1 : ns1 = updateND
        (fun d => { d with dependencies := d.dependencies.erase dee }) ns r := by
      rw [← removeDepStep_fst dee (ns, acc) r, hst]
    rw [ih ns1 acc1, h1, keys_updateND]

theorem foldl_removeDep_revs (dee : α) (rs : List α) (ns : List (α × NodeData α))
    (acc : List α) (k : α) :
    revsOf ((rs.foldl (removeDepStep dee) (ns, acc)).1) k = revsOf ns k := by
  induction rs generalizing ns acc with
  | nil => rfl
  | cons r rest ih =>
    rw [List.foldl_cons]
    rcases hst : removeDepStep dee (ns, acc) r with ⟨ns1, acc1⟩
    have h1 : ns1 = updateND
        (fun d => { d with dependencies := d.dependencies.erase dee }) ns r := by
      rw [← removeDepStep_fst dee (ns, acc) r, hst]
    rw [ih ns1 acc1, h1, revsOf_updateND_of_fix (by intro d; rfl)]

theorem foldl_removeDep_deps (dee : α) (rs : List α) (hnd : rs.Nodup)
    (ns : List (α × NodeData α)) (acc : List α) (k : α) :
    depsOf ((rs.foldl (removeDepStep dee) (ns, acc)).1) k =
      if k ∈ rs then (depsOf ns k).erase dee else depsOf ns k := by
  induction rs generalizing ns acc with
  | nil => simp
  | cons r rest ih =>
    rw [List.nodup_cons] at hnd
    rw [List.foldl_cons]
    rcases hst : removeDepStep dee (ns, acc) r with ⟨ns1, acc1⟩
    have h1 : ns1 = updateND
        (fun d => { d with dependencies := d.dependencies.erase dee }) ns r := by
      rw [← removeDepStep_fst dee (ns, acc) r, hst]
    rw [ih hnd.2 ns1 acc1]
    by_cases hk : k ∈ rest
    · have hkr : k ≠ r := fun he => hnd.1 (he ▸ hk)
      rw [if_pos hk, if_pos (List.mem_cons_of_mem r hk), h1, depsOf_updateND_erase,
        if_neg hkr]
    · rw [if_neg hk, h1, depsOf_updateND_erase]
      by_cases hkr : k = r
      · rw [if_pos hkr, if_pos (hkr ▸ List.mem_cons_self r rest)]
      · rw [if_neg hkr, if_neg (by simp [hkr, hk])]

theorem foldl_removeDep_newly (dee : α) (rs : List α) (hnd : rs.Nodup)
    (ns : List (α × NodeData α)) (acc : List α) :
    (rs.foldl (removeDepStep dee) (ns, acc)).2 =
      acc ++ rs.filter
        (fun r => decide (r ∈ ns.map Prod.fst) && ((depsOf ns r).erase dee).isEmpty) := by
  induction rs generalizing ns acc with
  | nil => simp
  | cons r rest ih =>
    rw [List.nodup_cons] at hnd
    rw [List.foldl_cons]
    rcases hst : removeDepStep dee (ns, acc) r with ⟨ns1, acc1⟩
    have h1 : ns1 = updateND
        (fun d => { d with dependencies := d.dependencies.erase dee }) ns r := by
      rw [← removeDepStep_fst dee (ns, acc) r, hst]
    have h2 : acc1 = if decide (r ∈ ns.map Prod.fst) && ((depsOf ns r).erase dee).isEmpty
        then acc ++ [r] else acc := by
      rw [← removeDepStep_snd dee (ns, acc) r, hst]
    rw [ih hnd.2 ns1 acc1]
    have hfil : rest.filter
        (fun x => decide (x ∈ ns1.map Prod.fst) && ((depsOf ns1 x).erase dee).isEmpty) =
      rest.filter
        (fun x => decide (x ∈ ns.map Prod.fst) && ((depsOf ns x).erase dee).isEmpty) := by
      apply List.filter_congr
      intro x hx
      have hxr : x ≠ r := fun he => hnd.1 (he ▸ hx)
      rw [h1, keys_updateND, depsOf_updateND_erase, if_neg hxr]
    rw [hfil, h2, List.filter_cons]
    by_cases hp : (decide (r ∈ ns.map Prod.fst) && ((depsOf ns r).erase dee).isEmpty) = true
    · rw [if_pos hp, if_pos hp]
      simp
    · rw [if_neg hp, if_neg hp]

/-! ### The Kahn loop invariant -/

/-- Invariant of the Kahn traversal relative to the starting node map `ns0`:
keys are stable, processed/pending nodes are distinct keys, current dependency
sets are the original ones minus edges into processed nodes, reverse sets are
cleared exactly for processed nodes, pending nodes are ready, unreached nodes
still have dependencies, and every processed node's original dependencies were
processed before it. -/
structure KInv (ns0 ns : List (α × NodeData α)) (pending out : List α) : Prop where
  keys_eq : ns.map Prod.fst = ns0.map Prod.fst
  nodup : (out ++ pending).Nodup
  mem_keys : ∀ k ∈ out ++ pending, k ∈ ns0.map Prod.fst
  deps_eq : ∀ k, depsOf ns k = (depsOf ns0 k).filter (fun x => decide (x ∉ out))
  revs_eq : ∀ k, revsOf ns k = if k ∈ out then [] else revsOf ns0 k
  pending_deps : ∀ k ∈ pending, depsOf ns k = []
  stuck_deps : ∀ k ∈ ns0.map Prod.fst, k ∉ out → k ∉ pending → depsOf ns k ≠ []
  ordered : ∀ i (h : i < out.length), ∀ x ∈ depsOf ns0 (out.get ⟨i, h⟩), x ∈ out.take i

theorem KInv.out_deps {ns0 ns : List (α × NodeData α)} {pending out : List α}
    (inv : KInv ns0 ns pending out) : ∀ k ∈ out, depsOf ns k = [] := by
  intro k hk
  obtain ⟨⟨i, hi⟩, hget⟩ := List.mem_iff_get.mp hk
  rw [inv.deps_eq]
  rw [List.filter_eq_nil]
  intro x hx
  have : x ∈ out.take i := inv.ordered i hi x (hget ▸ hx)
  simp only [decide_eq_true_eq, Decidable.not_not]
  exact List.take_subset i out this

theorem KInv.init {ns0 : List (α × NodeData α)} (W : WFG (DepGraph.mk ns0)) :
    KInv ns0 ns0 ((ns0.filter (fun p => p.2.dependencies.isEmpty)).map (·.1)) [] := by
  have hsub : ((ns0.filter (fun p => p.2.dependencies.isEmpty)).map (·.1)).Sublist
      (ns0.map Prod.fst) :=
    List.Sublist.map _ (List.filter_sublist ns0)
  constructor
  · rfl
  · simpa using hsub.nodup W.keys_nodup
  · intro k hk
    simp only [List.nil_append] at hk
    exact hsub.subset hk
  · intro k
    have : (fun x => decide (x ∉ ([] : List α))) = fun x => true := by
      funext x; simp
    rw [this, List.filter_true]
  · intro k
    simp
  · intro k hk
    simp only [List.mem_map, List.mem_filter] at hk
    obtain ⟨p, ⟨hp, he⟩, hfst⟩ := hk
    have : lookupND ns0 k = some p.2 := by
      apply lookupND_of_mem W.keys_nodup
      rw [← hfst]
      exact hp
    unfold depsOf
    rw [this]
    simpa using he
  · intro k hk hout hpend
    simp only [List.mem_map] at hk
    obtain ⟨p, hp, hfst⟩ := hk
    have hlk : lookupND ns0 k = some p.2 := by
      apply lookupND_of_mem W.keys_nodup
      rw [← hfst]; exact hp
    intro hnil
    unfold depsOf at hnil
    rw [hlk] at hnil
    simp only [Option.map_some', Option.getD_some] at hnil
    apply hpend
    simp only [List.mem_map, List.mem_filter]
    exact ⟨p, ⟨hp, by simp [hnil]⟩, hfst⟩
  · intro i hi
    simp at hi

theorem edgeRevCount_clear (ns : List (α × NodeData α)) (id : α) :
    edgeRevCount (updateND (fun d => { d with revDependencies := [] }) ns id)
      + (revsOf ns id).length = edgeRevCount ns := by
  induction ns with
  | nil => simp [updateND, edgeRevCount, revsOf, lookupND]
  | cons p rest ih =>
    obtain ⟨k, d⟩ := p
    by_cases hk : k = id
    · subst hk
      simp only [updateND, if_pos rfl, edgeRevCount, List.map_cons, List.sum_cons,
        revsOf, lookupND, Option.map_some', Option.getD_some]
      simp [edgeRevCount]
      omega
    · simp only [updateND, if_neg hk, edgeRevCount, List.map_cons, List.sum_cons,
        revsOf, lookupND, if_neg hk]
      have := ih
      unfold edgeRevCount revsOf at this
      omega

theorem edgeRevCount_updateND_of_fix {f : NodeData α → NodeData α}
    (hf : ∀ d, (f d).revDependencies = d.revDependencies)
    (ns : List (α × NodeData α)) (id : α) :
    edgeRevCount (updateND f ns id) = edgeRevCount ns := by
  induction ns with
  | nil => rfl
  | cons p rest ih =>
    obtain ⟨k, d⟩ := p
    by_cases hk : k = id
    · simp [updateND, hk, edgeRevCount, hf]
    · simp only [updateND, if_neg hk, edgeRevCount, List.map_cons, List.sum_cons]
      unfold edgeRevCount at ih
      omega

theorem foldl_removeDep_revcount (dee : α) (rs : List α)
    (ns : List (α × NodeData α)) (acc : List α) :
    edgeRevCount ((rs.foldl (removeDepStep dee) (ns, acc)).1) = edgeRevCount ns := by
  induction rs generalizing ns acc with
  | nil => rfl
  | cons r rest ih =>
    rw [List.foldl_cons]
    rcases hst : removeDepStep dee (ns, acc) r with ⟨ns1, acc1⟩
    have h1 : ns1 = updateND
        (fun d => { d with dependencies := d.dependencies.erase dee }) ns r := by
      rw [← removeDepStep_fst dee (ns, acc) r, hst]
    rw [ih ns1 acc1, h1, edgeRevCount_updateND_of_fix (by intro d; rfl)]

theorem revsOf_updateND_clear (ns : List (α × NodeData α)) (id k : α) :
    revsOf (updateND (fun d => { d with revDependencies := [] }) ns id) k =
      if k = id then [] else revsOf ns k := by
  unfold revsOf
  rw [lookupND_updateND]
  by_cases hk : k = id
  · subst hk
    rw [if_pos rfl, if_pos rfl]
    cases lookupND ns k <;> simp
  · simp [hk]

/-- One iteration of the Kahn loop preserves the invariant. -/
theorem KInv.step {ns0 ns : List (α × NodeData α)} {id : α} {rest out : List α}
    (W : WFG (DepGraph.mk ns0)) (inv : KInv ns0 ns (id :: rest) out) :
    KInv ns0
      ((revsOf ns id).foldl (removeDepStep id)
        (updateND (fun d => { d with revDependencies := [] }) ns id, [])).1
      (rest ++ ((revsOf ns id).foldl (removeDepStep id)
        (updateND (fun d => { d with revDependencies := [] }) ns id, [])).2)
      (out ++ [id]) := by
  have h_nodup := inv.nodup
  rw [List.nodup_append] at h_nodup
  obtain ⟨hnd_out, hnd_pend, hdisj⟩ := h_nodup
  rw [List.nodup_cons] at hnd_pend
  obtain ⟨h_id_rest, hnd_rest⟩ := hnd_pend
  have h_id_out : id ∉ out := fun h => hdisj h (List.mem_cons_self id rest)
  have h_revs_orig : revsOf ns id = revsOf ns0 id := by
    rw [inv.revs_eq]
    simp [h_id_out]
  have h_revs_nodup : (revsOf ns id).Nodup := h_revs_orig ▸ W.revs_nodup id
  have deps1 : ∀ k, depsOf (updateND (fun d => { d with revDependencies := [] }) ns id) k
      = depsOf ns k := fun k => depsOf_updateND_of_fix (by intro d; rfl) ns id k
  have st1_deps : ∀ k, depsOf ((revsOf ns id).foldl (removeDepStep id)
      (updateND (fun d => { d with revDependencies := [] }) ns id, [])).1 k =
      if k ∈ revsOf ns id then (depsOf ns k).erase id else depsOf ns k := by
    intro k
    rw [foldl_removeDep_deps id _ h_revs_nodup, deps1]
  have st1_revs : ∀ k, revsOf ((revsOf ns id).foldl (removeDepStep id)
      (updateND (fun d => { d with revDependencies := [] }) ns id, [])).1 k =
      if k = id then [] else revsOf ns k := by
    intro k
    rw [foldl_removeDep_revs, revsOf_updateND_clear]
  have st1_keys : (((revsOf ns id).foldl (removeDepStep id)
      (updateND (fun d => { d with revDependencies := [] }) ns id, [])).1).map Prod.fst =
      ns0.map Prod.fst := by
    rw [foldl_removeDep_keys, keys_updateND, inv.keys_eq]
  have newly_eq : ((revsOf ns id).foldl (removeDepStep id)
      (updateND (fun d => { d with revDependencies := [] }) ns id, [])).2 =
      (revsOf ns id).filter (fun r => ((depsOf ns r).erase id).isEmpty) := by
    rw [foldl_removeDep_newly id _ h_revs_nodup]
    rw [List.nil_append]
    apply List.filter_congr
    intro r hr
    have hrk : r ∈ ns0.map Prod.fst := W.revs_keys id r (h_revs_orig ▸ hr)
    rw [keys_updateND, inv.keys_eq, deps1]
    have hd : decide (r ∈ ns0.map Prod.fst) = true := by
      simpa using hrk
    rw [hd, Bool.true_and]
  have F1 : ∀ k, id ∈ depsOf ns0 k ↔ k ∈ revsOf ns id := by
    intro k
    rw [h_revs_orig]
    exact W.sym k id
  have h_cur_dep : ∀ r ∈ revsOf ns id, id ∈ depsOf ns r := by
    intro r hr
    rw [inv.deps_eq]
    rw [List.mem_filter]
    exact ⟨(F1 r).mpr hr, by simpa using h_id_out⟩
  have N4a : ∀ r ∈ revsOf ns id, r ∉ out := by
    intro r hr hout
    have h1 := inv.out_deps r hout
    have h2 := h_cur_dep r hr
    rw [h1] at h2
    cases h2
  have N4b : ∀ r ∈ revsOf ns id, r ≠ id := by
    intro r hr he
    subst he
    have := inv.pending_deps r (List.mem_cons_self r rest)
    have h2 := h_cur_dep r hr
    rw [this] at h2
    cases h2
  have N4c : ∀ r ∈ revsOf ns id, r ∉ rest := by
    intro r hr hrest
    have := inv.pending_deps r (List.mem_cons_of_mem id hrest)
    have h2 := h_cur_dep r hr
    rw [this] at h2
    cases h2
  have newly_sub : ∀ r ∈ ((revsOf ns id).foldl (removeDepStep id)
      (updateND (fun d => { d with revDependencies := [] }) ns id, [])).2,
      r ∈ revsOf ns id ∧ (depsOf ns r).erase id = [] := by
    intro r hr
    rw [newly_eq, List.mem_filter] at hr
    exact ⟨hr.1, by simpa [List.isEmpty_iff] using hr.2⟩
  constructor
  · exact st1_keys
  · -- Nodup of (out ++ [id]) ++ (rest ++ newly)
    rw [List.nodup_append]
    refine ⟨?_, ?_, ?_⟩
    · rw [List.nodup_append]
      exact ⟨hnd_out, List.nodup_singleton id, by
        intro x hx hx2
        rw [List.mem_singleton] at hx2
        subst hx2
        exact h_id_out hx⟩
    · rw [List.nodup_append]
      refine ⟨hnd_rest, ?_, ?_⟩
      · rw [newly_eq]
        exact h_revs_nodup.filter _
      · intro x hx hx2
        obtain ⟨hrev, _⟩ := newly_sub x hx2
        exact N4c x hrev hx
    · intro x hx hx2
      rw [List.mem_append] at hx hx2
      rcases hx2 with hx2 | hx2
      · rcases hx with hx | hx
        · exact hdisj hx (List.mem_cons_of_mem id hx2)
        · rw [List.mem_singleton] at hx
          subst hx
          exact h_id_rest hx2
      · obtain ⟨hrev, _⟩ := newly_sub x hx2
        rcases hx with hx | hx
        · exact N4a x hrev hx
        · rw [List.mem_singleton] at hx
          exact N4b x hrev hx
  · intro k hk
    rw [List.mem_append] at hk
    rcases hk with hk | hk
    · rw [List.mem_append] at hk
      rcases hk with hk | hk
      · exact inv.mem_keys k (List.mem_append.mpr (Or.inl hk))
      · rw [List.mem_singleton] at hk
        subst hk
        exact inv.mem_keys k (List.mem_append.mpr (Or.inr (List.mem_cons_self k rest)))
    · rw [List.mem_append] at hk
      rcases hk with hk | hk
      · exact inv.mem_keys k (List.mem_append.mpr (Or.inr (List.mem_cons_of_mem id hk)))
      · obtain ⟨hrev, _⟩ := newly_sub k hk
        exact W.revs_keys id k (h_revs_orig ▸ hrev)
  · intro k
    rw [st1_deps]
    by_cases hk : k ∈ revsOf ns id
    · rw [if_pos hk, inv.deps_eq]
      have hnd : ((depsOf ns0 k).filter (fun x => decide (x ∉ out))).Nodup :=
        (W.deps_nodup k).filter _
      rw [hnd.erase_eq_filter, List.filter_filter]
      apply List.filter_congr
      intro x hx
      simp only [List.mem_append, List.mem_singleton, not_or, decide_not]
      cases hxo : decide (x ∈ out) <;> cases hxi : decide (x = id) <;> simp_all
    · rw [if_neg hk, inv.deps_eq]
      apply List.filter_congr
      intro x hx
      have hxi : x ≠ id := by
        intro he
        subst he
        exact hk ((F1 k).mp hx)
      simp only [List.mem_append, List.mem_singleton, not_or]
      simp [hxi]
  · intro k
    rw [st1_revs]
    by_cases hk : k = id
    · subst hk
      rw [if_pos rfl, if_pos (by rw [List.mem_append]; exact Or.inr (List.mem_singleton_self k))]
    · rw [if_neg hk, inv.revs_eq]
      by_cases hko : k ∈ out
      · rw [if_pos hko, if_pos (by rw [List.mem_append]; exact Or.inl hko)]
      · rw [if_neg hko, if_neg (by
          rw [List.mem_append, List.mem_singleton]
          rintro (h | h)
          · exact hko h
          · exact hk h)]
  · intro k hk
    rw [List.mem_append] at hk
    rw [st1_deps]
    rcases hk with hk | hk
    · have h0 := inv.pending_deps k (List.mem_cons_of_mem id hk)
      by_cases hkr : k ∈ revsOf ns id
      · rw [if_pos hkr, h0]
        rfl
      · rw [if_neg hkr, h0]
    · obtain ⟨hrev, hemp⟩ := newly_sub k hk
      rw [if_pos hrev, hemp]
  · intro k hkK hkout hkpend
    have hko : k ∉ out := fun h => hkout (List.mem_append.mpr (Or.inl h))
    have hki : k ≠ id := fun h =>
      hkout (List.mem_append.mpr (Or.inr (List.mem_singleton.mpr h)))
    have hkr : k ∉ rest := fun h => hkpend (List.mem_append.mpr (Or.inl h))
    have hkn : k ∉ ((revsOf ns id).foldl (removeDepStep id)
        (updateND (fun d => { d with revDependencies := [] }) ns id, [])).2 :=
      fun h => hkpend (List.mem_append.mpr (Or.inr h))
    have hold : depsOf ns k ≠ [] := by
      apply inv.stuck_deps k hkK hko
      rw [List.mem_cons]
      rintro (h | h)
      · exact hki h
      · exact hkr h
    rw [st1_deps]
    by_cases hkrev : k ∈ revsOf ns id
    · rw [if_pos hkrev]
      intro hcontra
      apply hkn
      rw [newly_eq, List.mem_filter]
      exact ⟨hkrev, by simp [hcontra]⟩
    · rw [if_neg hkrev]
      exact hold
  · intro i hi x hx
    rw [List.length_append, List.length_singleton] at hi
    rcases Nat.lt_or_ge i out.length with hlt | hge
    · have hget : (out ++ [id]).get ⟨i, by rw [List.length_append]; omega⟩ =
          out.get ⟨i, hlt⟩ := List.get_append i hlt
      rw [hget] at hx
      have := inv.ordered i hlt x hx
      rw [List.take_append_eq_append_take]
      rw [List.mem_append]
      exact Or.inl this
    · have hie : i = out.length := by omega
      subst hie
      have hget : (out ++ [id]).get ⟨out.length, by simp⟩ = id := by
        rw [List.get_append_right] <;> simp
      rw [hget] at hx
      have h0 := inv.pending_deps id (List.mem_cons_self id rest)
      rw [inv.deps_eq] at h0
      rw [List.filter_eq_nil_iff] at h0
      have := h0 x hx
      simp only [decide_eq_true_eq, Decidable.not_not] at this
      rw [List.take_append_eq_append_take]
      rw [List.mem_append]
      exact Or.inl (by
        rw [List.take_of_length_le (le_refl out.length)]
        exact this)

/-- Running the Kahn loop with sufficient fuel preserves the invariant and
drains the pending queue. -/
theorem kahn_run {ns0 : List (α × NodeData α)} (W : WFG (DepGraph.mk ns0)) :
    ∀ (fuel : Nat) (ns : List (α × NodeData α)) (pending out : List α),
    KInv ns0 ns pending out →
    edgeRevCount ns + pending.length < fuel →
    KInv ns0 (kahnLoop fuel ns pending out).2 [] (kahnLoop fuel ns pending out).1 := by
  intro fuel
  induction fuel with
  | zero =>
    intro ns pending out _ hf
    omega
  | succ f ih =>
    intro ns pending out inv hf
    cases pending with
    | nil =>
      show KInv ns0 (out, ns).2 [] (out, ns).1
      constructor <;> first
        | exact inv.keys_eq
        | simpa using inv.nodup
        | (intro k hk; exact inv.mem_keys k (by simpa using hk))
        | exact inv.deps_eq
        | exact inv.revs_eq
        | (intro k hk; cases hk)
        | (intro k h1 h2 h3; exact inv.stuck_deps k h1 h2 (by simp))
        | exact inv.ordered
    | cons id rest =>
      have hstep : kahnLoop (f + 1) ns (id :: rest) out =
          kahnLoop f ((revsOf ns id).foldl (removeDepStep id)
            (updateND (fun d => { d with revDependencies := [] }) ns id, [])).1
          (rest ++ ((revsOf ns id).foldl (removeDepStep id)
            (updateND (fun d => { d with revDependencies := [] }) ns id, [])).2)
          (out ++ [id]) := rfl
      rw [hstep]
      apply ih
      · exact KInv.step W inv
      · -- measure decrease
        have h_id_out : id ∉ out := by
          have h := inv.nodup
          rw [List.nodup_append] at h
          exact fun hm => h.2.2 hm (List.mem_cons_self id rest)
        have h_revs_nodup : (revsOf ns id).Nodup := by
          have : revsOf ns id = revsOf ns0 id := by
            rw [inv.revs_eq]; simp [h_id_out]
          rw [this]
          exact W.revs_nodup id
        have e1 : edgeRevCount ((revsOf ns id).foldl (removeDepStep id)
            (updateND (fun d => { d with revDependencies := [] }) ns id, [])).1 =
            edgeRevCount (updateND (fun d => { d with revDependencies := [] }) ns id) :=
          foldl_removeDep_revcount id _ _ _
        have e2 : edgeRevCount (updateND (fun d => { d with revDependencies := [] }) ns id)
            + (revsOf ns id).length = edgeRevCount ns := edgeRevCount_clear ns id
        have e3 : (((revsOf ns id).foldl (removeDepStep id)
            (updateND (fun d => { d with revDependencies := [] }) ns id, [])).2).length
            ≤ (revsOf ns id).length := by
          rw [foldl_removeDep_newly id _ h_revs_nodup]
          simpa using List.length_filter_le _ _
        simp only [List.length_append, List.length_cons] at hf ⊢
        omega

/-! ### Cycle-walk helpers -/

/-- Adjacent (non-wrapping) pairs of a list. -/
def adjPairs (l : List α) : List (α × α) := l.zip l.tail

theorem zip_concat_of_length : ∀ (l t : List α) (x a : α),
    l.length = t.length + 1 → l.getLast? = some a →
    l.zip (t ++ [x]) = l.zip t ++ [(a, x)]
  | [], t, x, a, h, ha => by simp at ha
  | [b], [], x, a, h, ha => by
    simp at ha
    subst ha
    simp
  | [b], y :: t2, x, a, h, ha => by simp at h
  | b :: c :: l2, [], x, a, h, ha => by simp at h
  | b :: c :: l2, y :: t2, x, a, h, ha => by
    have h2 : (c :: l2).length = t2.length + 1 := by simpa using h
    have ha2 : (c :: l2).getLast? = some a := by
      rw [← @List.getLast?_cons_cons _ b c l2]
      exact ha
    have ih := zip_concat_of_length (c :: l2) t2 x a h2 ha2
    simp only [List.cons_append, List.zip_cons_cons, ih]

theorem adjPairs_concat : ∀ (l : List α) (x a : α), l.getLast? = some a →
    adjPairs (l ++ [x]) = adjPairs l ++ [(a, x)]
  | [], x, a, ha => by simp at ha
  | [b], x, a, ha => by
    simp at ha
    subst ha
    simp [adjPairs]
  | b :: c :: l2, x, a, ha => by
    have ha2 : (c :: l2).getLast? = some a := by
      rw [← @List.getLast?_cons_cons _ b c l2]
      exact ha
    have ih := adjPairs_concat (c :: l2) x a ha2
    show (b, c) :: adjPairs ((c :: l2) ++ [x]) = ((b, c) :: adjPairs (c :: l2)) ++ [(a, x)]
    rw [ih]
    simp

theorem wrapPairs_eq_adj (x : α) (t : List α) (a : α)
    (ha : (x :: t).getLast? = some a) :
    wrapPairs (x :: t) = adjPairs (x :: t) ++ [(a, x)] := by
  unfold wrapPairs
  have hrot : (x :: t).rotate 1 = t ++ [x] := by
    rw [List.rotate_cons_succ, List.rotate_zero]
  rw [hrot]
  exact zip_concat_of_length (x :: t) t x a (by simp) ha

theorem adjPairs_tail (l : List α) : ∀ p ∈ adjPairs l.tail, p ∈ adjPairs l := by
  intro p hp
  match l with
  | [] => simpa [adjPairs] using hp
  | [a] => simpa [adjPairs] using hp
  | a :: b :: t =>
    simp only [List.tail_cons] at hp
    unfold adjPairs at hp ⊢
    simp only [List.tail_cons, List.zip_cons_cons]
    exact List.mem_cons_of_mem _ hp

theorem adjPairs_drop (l : List α) (n : Nat) : ∀ p ∈ adjPairs (l.drop n), p ∈ adjPairs l := by
  induction n with
  | zero => simp
  | succ m ih =>
    intro p hp
    have hd : l.drop (m + 1) = (l.drop m).tail := (List.tail_drop l m).symm
    rw [hd] at hp
    exact ih p (adjPairs_tail (l.drop m) p hp)

theorem mem_of_getLast?_eq {l : List α} {a : α} (h : l.getLast? = some a) : a ∈ l := by
  cases l with
  | nil => simp at h
  | cons x t =>
    rw [List.getLast?_eq_getLast_of_ne_nil (by simp)] at h
    have hm := @List.getLast_mem _ (x :: t) (by simp)
    rw [Option.some.injEq] at h
    rw [h] at hm
    exact hm

theorem getLast?_drop_of_ne_nil : ∀ (l : List α) (n : Nat), l.drop n ≠ [] →
    (l.drop n).getLast? = l.getLast? := by
  intro l n
  induction n generalizing l with
  | zero => intro _; rfl
  | succ m ih =>
    intro hne
    cases l with
    | nil => simp at hne
    | cons x t =>
      rw [List.drop_succ_cons] at hne ⊢
      rw [ih t hne]
      cases t with
      | nil => simp at hne
      | cons y t2 => rw [List.getLast?_cons_cons]

/-- The cycle-reconstruction walk, started inside a set of nodes each of which
has a remaining dependency inside the set, terminates with a non-empty node
sequence whose wrapping consecutive pairs are all remaining edges. -/
theorem cycleWalk_spec (rem : List (α × NodeData α)) (Ulist : List α)
    (hUnodup : Ulist.Nodup) (InU : α → Prop)
    (hU1 : ∀ u, InU u → depsOf rem u ≠ [])
    (hU2 : ∀ u, InU u → ∀ x ∈ depsOf rem u, InU x)
    (hUb : ∀ u, InU u → u ∈ Ulist) :
    ∀ (fuel : Nat) (vs : List α) (id : α),
    vs.Nodup → (∀ v ∈ vs, InU v) → vs.getLast? = some id →
    (∀ p ∈ adjPairs vs, p.2 ∈ depsOf rem p.1) →
    Ulist.length + 1 ≤ fuel + vs.length →
    cycleWalk rem fuel vs id ≠ [] ∧
      ∀ p ∈ wrapPairs (cycleWalk rem fuel vs id), p.2 ∈ depsOf rem p.1 := by
  intro fuel
  induction fuel with
  | zero =>
    intro vs id hnd hins hlast hadj hfuel
    exfalso
    have hsub : vs ⊆ Ulist := fun v hv => hUb v (hins v hv)
    have := (List.subperm_of_subset hnd hsub).length_le
    omega
  | succ f ih =>
    intro vs id hnd hins hlast hadj hfuel
    have hidvs : id ∈ vs := mem_of_getLast?_eq hlast
    have hidU : InU id := hins id hidvs
    rcases hdep : depsOf rem id with _ | ⟨next, dtail⟩
    · exact absurd hdep (hU1 id hidU)
    · have hnextdep : next ∈ depsOf rem id := by
        rw [hdep]; exact List.mem_cons_self _ _
      have hnextU : InU next := hU2 id hidU next hnextdep
      have hred : cycleWalk rem (f + 1) vs id =
          match posOf vs next with
          | some pos => vs.drop pos
          | none => cycleWalk rem f (vs ++ [next]) next := by
        show (match depsOf rem id with
          | [] => []
          | next :: _ =>
            match posOf vs next with
            | some pos => vs.drop pos
            | none => cycleWalk rem f (vs ++ [next]) next) = _
        rw [hdep]
      rcases hpos : posOf vs next with _ | pos
      · -- no repeat yet: extend the visited list and recurse
        rw [hred, hpos]
        apply ih (vs ++ [next]) next
        · rw [List.nodup_append]
          refine ⟨hnd, List.nodup_singleton next, ?_⟩
          intro x hx hx2
          rw [List.mem_singleton] at hx2
          subst hx2
          exact (posOf_eq_none_iff.mp hpos) hx
        · intro v hv
          rw [List.mem_append, List.mem_singleton] at hv
          rcases hv with hv | rfl
          · exact hins v hv
          · exact hnextU
        · exact List.getLast?_concat vs
        · intro p hp
          rw [adjPairs_concat vs next id hlast, List.mem_append, List.mem_singleton] at hp
          rcases hp with hp | rfl
          · exact hadj p hp
          · exact hnextdep
        · rw [List.length_append, List.length_singleton]
          omega
      · -- found a repeat: the returned suffix is a cycle
        rw [hred, hpos]
        show vs.drop pos ≠ [] ∧ ∀ p ∈ wrapPairs (vs.drop pos), p.2 ∈ depsOf rem p.1
        obtain ⟨t, hdrop⟩ := posOf_drop hpos
        have hne : vs.drop pos ≠ [] := by rw [hdrop]; simp
        have hlast2 : (vs.drop pos).getLast? = some id := by
          rw [getLast?_drop_of_ne_nil vs pos hne, hlast]
        constructor
        · exact hne
        · intro p hp
          rw [hdrop] at hp hlast2
          rw [wrapPairs_eq_adj next t id hlast2, List.mem_append, List.mem_singleton] at hp
          rcases hp with hp | rfl
          · apply hadj
            apply adjPairs_drop vs pos
            rw [hdrop]
            exact hp
          · exact hnextdep

/-! ### Characterization of `topological_sort` -/

theorem wrapPairs_mem {c : List α} {p : α × α} (hp : p ∈ wrapPairs c) :
    p.1 ∈ c ∧ p.2 ∈ c := by
  unfold wrapPairs at hp
  have := List.mem_zip hp
  exact ⟨this.1, List.mem_rotate.mp this.2⟩

theorem wrapPairs_exists_succ {c : List α} {x : α} (hx : x ∈ c) :
    ∃ y, (x, y) ∈ wrapPairs c := by
  obtain ⟨⟨i, hi⟩, hget⟩ := List.mem_iff_get.mp hx
  have hlen : (wrapPairs c).length = c.length := by
    unfold wrapPairs
    rw [List.length_zip, List.length_rotate, Nat.min_self]
  have hi2 : i < (wrapPairs c).length := by rw [hlen]; exact hi
  have hi3 : i < (c.rotate 1).length := by rw [List.length_rotate]; exact hi
  refine ⟨(c.rotate 1).get ⟨i, hi3⟩, ?_⟩
  have hpair := @List.get_zip _ _ c (c.rotate 1) ⟨i, hi2⟩
  have hmem := List.get_mem (wrapPairs c) i hi2
  unfold wrapPairs at hmem ⊢
  rw [hpair] at hmem
  simp only at hmem
  rw [show c.get ⟨i, _⟩ = x from hget] at hmem
  exact hmem

/-- If the returned order puts every dependee strictly before its depender,
the graph has no cycle. -/
theorem no_cycle_of_posOrder {g : DepGraph α} (order : List α)
    (hedge : ∀ a b, hasEdge g a b →
      ∃ i j, posOf order b = some i ∧ posOf order a = some j ∧ i < j) :
    ∀ c, ¬ IsCycleOf g c := by
  rintro c ⟨hne, hcyc⟩
  have key : ∀ n, ∀ x ∈ c, posOf order x = some n → False := by
    intro n
    induction n using Nat.strong_induction_on with
    | _ n ih =>
      intro x hx hpos
      obtain ⟨y, hy⟩ := wrapPairs_exists_succ hx
      have hxy : hasEdge g x y := hcyc (x, y) hy
      obtain ⟨i, j, hi, hj, hij⟩ := hedge x y hxy
      rw [hpos] at hj
      rw [Option.some.injEq] at hj
      subst hj
      exact ih i (by omega) y (wrapPairs_mem hy).2 hi
  match c, hne with
  | x0 :: c2, _ =>
    have hx0 : x0 ∈ x0 :: c2 := List.mem_cons_self _ _
    obtain ⟨y, hy⟩ := wrapPairs_exists_succ hx0
    obtain ⟨i, j, hi, hj, _⟩ := hedge x0 y (hcyc (x0, y) hy)
    exact key j x0 hx0 hj

/-- Soundness of the success case of `topological_sort`: the returned order is
a duplicate-free enumeration of exactly the graph's nodes, in which every
recorded edge's dependee strictly precedes its depender. -/
theorem topSort_ok {g : DepGraph α} (W : WFG g) {order : List α}
    (h : g.topologicalSort = .ok order) :
    order.Nodup ∧ (∀ x, x ∈ order ↔ x ∈ g.nodes.map Prod.fst) ∧
    ∀ a b, hasEdge g a b →
      ∃ i j, posOf order b = some i ∧ posOf order a = some j ∧ i < j := by
  have hrun := @kahn_run _ _ g.nodes W
    (kahnFuel g.nodes ((g.nodes.filter (fun p => p.2.dependencies.isEmpty)).map (·.1)))
    g.nodes ((g.nodes.filter (fun p => p.2.dependencies.isEmpty)).map (·.1)) []
    (KInv.init W) (by unfold kahnFuel; omega)
  unfold DepGraph.topologicalSort at h
  simp only at h
  split at h
  case isTrue hlen =>
    rw [Except.ok.injEq] at h
    subst h
    set res := kahnLoop
      (kahnFuel g.nodes ((g.nodes.filter (fun p => p.2.dependencies.isEmpty)).map (·.1)))
      g.nodes ((g.nodes.filter (fun p => p.2.dependencies.isEmpty)).map (·.1)) [] with hres
    have inv : KInv g.nodes res.2 [] res.1 := hrun
    have hnd : res.1.Nodup := by simpa using inv.nodup
    have hsub : res.1 ⊆ g.nodes.map Prod.fst := by
      intro x hx
      exact inv.mem_keys x (by simpa using hx)
    have hperm : res.1.Perm (g.nodes.map Prod.fst) := by
      apply (List.subperm_of_subset hnd hsub).perm_of_length_le
      rw [List.length_map, hlen]
    refine ⟨hnd, fun x => ⟨fun hx => hsub hx, fun hx => hperm.mem_iff.mpr hx⟩, ?_⟩
    intro a b hab
    have hbdeps : b ∈ depsOf g.nodes a := hab
    have haK : a ∈ g.nodes.map Prod.fst := by
      by_contra hn
      rw [← lookupND_eq_none] at hn
      unfold depsOf at hbdeps
      rw [hn] at hbdeps
      simp at hbdeps
    have haf : a ∈ res.1 := hperm.mem_iff.mpr haK
    obtain ⟨⟨j, hj⟩, hgetj⟩ := List.mem_iff_get.mp haf
    have hbtake : b ∈ res.1.take j := inv.ordered j hj b (by rw [hgetj]; exact hbdeps)
    obtain ⟨i, hi, hij⟩ := posOf_take hbtake
    exact ⟨i, j, hi, posOf_getElem_nodup hnd hj hgetj, hij⟩
  case isFalse hlen =>
    split at h <;> cases h

/-- Soundness of the failure case of `topological_sort`: the returned error is
a genuine cycle of the graph. -/
theorem topSort_err {g : DepGraph α} (W : WFG g) {c : List α}
    (h : g.topologicalSort = .error c) : IsCycleOf g c := by
  have hrun := @kahn_run _ _ g.nodes W
    (kahnFuel g.nodes ((g.nodes.filter (fun p => p.2.dependencies.isEmpty)).map (·.1)))
    g.nodes ((g.nodes.filter (fun p => p.2.dependencies.isEmpty)).map (·.1)) []
    (KInv.init W) (by unfold kahnFuel; omega)
  unfold DepGraph.topologicalSort at h
  simp only at h
  set res := kahnLoop
    (kahnFuel g.nodes ((g.nodes.filter (fun p => p.2.dependencies.isEmpty)).map (·.1)))
    g.nodes ((g.nodes.filter (fun p => p.2.dependencies.isEmpty)).map (·.1)) [] with hres
  have inv : KInv g.nodes res.2 [] res.1 := hrun
  have hnd : res.1.Nodup := by simpa using inv.nodup
  have hsub : res.1 ⊆ g.nodes.map Prod.fst := by
    intro x hx
    exact inv.mem_keys x (by simpa using hx)
  have hkeys : res.2.map Prod.fst = g.nodes.map Prod.fst := inv.keys_eq
  have hremlen : res.2.length = g.nodes.length := by
    have := congrArg List.length hkeys
    simpa using this
  split at h
  case isTrue hlen => cases h
  case isFalse hlen =>
    -- some node was not processed
    have hstuck : ∃ k, k ∈ g.nodes.map Prod.fst ∧ k ∉ res.1 := by
      by_contra hn
      push_neg at hn
      have hsub2 : g.nodes.map Prod.fst ⊆ res.1 := fun k hk => hn k hk
      have h1 := (List.subperm_of_subset hnd hsub).length_le
      have h2 := (List.subperm_of_subset (W.keys_nodup) hsub2).length_le
      rw [List.length_map] at h1 h2
      omega
    -- the `find?` in the source must succeed
    rcases hfind : res.2.find? (fun p => !p.2.dependencies.isEmpty) with _ | s
    · exfalso
      obtain ⟨k, hkK, hkf⟩ := hstuck
      have hdne : depsOf res.2 k ≠ [] :=
        inv.stuck_deps k hkK hkf (by simp)
      have hkK2 : k ∈ res.2.map Prod.fst := by rw [hkeys]; exact hkK
      rcases hlk : lookupND res.2 k with _ | d
      · rw [lookupND_eq_none] at hlk
        exact hlk hkK2
      · have hmem := lookupND_mem hlk
        have hnp := List.find?_eq_none.mp hfind _ hmem
        simp only [Bool.not_eq_true'] at hnp
        have hempty : d.dependencies.isEmpty = true := by
          cases hb : d.dependencies.isEmpty
          · exact absurd hb hnp
          · rfl
        rw [List.isEmpty_iff] at hempty
        apply hdne
        unfold depsOf
        rw [hlk]
        simp [hempty]
    · rw [hfind] at h
      rw [Except.error.injEq] at h
      subst h
      -- properties of the walk start
      have hsmem : s ∈ res.2 := List.mem_of_find?_eq_some hfind
      have hspred := List.find?_some hfind
      simp only [Bool.not_eq_true'] at hspred
      have hkeys_nodup : (res.2.map Prod.fst).Nodup := by
        rw [hkeys]; exact W.keys_nodup
      have hslk : lookupND res.2 s.1 = some s.2 := by
        apply lookupND_of_mem hkeys_nodup
        rcases s with ⟨k, d⟩
        exact hsmem
      have hsdeps : depsOf res.2 s.1 ≠ [] := by
        unfold depsOf
        rw [hslk]
        simp only [Option.map_some', Option.getD_some]
        intro he
        rw [he] at hspred
        simp at hspred
      have hsK : s.1 ∈ g.nodes.map Prod.fst := by
        rw [← hkeys]
        exact List.mem_map_of_mem Prod.fst hsmem
      have hsf : s.1 ∉ res.1 := by
        intro hin
        exact hsdeps (inv.out_deps s.1 hin)
      -- apply the walk lemma with the unprocessed-node set
      have hwalk := cycleWalk_spec res.2 (g.nodes.map Prod.fst) W.keys_nodup
        (fun u => u ∈ g.nodes.map Prod.fst ∧ u ∉ res.1)
        (fun u hu => inv.stuck_deps u hu.1 hu.2 (by simp))
        (fun u hu x hx => by
          rw [inv.deps_eq] at hx
          rw [List.mem_filter] at hx
          refine ⟨W.deps_keys u x hx.1, ?_⟩
          have := hx.2
          simp only [decide_eq_true_eq] at this
          exact this)
        (fun u hu => hu.1)
        (res.2.length + 1) [s.1] s.1
        (List.nodup_singleton _)
        (by
          intro v hv
          rw [List.mem_singleton] at hv
          subst hv
          exact ⟨hsK, hsf⟩)
        (by simp)
        (by intro p hp; simp [adjPairs] at hp)
        (by
          have : (g.nodes.map Prod.fst).length = g.nodes.length := List.length_map _ _
          omega)
      refine ⟨hwalk.1, ?_⟩
      intro p hp
      have := hwalk.2 p hp
      rw [inv.deps_eq] at this
      rw [List.mem_filter] at this
      exact this.1

instance (g : DepGraph α) (c : List α) : Decidable (IsCycleOf g c) := by
  unfold IsCycleOf
  infer_instance

/-- C1: for every dependency graph built by `add_asset`/`add_dependency` calls
whose edge set is acyclic, `topological_sort` returns `Ok(order)` where
`order` is a permutation of all nodes that were ever added, and for every
recorded edge (depender, dependee), the dependee's index in `order` strictly
precedes the depender's index. -/
theorem topological_sort_acyclic_ok (ops : List (GraphOp Nat))
    (hacyc : Acyclic (buildGraph ops)) :
    ∃ order, (buildGraph ops).topologicalSort = .ok order ∧
      order.Perm ((buildGraph ops).nodes.map Prod.fst) ∧
      (∀ x, x ∈ order ↔ addedIn ops x) ∧
      ∀ depender dependee, GraphOp.addDep depender dependee ∈ ops →
        ∃ i j, posOf order dependee = some i ∧ posOf order depender = some j ∧ i < j := by
  have W := WFG.build ops
  rcases hts : (buildGraph ops).topologicalSort with c | order
  · exact absurd (topSort_err W hts) (hacyc c)
  · obtain ⟨hnd, hmem, hord⟩ := topSort_ok W hts
    refine ⟨order, rfl, ?_, ?_, ?_⟩
    · rw [List.perm_ext_iff_of_nodup hnd W.keys_nodup]
      exact hmem
    · intro x
      rw [hmem x, mem_keys_buildGraph]
    · intro a b hab
      exact hord a b ((hasEdge_buildGraph ops a b).mpr hab)

/-- Witness for `topological_sort_acyclic_ok` at a small concrete graph. -/
theorem topological_sort_acyclic_ok_witness :
    ∃ order,
      (buildGraph [GraphOp.addAsset 0, GraphOp.addDep 2 1]).topologicalSort = .ok order ∧
      order.Perm ((buildGraph [GraphOp.addAsset 0, GraphOp.addDep 2 1]).nodes.map Prod.fst) ∧
      (∀ x, x ∈ order ↔ addedIn [GraphOp.addAsset 0, GraphOp.addDep 2 1] x) ∧
      ∀ depender dependee,
        GraphOp.addDep depender dependee ∈ [GraphOp.addAsset 0, GraphOp.addDep 2 1] →
        ∃ i j, posOf order dependee = some i ∧ posOf order depender = some j ∧ i < j := by
  apply topological_sort_acyclic_ok
  intro c hc
  obtain ⟨hne, hcyc⟩ := hc
  have h1mem : (1 : Nat) ∈ c := by
    match c, hne with
    | x :: t, _ =>
      obtain ⟨y, hy⟩ := wrapPairs_exists_succ (List.mem_cons_self x t)
      have hxy := hcyc (x, y) hy
      rw [hasEdge_buildGraph] at hxy
      simp only [List.mem_cons, List.mem_singleton] at hxy
      rcases hxy with h | h
      · cases h
      · rcases h with h | h
        · rw [GraphOp.addDep.injEq] at h
          rw [← h.2]
          exact (wrapPairs_mem hy).2
        · cases h
  obtain ⟨z, hz⟩ := wrapPairs_exists_succ h1mem
  have h1z := hcyc (1, z) hz
  rw [hasEdge_buildGraph] at h1z
  simp only [List.mem_cons, List.mem_singleton] at h1z
  rcases h1z with h | h
  · cases h
  · rcases h with h | h
    · rw [GraphOp.addDep.injEq] at h
      cases h.1
    · cases h

/-- C2: for every dependency graph built by `add_asset`/`add_dependency` calls
whose edge set contains a cycle, `topological_sort` returns `Err(cycle)` where
`cycle` is non-empty and every consecutive pair, wrapping from the last
element back to the first, is a recorded edge (depender, dependee) of the
original graph. -/
theorem topological_sort_cyclic_err (ops : List (GraphOp Nat)) (c0 : List Nat)
    (hc : IsCycleOf (buildGraph ops) c0) :
    ∃ cyc, (buildGraph ops).topologicalSort = .error cyc ∧ cyc ≠ [] ∧
      ∀ p ∈ wrapPairs cyc, GraphOp.addDep p.1 p.2 ∈ ops := by
  have W := WFG.build ops
  rcases hts : (buildGraph ops).topologicalSort with cyc | order
  · have hcyc := topSort_err W hts
    refine ⟨cyc, rfl, hcyc.1, ?_⟩
    intro p hp
    exact (hasEdge_buildGraph ops p.1 p.2).mp (hcyc.2 p hp)
  · exfalso
    obtain ⟨_, _, hord⟩ := topSort_ok W hts
    exact no_cycle_of_posOrder order hord c0 hc

/-- Witness for `topological_sort_cyclic_err` at a concrete two-cycle. -/
theorem topological_sort_cyclic_err_witness :
    ∃ cyc,
      (buildGraph [GraphOp.addDep 0 1, GraphOp.addDep 1 0]).topologicalSort = .error cyc ∧
      cyc ≠ [] ∧
      ∀ p ∈ wrapPairs cyc,
        GraphOp.addDep p.1 p.2 ∈ [GraphOp.addDep 0 1, GraphOp.addDep 1 0] := by
  exact topological_sort_cyclic_err [GraphOp.addDep 0 1, GraphOp.addDep 1 0] [0, 1]
    (by decide)

/-! ## Template fragment scanner (reinda-core/src/template.rs)

Byte buffers are `List Nat` (byte values).  The fragment start marker is the
4-byte sequence `0x7b 0x7b 0x3a 0x20` and the end marker `0x20 0x3a 0x7d
0x7d`. -/

def FRAGMENT_START : List Nat := [123, 123, 58, 32]

def FRAGMENT_END : List Nat := [32, 58, 125, 125]

/-- Fragments longer than this are ignored. -/
def MAX_FRAGMENT_LEN : Nat := 256

/-- Models the helper `find(haystack, needle)`:
`haystack.windows(needle.len()).position(|win| win == needle)`. -/
def findSub (needle : List Nat) : List Nat → Option Nat
  | [] => if needle.isPrefixOf ([] : List Nat) then some 0 else none
  | x :: t =>
    if needle.isPrefixOf (x :: t) then some 0
    else (findSub needle t).map (· + 1)

/-- Models the end-marker search of `FragmentSpans::next`: iterate over the
4-byte windows of the slice (first argument), at most `budget` of them
(`take`), stopping at the first window that starts with a newline
(`take_while`), and return the position of the first window equal to the end
marker. -/
def findEndIn : List Nat → Nat → Option Nat
  | _, 0 => none
  | l, budget + 1 =>
    if l.length < 4 then none
    else if l.headD 0 = 10 then none
    else if FRAGMENT_END.isPrefixOf l then some 0
    else (findEndIn l.tail budget).map (· + 1)

def findEnd (l : List Nat) : Option Nat :=
  findEndIn l (MAX_FRAGMENT_LEN - FRAGMENT_END.length + 1)

/-- The iteration of `FragmentSpans::next` flattened into a list of spans.
A span is the (start, end) byte range of a fragment body, excluding the
markers but including surrounding whitespace, exactly as in the source.  The
fuel only bounds the number of loop iterations; `input.length + 1` always
suffices because every iteration advances the cursor by at least the length
of the start marker. -/
def scanFrom : Nat → List Nat → Nat → List (Nat × Nat)
  | 0, _, _ => []
  | fuel + 1, input, idx =>
    if input.length ≤ idx then []
    else
      match findSub FRAGMENT_START (input.drop idx) with
      | none => []
      | some startPos =>
        match findEnd (input.drop (idx + startPos)) with
        | none => scanFrom fuel input (idx + startPos + 4)
        | some endPos =>
          (idx + startPos + 4, idx + startPos + endPos) ::
            scanFrom fuel input (idx + startPos + endPos + 4)

/-- Models the full `FragmentSpans` iterator over an input buffer. -/
def fragmentSpans (input : List Nat) : List (Nat × Nat) :=
  scanFrom (input.length + 1) input 0

/-! ### Scanner specification (from the spec text)

The following definitions are worded from the specification: a fragment
starts at the exact start-marker byte sequence and ends at the first end
marker such that the candidate (both delimiters included) contains no newline
and is at most `MAX_FRAGMENT_LEN` bytes; an invalid start marker is skipped
and scanning resumes immediately after it. -/

/-- First index `j` with `i ≤ j < i + budget` satisfying `p` (bounded linear
search used to express the specification's "first occurrence"). -/
def firstIdx (p : Nat → Bool) : Nat → Nat → Option Nat
  | _, 0 => none
  | i, budget + 1 => if p i then some i else firstIdx p (i + 1) budget

/-- Spec: the 4-byte start marker occurs at position `s`. -/
def startMarkerAt (input : List Nat) (s : Nat) : Bool :=
  decide ((input.drop s).take 4 = FRAGMENT_START)

/-- Spec: the 4-byte end marker occurs at position `p`. -/
def endMarkerAt (input : List Nat) (p : Nat) : Bool :=
  decide ((input.drop p).take 4 = FRAGMENT_END)

/-- Spec: the candidate from the start of the start marker at `s` to the end
of the end marker at `p` contains no newline byte and is at most
`MAX_FRAGMENT_LEN` bytes long including both delimiters. -/
def candidateOk (input : List Nat) (s p : Nat) : Bool :=
  decide (p + 4 ≤ s + MAX_FRAGMENT_LEN) &&
    ((input.drop s).take (p + 4 - s)).all (fun b => decide (b ≠ 10))

/-- Spec: the first start-marker occurrence at or after `i`. -/
def specFirstStart (input : List Nat) (i : Nat) : Option Nat :=
  (List.range input.length).find? (fun s => decide (i ≤ s) && startMarkerAt input s)

/-- Spec: the first end-marker occurrence closing a valid candidate for the
start marker at `s`. -/
def specFirstEnd (input : List Nat) (s : Nat) : Option Nat :=
  (List.range input.length).find?
    (fun p => decide (s ≤ p) && endMarkerAt input p && candidateOk input s p)

/-- Spec scanner: yield the span between the delimiters of each valid
fragment; on a start marker with no valid end marker, resume immediately
after the 4-byte start marker. -/
def specScanFrom : Nat → List Nat → Nat → List (Nat × Nat)
  | 0, _, _ => []
  | fuel + 1, input, pos =>
    if input.length ≤ pos then []
    else
      match specFirstStart input pos with
      | none => []
      | some s =>
        match specFirstEnd input s with
        | none => specScanFrom fuel input (s + 4)
        | some p => (s + 4, p) :: specScanFrom fuel input (p + 4)

def specFragmentSpans (input : List Nat) : List (Nat × Nat) :=
  specScanFrom (input.length + 1) input 0

/-! ### Equivalence of the scanner with its specification -/

theorem option_eq_of_some_iff {X Y : Option Nat}
    (h : ∀ j, X = some j ↔ Y = some j) : X = Y := by
  cases hX : X with
  | some j => exact ((h j).mp hX).symm
  | none =>
    cases hY : Y with
    | none => rfl
    | some j =>
      have := (h j).mpr hY
      rw [hX] at this
      cases this

theorem isPrefixOf_eq_take {l m : List Nat} : l.isPrefixOf m = true ↔ m.take l.length = l := by
  rw [ List.isPrefixOf_iff_prefix, List.prefix_iff_eq_take]
  exact ⟨fun h => h.symm, fun h => h.symm⟩

theorem char_firstIdx (p : Nat → Bool) :
    ∀ (b i j : Nat), firstIdx p i b = some j ↔
      p j = true ∧ i ≤ j ∧ j < i + b ∧ ∀ k, i ≤ k → k < j → p k = false := by
  intro b
  induction b with
  | zero =>
    intro i j
    simp only [firstIdx]
    constructor
    · intro h; cases h
    · intro ⟨_, h1, h2, _⟩; omega
  | succ b2 ih =>
    intro i j
    simp only [firstIdx]
    by_cases hp : p i
    · rw [if_pos hp]
      constructor
      · intro h
        rw [Option.some.injEq] at h
        subst h
        exact ⟨hp, le_refl i, by omega, fun k h1 h2 => by omega⟩
      · intro ⟨hj, h1, h2, hmin⟩
        rcases Nat.eq_or_lt_of_le h1 with rfl | hlt
        · rfl
        · have := hmin i (le_refl i) hlt
          rw [hp] at this
          cases this
    · rw [if_neg hp]
      rw [ih (i + 1) j]
      constructor
      · intro ⟨hj, h1, h2, hmin⟩
        refine ⟨hj, by omega, by omega, fun k hk1 hk2 => ?_⟩
        rcases Nat.eq_or_lt_of_le hk1 with rfl | hlt
        · exact Bool.of_not_eq_true hp
        · exact hmin k hlt hk2
      · intro ⟨hj, h1, h2, hmin⟩
        have hij : i ≠ j := by
          intro he
          subst he
          exact hp hj
        exact ⟨hj, by omega, by omega, fun k hk1 hk2 => hmin k (by omega) hk2⟩

theorem find?_range'_eq_firstIdx (p : Nat → Bool) :
    ∀ (n i : Nat), (List.range' i n).find? p = firstIdx p i n := by
  intro n
  induction n with
  | zero => intro i; rfl
  | succ n2 ih =>
    intro i
    rw [List.range'_succ, List.find?_cons]
    show (match p i with | true => some i | false => (List.range' (i+1) n2).find? p) = _
    by_cases hp : p i
    · simp [hp, firstIdx]
    · have hp2 : p i = false := Bool.of_not_eq_true hp
      simp [hp2, firstIdx, ih (i + 1)]

theorem char_find?_range (p : Nat → Bool) (n j : Nat) :
    (List.range n).find? p = some j ↔
      p j = true ∧ j < n ∧ ∀ k < j, p k = false := by
  rw [List.range_eq_range', find?_range'_eq_firstIdx, char_firstIdx]
  constructor
  · intro ⟨h1, _, h3, h4⟩
    exact ⟨h1, by omega, fun k hk => h4 k (by omega) hk⟩
  · intro ⟨h1, h2, h3⟩
    exact ⟨h1, by omega, by omega, fun k _ hk => h3 k hk⟩

theorem char_findSub :
    ∀ (l : List Nat) (j : Nat), findSub FRAGMENT_START l = some j ↔
      FRAGMENT_START.isPrefixOf (l.drop j) = true ∧
      ∀ k < j, FRAGMENT_START.isPrefixOf (l.drop k) = false := by
  intro l
  induction l with
  | nil =>
    intro j
    constructor
    · intro h
      simp [findSub, FRAGMENT_START, List.isPrefixOf] at h
    · intro ⟨h1, _⟩
      rw [List.drop_nil] at h1
      simp [FRAGMENT_START, List.isPrefixOf] at h1
  | cons x t ih =>
    intro j
    by_cases hp : FRAGMENT_START.isPrefixOf (x :: t) = true
    · simp only [findSub, if_pos hp]
      constructor
      · intro h
        rw [Option.some.injEq] at h
        subst h
        exact ⟨hp, fun k hk => by omega⟩
      · intro ⟨h1, hmin⟩
        cases j with
        | zero => rfl
        | succ j2 =>
          have := hmin 0 (Nat.succ_pos j2)
          rw [List.drop_zero] at this
          rw [this] at hp
          cases hp
    · simp only [findSub, if_neg hp]
      have hp2 : FRAGMENT_START.isPrefixOf (x :: t) = false := Bool.of_not_eq_true hp
      constructor
      · intro h
        rw [Option.map_eq_some'] at h
        obtain ⟨j2, hj2, hje⟩ := h
        subst hje
        obtain ⟨h1, hmin⟩ := (ih j2).mp hj2
        refine ⟨by simpa using h1, ?_⟩
        intro k hk
        cases k with
        | zero => simpa using hp2
        | succ k2 =>
          rw [List.drop_succ_cons]
          exact hmin k2 (by omega)
      · intro ⟨h1, hmin⟩
        cases j with
        | zero =>
          rw [List.drop_zero] at h1
          rw [h1] at hp2
          cases hp2
        | succ j2 =>
          rw [List.drop_succ_cons] at h1
          have := (ih j2).mpr ⟨h1, fun k hk => by
            have := hmin (k + 1) (by omega)
            rw [List.drop_succ_cons] at this
            exact this⟩
          rw [this]
          rfl

theorem char_findEndIn :
    ∀ (b : Nat) (l : List Nat) (e : Nat), findEndIn l b = some e ↔
      FRAGMENT_END.isPrefixOf (l.drop e) = true ∧ e < b ∧
      ∀ k < e, l.getD k 0 ≠ 10 ∧ FRAGMENT_END.isPrefixOf (l.drop k) = false := by
  intro b
  induction b with
  | zero =>
    intro l e
    constructor
    · intro h; cases h
    · rintro ⟨_, h2, _⟩; omega
  | succ b2 ih =>
    intro l e
    cases l with
    | nil =>
      simp only [findEndIn, List.length_nil]
      rw [if_pos (by omega)]
      constructor
      · intro h; cases h
      · rintro ⟨h1, _, _⟩
        rw [List.drop_nil] at h1
        simp [FRAGMENT_END, List.isPrefixOf] at h1
    | cons x t =>
      by_cases hlen : (x :: t).length < 4
      · simp only [findEndIn]
        rw [if_pos hlen]
        constructor
        · intro h; cases h
        · rintro ⟨h1, _, _⟩
          exfalso
          rw [isPrefixOf_eq_take] at h1
          have := congrArg List.length h1
          rw [List.length_take, List.length_drop] at this
          simp only [List.length_cons] at this hlen
          have h4 : FRAGMENT_END.length = 4 := rfl
          rw [h4] at this
          omega
      · by_cases hnl : (x :: t).headD 0 = 10
        · simp only [findEndIn]
          rw [if_neg hlen, if_pos hnl]
          simp only [List.headD_cons] at hnl
          constructor
          · intro h; cases h
          · rintro ⟨h1, _, h3⟩
            exfalso
            cases e with
            | zero =>
              rw [List.drop_zero, isPrefixOf_eq_take] at h1
              have h4 : FRAGMENT_END.length = 4 := rfl
              rw [h4] at h1
              have hx : (x :: t).getD 0 0 = FRAGMENT_END.getD 0 0 := by
                have h5 := congrArg (fun m => m.getD 0 0) h1
                simpa using h5
              simp only [List.getD_cons_zero] at hx
              rw [hnl] at hx
              cases hx
            | succ e2 =>
              have h6 := (h3 0 (Nat.succ_pos e2)).1
              simp only [List.getD_cons_zero] at h6
              exact h6 hnl
        · by_cases hm : FRAGMENT_END.isPrefixOf (x :: t) = true
          · simp only [findEndIn]
            rw [if_neg hlen, if_neg hnl, if_pos hm]
            constructor
            · intro h
              rw [Option.some.injEq] at h
              subst h
              exact ⟨by simpa using hm, by omega, fun k hk => by omega⟩
            · rintro ⟨h1, _, h3⟩
              cases e with
              | zero => rfl
              | succ e2 =>
                have := (h3 0 (Nat.succ_pos e2)).2
                rw [List.drop_zero] at this
                rw [this] at hm
                cases hm
          · simp only [findEndIn]
            rw [if_neg hlen, if_neg hnl, if_neg hm]
            have hm2 : FRAGMENT_END.isPrefixOf (x :: t) = false := Bool.of_not_eq_true hm
            simp only [List.headD_cons] at hnl
            constructor
            · intro h
              rw [Option.map_eq_some'] at h
              obtain ⟨e2, he2, hee⟩ := h
              subst hee
              obtain ⟨h1, h2, h3⟩ := (ih t e2).mp he2
              refine ⟨by simpa using h1, by omega, ?_⟩
              intro k hk
              cases k with
              | zero =>
                exact ⟨by simpa using hnl, by simpa using hm2⟩
              | succ k2 =>
                have := h3 k2 (by omega)
                exact ⟨by simpa using this.1, by simpa using this.2⟩
            · rintro ⟨h1, h2, h3⟩
              cases e with
              | zero =>
                rw [List.drop_zero] at h1
                rw [h1] at hm2
                cases hm2
              | succ e2 =>
                rw [List.drop_succ_cons] at h1
                have : findEndIn t b2 = some e2 := by
                  rw [ih t e2]
                  refine ⟨h1, by omega, ?_⟩
                  intro k hk
                  have h7 := h3 (k + 1) (by omega)
                  exact ⟨by simpa using h7.1, by simpa using h7.2⟩
                simp only [List.tail_cons]
                rw [this]
                rfl

theorem marker_bound {input w : List Nat} {j : Nat} (hw : w.length = 4)
    (h : (input.drop j).take 4 = w) : j + 4 ≤ input.length := by
  have := congrArg List.length h
  rw [List.length_take, List.length_drop, hw] at this
  omega

/-- The first start-marker search of the source scanner and of the spec
coincide. -/
theorem eq_first_start (input : List Nat) (i : Nat) :
    specFirstStart input i = (findSub FRAGMENT_START (input.drop i)).map (· + i) := by
  apply option_eq_of_some_iff
  intro j
  unfold specFirstStart
  rw [char_find?_range]
  have h4 : FRAGMENT_START.length = 4 := rfl
  constructor
  · rintro ⟨hpj, hjn, hmin⟩
    rw [Bool.and_eq_true] at hpj
    have hij : i ≤ j := by simpa using hpj.1
    have hmk : (input.drop j).take 4 = FRAGMENT_START := by
      have := hpj.2
      unfold startMarkerAt at this
      simpa using this
    rw [Option.map_eq_some']
    refine ⟨j - i, ?_, by omega⟩
    rw [char_findSub]
    constructor
    · rw [List.drop_drop, isPrefixOf_eq_take, h4]
      rw [show i + (j - i) = j from by omega]
      exact hmk
    · intro k hk
      have hkj : k + i < j := by omega
      have := hmin (k + i) hkj
      rw [Bool.and_eq_false_iff] at this
      rcases this with hle | hsm
      · exfalso
        rw [decide_eq_false_iff_not] at hle
        omega
      · rw [List.drop_drop]
        rw [show i + k = k + i from by omega]
        cases hb : FRAGMENT_START.isPrefixOf (input.drop (k + i)) with
        | false => rfl
        | true =>
          exfalso
          rw [isPrefixOf_eq_take, h4] at hb
          unfold startMarkerAt at hsm
          rw [hb] at hsm
          simp at hsm
  · intro hmap
    rw [Option.map_eq_some'] at hmap
    obtain ⟨j2, hj2, hje⟩ := hmap
    subst hje
    rw [char_findSub] at hj2
    obtain ⟨h1, hmin⟩ := hj2
    rw [List.drop_drop, isPrefixOf_eq_take, h4] at h1
    refine ⟨?_, ?_, ?_⟩
    · rw [Bool.and_eq_true]
      refine ⟨by simp, ?_⟩
      unfold startMarkerAt
      rw [Nat.add_comm i j2] at h1
      simp [h1]
    · have := marker_bound h4 (by rw [Nat.add_comm i j2] at h1; exact h1)
      omega
    · intro k hk
      by_cases hik : i ≤ k
      · have hpre := hmin (k - i) (by omega)
        rw [List.drop_drop] at hpre
        rw [show i + (k - i) = k from by omega] at hpre
        rw [Bool.and_eq_false_iff]
        right
        unfold startMarkerAt
        rw [decide_eq_false_iff_not]
        intro hteq
        have hyes : FRAGMENT_START.isPrefixOf (List.drop k input) = true := by
          rw [isPrefixOf_eq_take, h4]
          exact hteq
        rw [hyes] at hpre
        cases hpre
      · rw [Bool.and_eq_false_iff]
        left
        simpa using hik

theorem take4_bytes {l : List Nat} {e : Nat} (h : (l.drop e).take 4 = FRAGMENT_END) :
    ∀ m < 4, l.getD (e + m) 0 = FRAGMENT_END.getD m 0 := by
  intro m hm
  have h1 : ((l.drop e).take 4)[m]? = FRAGMENT_END[m]? := by rw [h]
  rw [List.getElem?_take, if_pos hm, List.getElem?_drop] at h1
  rw [List.getD_eq_getElem?_getD, h1, ← List.getD_eq_getElem?_getD]

theorem end_marker_bytes_ne_newline : ∀ m < 4, FRAGMENT_END.getD m 0 ≠ 10 := by decide

theorem getD_mem_of_lt {l : List Nat} {k : Nat} (h : k < l.length) :
    l.getD k 0 ∈ l := by
  rw [List.getD_eq_getElem?_getD, List.getElem?_eq_getElem h]
  simpa using List.getElem_mem l k h

theorem getD_take_eq {l : List Nat} {k n : Nat} (h2 : k < n) :
    (l.take n).getD k 0 = l.getD k 0 := by
  rw [List.getD_eq_getElem?_getD, List.getD_eq_getElem?_getD, List.getElem?_take, if_pos h2]

theorem getD_mem_take {l : List Nat} {k n : Nat} (h1 : k < l.length) (h2 : k < n) :
    l.getD k 0 ∈ l.take n := by
  have hk3 : k < (l.take n).length := by
    rw [List.length_take]
    omega
  have := getD_mem_of_lt hk3
  rw [getD_take_eq h2] at this
  exact this

theorem mem_take_mono {l : List Nat} {b : Nat} {m n : Nat} (h : m ≤ n)
    (hb : b ∈ l.take m) : b ∈ l.take n := by
  have h1 : l.take m = (l.take n).take m := by
    rw [List.take_take, Nat.min_eq_left h]
  rw [h1] at hb
  exact List.take_subset m (l.take n) hb

theorem mem_take_char {l : List Nat} {b n : Nat} (hb : b ∈ l.take n) :
    ∃ k, k < n ∧ k < l.length ∧ l.getD k 0 = b := by
  obtain ⟨⟨k, hk⟩, hget⟩ := List.mem_iff_get.mp hb
  rw [List.length_take] at hk
  have hk1 : k < n := by omega
  have hk2 : k < l.length := by omega
  refine ⟨k, hk1, hk2, ?_⟩
  rw [← getD_take_eq hk1]
  rw [List.getD_eq_getElem?_getD, List.getElem?_eq_getElem (by rw [List.length_take]; omega)]
  simpa using hget

/-- The end-marker search of the source scanner and of the spec coincide. -/
theorem eq_first_end (input : List Nat) (s : Nat) :
    specFirstEnd input s = (findEnd (input.drop s)).map (· + s) := by
  apply option_eq_of_some_iff
  intro p
  unfold specFirstEnd
  rw [char_find?_range]
  have hfe : findEnd (input.drop s) = findEndIn (input.drop s) 253 := rfl
  have h4 : FRAGMENT_END.length = 4 := rfl
  rw [hfe]
  constructor
  · rintro ⟨hpp, hpn, hmin⟩
    rw [Bool.and_eq_true, Bool.and_eq_true] at hpp
    obtain ⟨⟨hsp, hmk⟩, hcand⟩ := hpp
    have hsp2 : s ≤ p := by simpa using hsp
    have hmk2 : (input.drop p).take 4 = FRAGMENT_END := by
      unfold endMarkerAt at hmk
      simpa using hmk
    unfold candidateOk at hcand
    rw [Bool.and_eq_true] at hcand
    have hlen : p + 4 ≤ s + 256 := by
      have := hcand.1
      simp only [decide_eq_true_eq, MAX_FRAGMENT_LEN] at this
      exact this
    have hnn : ∀ b ∈ (input.drop s).take (p + 4 - s), b ≠ 10 := by
      have hall := hcand.2
      rw [List.all_eq_true] at hall
      intro b hb
      have := hall b hb
      simpa using this
    rw [Option.map_eq_some']
    refine ⟨p - s, ?_, by omega⟩
    rw [char_findEndIn]
    refine ⟨?_, by omega, ?_⟩
    · rw [List.drop_drop, isPrefixOf_eq_take, h4, show s + (p - s) = p from by omega]
      exact hmk2
    · intro k hk
      constructor
      · by_cases hkl : k < (input.drop s).length
        · exact hnn _ (getD_mem_take hkl (by omega))
        · rw [List.getD_eq_getElem?_getD, List.getElem?_eq_none (by omega)]
          simp
      · cases hb : FRAGMENT_END.isPrefixOf ((input.drop s).drop k) with
        | false => rfl
        | true =>
          exfalso
          rw [List.drop_drop, isPrefixOf_eq_take, h4] at hb
          have hcand2 : candidateOk input s (s + k) = true := by
            unfold candidateOk
            rw [Bool.and_eq_true]
            constructor
            · simp only [decide_eq_true_eq, MAX_FRAGMENT_LEN]
              omega
            · rw [List.all_eq_true]
              intro b hbm
              have hb2 : b ∈ (input.drop s).take (p + 4 - s) := by
                apply mem_take_mono _ hbm
                omega
              simpa using hnn b hb2
          have hmk3 : endMarkerAt input (s + k) = true := by
            unfold endMarkerAt
            simp [hb]
          have hcontra := hmin (s + k) (by omega)
          rw [hmk3, hcand2] at hcontra
          simp at hcontra
  · intro hmap
    rw [Option.map_eq_some'] at hmap
    obtain ⟨e, he, hpe⟩ := hmap
    subst hpe
    rw [char_findEndIn] at he
    obtain ⟨hpre, he253, hbelow⟩ := he
    rw [List.drop_drop, isPrefixOf_eq_take, h4] at hpre
    have hmarker : (input.drop (e + s)).take 4 = FRAGMENT_END := by
      rw [Nat.add_comm e s]
      exact hpre
    have hbound := marker_bound h4 hmarker
    refine ⟨?_, by omega, ?_⟩
    · rw [Bool.and_eq_true, Bool.and_eq_true]
      refine ⟨⟨by simp, ?_⟩, ?_⟩
      · unfold endMarkerAt
        simp [hmarker]
      · unfold candidateOk
        rw [Bool.and_eq_true]
        constructor
        · simp only [decide_eq_true_eq, MAX_FRAGMENT_LEN]
          omega
        · rw [List.all_eq_true]
          intro b hbm
          rw [show e + s + 4 - s = e + 4 from by omega] at hbm
          obtain ⟨k, hk1, hk2, hk3⟩ := mem_take_char hbm
          subst hk3
          by_cases hke : k < e
          · simpa using (hbelow k hke).1
          · have hm : k - e < 4 := by omega
            have hb4 := take4_bytes hpre (k - e) hm
            have hconv : (List.drop s input).getD k 0 = input.getD (s + k) 0 := by
              rw [List.getD_eq_getElem?_getD, List.getD_eq_getElem?_getD,
                List.getElem?_drop]
            rw [show s + e + (k - e) = s + k from by omega] at hb4
            rw [hconv, hb4]
            simpa using end_marker_bytes_ne_newline (k - e) hm
    · intro k hk
      by_cases hks : s ≤ k
      · have hke : k - s < e := by omega
        have hnopre := (hbelow (k - s) hke).2
        rw [List.drop_drop, show s + (k - s) = k from by omega] at hnopre
        rw [Bool.and_eq_false_iff]
        left
        rw [Bool.and_eq_false_iff]
        right
        unfold endMarkerAt
        rw [decide_eq_false_iff_not]
        intro hteq
        have hyes : FRAGMENT_END.isPrefixOf (List.drop k input) = true := by
          rw [isPrefixOf_eq_take, h4]
          exact hteq
        rw [hyes] at hnopre
        cases hnopre
      · rw [Bool.and_eq_false_iff]
        left
        rw [Bool.and_eq_false_iff]
        left
        simpa using hks

theorem scanFrom_eq_spec : ∀ (fuel : Nat) (input : List Nat) (idx : Nat),
    scanFrom fuel input idx = specScanFrom fuel input idx := by
  intro fuel
  induction fuel with
  | zero => intro input idx; rfl
  | succ f ih =>
    intro input idx
    by_cases hidx : input.length ≤ idx
    · simp only [scanFrom, specScanFrom, if_pos hidx]
    · simp only [scanFrom, specScanFrom, if_neg hidx]
      rw [eq_first_start input idx]
      cases hfs : findSub FRAGMENT_START (input.drop idx) with
      | none => rfl
      | some startPos =>
        simp only [Option.map_some']
        rw [eq_first_end input (startPos + idx)]
        rw [show startPos + idx = idx + startPos from by omega]
        cases hfd : findEnd (input.drop (idx + startPos)) with
        | none =>
          simp only [Option.map_none']
          exact ih input (idx + startPos + 4)
        | some endPos =>
          simp only [Option.map_some']
          rw [show endPos + (idx + startPos) = idx + startPos + endPos from by omega]
          rw [ih input (idx + startPos + endPos + 4)]

/-- C4: the fragment scanner yields exactly the spans given by the
specification: a fragment starts at the exact 4-byte start marker and ends at
the first end marker whose candidate contains no newline and is at most 256
bytes including both delimiters; a start marker with no valid end marker is
left as literal text and scanning resumes immediately after the 4-byte start
marker, so a later valid start marker on the same line is still recognized. -/
theorem fragment_scanner_spec (input : List Nat) :
    fragmentSpans input = specFragmentSpans input :=
  scanFrom_eq_spec (input.length + 1) input 0

/-! ## Template parsing and rendering (reinda-core/src/template.rs) -/

/-- A parsed template fragment (`Fragment` in the source; `Include` is named
`incl` here). Names are character lists. -/
inductive Fragment where
  | path (target : List Char)
  | incl (target : List Char)
  | var (name : List Char)
deriving Repr, DecidableEq

/-- Template parse errors (`template::Error` in the source). -/
inductive TemplateError where
  | nonUtf8TemplateFragment (bytes : List Nat)
  | unknownTemplateSpecifier (s : List Char)
deriving Repr, DecidableEq

/-- Strict UTF-8 decoding (models `std::str::from_utf8`): `none` on any
invalid byte sequence. -/
def utf8Decode : List Nat → Option (List Char)
  | [] => some []
  | b0 :: rest =>
    if b0 < 0x80 then
      (utf8Decode rest).map (fun cs => Char.ofNat b0 :: cs)
    else if 0xC2 ≤ b0 ∧ b0 ≤ 0xDF then
      match rest with
      | b1 :: rest2 =>
        if 0x80 ≤ b1 ∧ b1 ≤ 0xBF then
          (utf8Decode rest2).map
            (fun cs => Char.ofNat ((b0 - 0xC0) * 0x40 + (b1 - 0x80)) :: cs)
        else none
      | _ => none
    else if 0xE0 ≤ b0 ∧ b0 ≤ 0xEF then
      match rest with
      | b1 :: b2 :: rest2 =>
        let lo1 := if b0 = 0xE0 then 0xA0 else 0x80
        let hi1 := if b0 = 0xED then 0x9F else 0xBF
        if (lo1 ≤ b1 ∧ b1 ≤ hi1) ∧ (0x80 ≤ b2 ∧ b2 ≤ 0xBF) then
          (utf8Decode rest2).map (fun cs =>
            Char.ofNat ((b0 - 0xE0) * 0x1000 + (b1 - 0x80) * 0x40 + (b2 - 0x80)) :: cs)
        else none
      | _ => none
    else if 0xF0 ≤ b0 ∧ b0 ≤ 0xF4 then
      match rest with
      | b1 :: b2 :: b3 :: rest2 =>
        let lo1 := if b0 = 0xF0 then 0x90 else 0x80
        let hi1 := if b0 = 0xF4 then 0x8F else 0xBF
        if (lo1 ≤ b1 ∧ b1 ≤ hi1) ∧ (0x80 ≤ b2 ∧ b2 ≤ 0xBF) ∧ (0x80 ≤ b3 ∧ b3 ≤ 0xBF) then
          (utf8Decode rest2).map (fun cs =>
            Char.ofNat ((b0 - 0xF0) * 0x40000 + (b1 - 0x80) * 0x1000 +
              (b2 - 0x80) * 0x40 + (b3 - 0x80)) :: cs)
        else none
      | _ => none
    else none

/-- Models `str::trim` (whitespace at both ends removed; `Char.isWhitespace`
covers the ASCII whitespace relevant to the template syntax). -/
def trimChars (l : List Char) : List Char :=
  ((l.dropWhile Char.isWhitespace).reverse.dropWhile Char.isWhitespace).reverse

/-- Models the local closure `val`: everything after the first colon. -/
def afterFirstColon (s : List Char) : List Char :=
  (s.dropWhile (fun c => !(c == ':'))).tail

/-- Models `s[..s.find(':').unwrap_or(s.len())]`. -/
def beforeFirstColon (s : List Char) : List Char :=
  s.takeWhile (fun c => !(c == ':'))

/-- Models `Fragment::parse`. -/
def Fragment.parse (bytes : List Nat) : Except TemplateError Fragment :=
  match utf8Decode bytes with
  | none => .error (.nonUtf8TemplateFragment bytes)
  | some cs =>
    let s := trimChars cs
    if ("path:".toList).isPrefixOf s then .ok (.path (afterFirstColon s))
    else if ("include:".toList).isPrefixOf s then .ok (.incl (afterFirstColon s))
    else if ("var:".toList).isPrefixOf s then .ok (.var (afterFirstColon s))
    else .error (.unknownTemplateSpecifier (beforeFirstColon s))

/-- A fragment with its span (body range, markers excluded). -/
structure SpannedFragment where
  span : Nat × Nat
  kind : Fragment
deriving Repr, DecidableEq

/-- Models `Template`: the raw bytes plus the parsed fragments. -/
structure Template where
  raw : List Nat
  fragments : List SpannedFragment
deriving Repr, DecidableEq

/-- Models `Template::parse`: scan the spans, parse each fragment body.
`&input[span]` is modelled by drop/take (the source would panic on a
reversed span; see the scanner corner case on overlapping markers). -/
def Template.parse (input : List Nat) : Except TemplateError Template :=
  ((fragmentSpans input).mapM (fun span =>
    (Fragment.parse ((input.drop span.1).take (span.2 - span.1))).map
      (fun kind => SpannedFragment.mk span kind))).map
    (fun frags => Template.mk input frags)

/-- Models `Template::into_already_rendered`. -/
def Template.intoAlreadyRendered (t : Template) : Except Template (List Nat) :=
  if t.fragments.isEmpty then .ok t.raw else .error t

/-- The fragment list of a template, without spans. -/
def Template.kinds (t : Template) : List Fragment :=
  t.fragments.map SpannedFragment.kind

/-- The loop of `Template::render`.  The replacer returns the bytes the
callback would append for the fragment (the `Appender` of the source). -/
def renderLoop {ε : Type} (raw : List Nat) (replacer : Fragment → Except ε (List Nat)) :
    List SpannedFragment → Nat → List Nat → Except ε (List Nat)
  | [], lastEnd, out => .ok (out ++ raw.drop lastEnd)
  | f :: rest, lastEnd, out =>
    match replacer f.kind with
    | .error e => .error e
    | .ok rep =>
      renderLoop raw replacer rest (f.span.2 + 4)
        (out ++ (raw.drop lastEnd).take (f.span.1 - 4 - lastEnd) ++ rep)

/-- Models `Template::render`: with no fragments the original buffer is
returned as-is; otherwise the pieces between fragments are copied verbatim
and each fragment is replaced by the replacer's output. -/
def Template.render {ε : Type} (t : Template)
    (replacer : Fragment → Except ε (List Nat)) : Except ε (List Nat) :=
  if t.fragments.isEmpty then .ok t.raw
  else renderLoop t.raw replacer t.fragments 0 []

/-- C8: on every payload in which the scanner finds zero fragments, parsing
succeeds, the template keeps the original buffer, and `render` returns that
original buffer itself (the source returns `self.raw` without copying), for
every replacer; `into_already_rendered` likewise returns the original. -/
theorem render_no_fragments (input : List Nat) {ε : Type}
    (replacer : Fragment → Except ε (List Nat))
    (h : fragmentSpans input = []) :
    ∃ t : Template, Template.parse input = .ok t ∧ t.raw = input ∧
      t.fragments = [] ∧ t.render replacer = .ok input ∧
      t.intoAlreadyRendered = .ok input := by
  refine ⟨Template.mk input [], ?_, rfl, rfl, ?_, ?_⟩
  · unfold Template.parse
    rw [h]
    rfl
  · unfold Template.render
    rfl
  · rfl

/-- Witness for `render_no_fragments` on a concrete fragment-free payload. -/
theorem render_no_fragments_witness :
    ∃ t : Template, Template.parse [102, 111, 111] = .ok t ∧ t.raw = [102, 111, 111] ∧
      t.fragments = [] ∧
      t.render (fun (_ : Fragment) => (Except.ok [] : Except Unit (List Nat)))
        = .ok [102, 111, 111] ∧
      t.intoAlreadyRendered = .ok [102, 111, 111] :=
  render_no_fragments [102, 111, 111] (fun _ => Except.ok []) (by decide)

/-! ## Content hashing (src/hash.rs)

The source computes `Sha256::digest(content)`, takes the first 9 bytes and
encodes them with URL-safe base64 without padding.  SHA-256 (the `sha2`
crate) and the base64 alphabet are modelled here in full; words are `Nat`
reduced modulo 2^32. -/

def rotr32 (n w : Nat) : Nat := (w >>> n) + (w % 2 ^ n) * 2 ^ (32 - n)

def bsig0 (x : Nat) : Nat := (rotr32 2 x) ^^^ (rotr32 13 x) ^^^ (rotr32 22 x)

def bsig1 (x : Nat) : Nat := (rotr32 6 x) ^^^ (rotr32 11 x) ^^^ (rotr32 25 x)

def ssig0 (x : Nat) : Nat := (rotr32 7 x) ^^^ (rotr32 18 x) ^^^ (x >>> 3)

def ssig1 (x : Nat) : Nat := (rotr32 17 x) ^^^ (rotr32 19 x) ^^^ (x >>> 10)

def chF (x y z : Nat) : Nat := (x &&& y) ^^^ ((x ^^^ 4294967295) &&& z)

def majF (x y z : Nat) : Nat := (x &&& y) ^^^ (x &&& z) ^^^ (y &&& z)

def K256 : List Nat :=
  [1116352408, 1899447441, 3049323471, 3921009573, 961987163, 1508970993,
   2453635748, 2870763221, 3624381080, 310598401, 607225278, 1426881987,
   1925078388, 2162078206, 2614888103, 3248222580, 3835390401, 4022224774,
   264347078, 604807628, 770255983, 1249150122, 1555081692, 1996064986,
   2554220882, 2821834349, 2952996808, 3210313671, 3336571891, 3584528711,
   113926993, 338241895, 666307205, 773529912, 1294757372, 1396182291,
   1695183700, 1986661051, 2177026350, 2456956037, 2730485921, 2820302411,
   3259730800, 3345764771, 3516065817, 3600352804, 4094571909, 275423344,
   430227734, 506948616, 659060556, 883997877, 958139571, 1322822218,
   1537002063, 1747873779, 1955562222, 2024104815, 2227730452, 2361852424,
   2428436474, 2756734187, 3204031479, 3329325298]

def H256 : List Nat :=
  [1779033703, 3144134277, 1013904242, 2773480762,
   1359893119, 2600822924, 528734635, 1541459225]

def be64 (n : Nat) : List Nat :=
  [(n >>> 56) % 256, (n >>> 48) % 256, (n >>> 40) % 256, (n >>> 32) % 256,
   (n >>> 24) % 256, (n >>> 16) % 256, (n >>> 8) % 256, n % 256]

def sha256Pad (msg : List Nat) : List Nat :=
  msg ++ [128] ++ List.replicate ((55 + 64 - msg.length % 64) % 64) 0 ++
    be64 (msg.length * 8)

def toWords : List Nat → List Nat
  | a :: b :: c :: d :: rest => (a * 16777216 + b * 65536 + c * 256 + d) :: toWords rest
  | _ => []

def nextScheduleWord (ws : List Nat) : Nat :=
  (ssig1 (ws.getD (ws.length - 2) 0) + ws.getD (ws.length - 7) 0 +
    ssig0 (ws.getD (ws.length - 15) 0) + ws.getD (ws.length - 16) 0) % 4294967296

def extendSchedule : List Nat → Nat → List Nat
  | ws, 0 => ws
  | ws, n + 1 => extendSchedule (ws ++ [nextScheduleWord ws]) n

def sha256Round (st : List Nat) (k w : Nat) : List Nat :=
  match st with
  | [a, b, c, d, e, f, g, h] =>
    let t1 := (h + bsig1 e + chF e f g + k + w) % 4294967296
    let t2 := (bsig0 a + majF a b c) % 4294967296
    [(t1 + t2) % 4294967296, a, b, c, (d + t1) % 4294967296, e, f, g]
  | other => other

def sha256Compress (st : List Nat) (block : List Nat) : List Nat :=
  let ws := extendSchedule (toWords block) 48
  let st2 := (K256.zip ws).foldl (fun s kw => sha256Round s kw.1 kw.2) st
  (st.zip st2).map (fun p => (p.1 + p.2) % 4294967296)

def sha256Chunks : Nat → List Nat → List Nat → List Nat
  | 0, _, st => st
  | _ + 1, [], st => st
  | fuel + 1, x :: rest, st =>
    sha256Chunks fuel ((x :: rest).drop 64) (sha256Compress st ((x :: rest).take 64))

/-- SHA-256 digest of a byte list (32 bytes). -/
def sha256 (msg : List Nat) : List Nat :=
  let padded := sha256Pad msg
  (sha256Chunks (padded.length + 1) padded H256).foldr
    (fun w acc => (w >>> 24) % 256 :: (w >>> 16) % 256 :: (w >>> 8) % 256 :: w % 256 :: acc)
    []

/-- URL-safe base64 alphabet. -/
def base64Char (n : Nat) : Char :=
  if n < 26 then Char.ofNat (65 + n)
  else if n < 52 then Char.ofNat (97 + (n - 26))
  else if n < 62 then Char.ofNat (48 + (n - 52))
  else if n = 62 then Char.ofNat 45
  else Char.ofNat 95

/-- URL-safe base64 without padding. -/
def base64UrlNoPad : List Nat → List Char
  | [] => []
  | [a] => [base64Char (a / 4), base64Char (a % 4 * 16)]
  | [a, b] => [base64Char (a / 4), base64Char (a % 4 * 16 + b / 16), base64Char (b % 16 * 4)]
  | a :: b :: c :: rest =>
    base64Char (a / 4) :: base64Char (a % 4 * 16 + b / 16) ::
      base64Char (b % 16 * 4 + c / 64) :: base64Char (c % 64) :: base64UrlNoPad rest

/-- How many bytes of the 32 byte hash are used in the filename. -/
def HASH_BYTES_IN_FILENAME : Nat := 9

/-- The base64-encoded hash fragment inserted into filenames. -/
def hashFragment (content : List Nat) : List Char :=
  base64UrlNoPad ((sha256 content).take HASH_BYTES_IN_FILENAME)

/-- Models `PathHash` (hash placement spec). -/
inductive PathHash where
  | none
  | auto
  | inBetween (pre suf : List Char)
deriving Repr, DecidableEq

/-- Models `str::rfind(c)` (index of the last occurrence). -/
def rfindChar : List Char → Char → Option Nat
  | [], _ => none
  | x :: t, c =>
    match rfindChar t c with
    | some i => some (i + 1)
    | none => if x = c then some 0 else none

/-- Models `str::find(c)` (index of the first occurrence). -/
def findChar : List Char → Char → Option Nat
  | [], _ => none
  | x :: t, c => if x = c then some 0 else (findChar t c).map (· + 1)

/-- Models `hash::path_of` (the `hash` feature variant): splice the base64
hash of the content into the path according to the placement spec. -/
def pathOf (hash : PathHash) (path : List Char) (content : List Nat) : List Char :=
  match hash with
  | .none => path
  | .auto =>
    let lastSegStart := ((rfindChar path '/').map (· + 1)).getD 0
    let fp : Nat × Char :=
      match findChar (path.drop lastSegStart) '.' with
      | some pos => (lastSegStart + pos, '.')
      | none => (path.length, '-')
    path.take fp.1 ++ [fp.2] ++ hashFragment content ++ path.drop fp.1
  | .inBetween pre suf => pre ++ hashFragment content ++ suf

/-! ### Characterization of the hashed-path splicing (spec wording) -/

/-- Spec: the last path segment (filename), i.e. everything after the last
slash. -/
def lastSegment (path : List Char) : List Char :=
  (path.reverse.takeWhile (fun c => decide (c ≠ '/'))).reverse

/-- Spec: the path up to (and including) the last slash. -/
def dirPart (path : List Char) : List Char :=
  path.take (path.length - (lastSegment path).length)

theorem rfindChar_eq_none {l : List Char} {c : Char} :
    rfindChar l c = none ↔ c ∉ l := by
  induction l with
  | nil => simp [rfindChar]
  | cons x t ih =>
    simp only [rfindChar]
    cases h : rfindChar t c with
    | some i =>
      have hmem : c ∈ t := by
        by_contra hn
        rw [← ih] at hn
        rw [hn] at h
        cases h
      simp [hmem]
    | none =>
      have hnm : c ∉ t := ih.mp h
      by_cases hx : x = c
      · simp [hx]
      · have hx2 : ¬ c = x := fun he => hx he.symm
        simp [hx, hx2, hnm]

theorem rfindChar_lt_length {l : List Char} {c : Char} {i : Nat}
    (h : rfindChar l c = some i) : i < l.length := by
  induction l generalizing i with
  | nil => cases h
  | cons x t ih =>
    simp only [rfindChar] at h
    cases h2 : rfindChar t c with
    | some j =>
      rw [h2] at h
      simp only [Option.some.injEq] at h
      subst h
      have := ih h2
      simp only [List.length_cons]
      omega
    | none =>
      rw [h2] at h
      by_cases hx : x = c
      · rw [if_pos hx] at h
        simp only [Option.some.injEq] at h
        subst h
        simp
      · rw [if_neg hx] at h
        cases h

theorem takeWhile_append_of_all {p : Char → Bool} {l1 l2 : List Char}
    (h : ∀ a ∈ l1, p a = true) :
    (l1 ++ l2).takeWhile p = l1 ++ l2.takeWhile p := by
  induction l1 with
  | nil => simp
  | cons x t ih =>
    have hx := h x (List.mem_cons_self x t)
    simp only [List.cons_append, List.takeWhile_cons, hx]
    rw [ih (fun a ha => h a (List.mem_cons_of_mem x ha))]
    simp

theorem takeWhile_append_of_mem_not {p : Char → Bool} {l1 l2 : List Char}
    (h : ∃ a ∈ l1, p a = false) :
    (l1 ++ l2).takeWhile p = l1.takeWhile p := by
  induction l1 with
  | nil =>
    obtain ⟨a, ha, _⟩ := h
    cases ha
  | cons x t ih =>
    by_cases hx : p x = true
    · simp only [List.cons_append, List.takeWhile_cons, hx]
      obtain ⟨a, ha, hpa⟩ := h
      rcases List.mem_cons.mp ha with rfl | ha2
      · rw [hx] at hpa; cases hpa
      · rw [ih ⟨a, ha2, hpa⟩]
    · have hx2 : p x = false := Bool.of_not_eq_true hx
      simp only [List.cons_append, List.takeWhile_cons, hx2]
      simp

/-- The drop-based last segment of the source equals the spec's
`lastSegment`. -/
theorem drop_lastSegStart (path : List Char) :
    path.drop (((rfindChar path '/').map (· + 1)).getD 0) = lastSegment path := by
  induction path with
  | nil => simp [lastSegment]
  | cons x t ih =>
    unfold lastSegment
    simp only [rfindChar, List.reverse_cons]
    cases h : rfindChar t '/' with
    | some i =>
      have hmem : '/' ∈ t := by
        by_contra hn
        rw [← rfindChar_eq_none] at hn
        rw [hn] at h
        cases h
      have hrev : '/' ∈ t.reverse := by simpa using hmem
      rw [takeWhile_append_of_mem_not ⟨'/', hrev, by simp⟩]
      simp only [Option.map_some', Option.getD_some, List.drop_succ_cons]
      rw [← lastSegment]
      rw [← ih]
      rw [h]
      rfl
    | none =>
      have hnm : '/' ∉ t := rfindChar_eq_none.mp h
      have hall : ∀ a ∈ t.reverse, (fun c => decide (c ≠ '/')) a = true := by
        intro a ha
        simp only [decide_eq_true_eq]
        intro he
        subst he
        exact hnm (by simpa using ha)
      rw [takeWhile_append_of_all hall]
      by_cases hx : x = '/'
      · rw [if_pos hx]
        simp only [Option.map_none', Option.getD_none]
        subst hx
        simp [List.takeWhile]
      · rw [if_neg hx]
        have : (List.takeWhile (fun c => decide (c ≠ '/')) [x]) = [x] := by
          simp [List.takeWhile, hx]
        rw [this]
        simp

theorem lastSegStart_le (path : List Char) :
    ((rfindChar path '/').map (· + 1)).getD 0 ≤ path.length := by
  cases h : rfindChar path '/' with
  | none => simp
  | some i =>
    have := rfindChar_lt_length h
    simp only [Option.map_some', Option.getD_some]
    omega

theorem take_lastSegStart (path : List Char) :
    path.take (((rfindChar path '/').map (· + 1)).getD 0) = dirPart path := by
  have h1 := drop_lastSegStart path
  have h2 := lastSegStart_le path
  have h3 : (lastSegment path).length
      = path.length - ((rfindChar path '/').map (· + 1)).getD 0 := by
    rw [← h1, List.length_drop]
  unfold dirPart
  rw [h3]
  congr 1
  omega

theorem findChar_eq_none {l : List Char} {c : Char} :
    findChar l c = none ↔ c ∉ l := by
  induction l with
  | nil => simp [findChar]
  | cons x t ih =>
    by_cases hx : x = c
    · simp [findChar, hx]
    · have hx2 : ¬ c = x := fun he => hx he.symm
      simp [findChar, hx, hx2, Option.map_eq_none', ih]

theorem findChar_split {l : List Char} {c : Char} {p : Nat}
    (h : findChar l c = some p) :
    l.take p = l.takeWhile (fun x => decide (x ≠ c)) ∧
    l.drop p = l.dropWhile (fun x => decide (x ≠ c)) := by
  induction l generalizing p with
  | nil => cases h
  | cons x t ih =>
    by_cases hx : x = c
    · simp only [findChar, if_pos hx] at h
      rw [Option.some.injEq] at h
      subst h
      subst hx
      constructor
      · simp [List.takeWhile_cons]
      · simp [List.dropWhile_cons]
    · simp only [findChar, if_neg hx] at h
      rw [Option.map_eq_some'] at h
      obtain ⟨p2, hp2, hpe⟩ := h
      subst hpe
      obtain ⟨ht, hd⟩ := ih hp2
      constructor
      · simp only [List.take_succ_cons, List.takeWhile_cons]
        have : (decide (x ≠ c)) = true := by simpa using hx
        rw [this]
        simp [ht]
      · simp only [List.drop_succ_cons, List.dropWhile_cons]
        have : (decide (x ≠ c)) = true := by simpa using hx
        rw [this]
        simp [hd]

/-- C5: with `None` placement the path is unchanged; with explicit in-between
placement the result is the explicit part before, then the URL-safe
base64 (no padding) of the first 9 bytes of the SHA-256 digest of the
content, then the part after; with `Auto` placement the hash (with a dot) is
spliced in immediately before the first dot of the last path segment, or,
when the segment has no dot, appended to the path after a dash. -/
theorem path_of_spec (path : List Char) (content : List Nat) (pre suf : List Char) :
    pathOf PathHash.none path content = path ∧
    pathOf (PathHash.inBetween pre suf) path content =
      pre ++ base64UrlNoPad ((sha256 content).take 9) ++ suf ∧
    pathOf PathHash.auto path content =
      (if '.' ∈ lastSegment path then
        dirPart path ++ (lastSegment path).takeWhile (fun c => decide (c ≠ '.')) ++
          '.' :: (base64UrlNoPad ((sha256 content).take 9) ++
            (lastSegment path).dropWhile (fun c => decide (c ≠ '.')))
      else path ++ '-' :: base64UrlNoPad ((sha256 content).take 9)) := by
  refine ⟨rfl, rfl, ?_⟩
  have hdrop := drop_lastSegStart path
  have htake := take_lastSegStart path
  have hle := lastSegStart_le path
  by_cases hdot : '.' ∈ lastSegment path
  · rw [if_pos hdot]
    rcases hfc : findChar (path.drop (((rfindChar path '/').map (· + 1)).getD 0)) '.'
      with _ | pos
    · exfalso
      rw [findChar_eq_none, hdrop] at hfc
      exact hfc hdot
    · obtain ⟨hts, hds⟩ := findChar_split hfc
      rw [hdrop] at hts hds
      have hred : pathOf PathHash.auto path content =
          path.take (((rfindChar path '/').map (· + 1)).getD 0 + pos) ++ ['.'] ++
            hashFragment content ++
            path.drop (((rfindChar path '/').map (· + 1)).getD 0 + pos) := by
        simp only [pathOf]
        rw [hfc]
      rw [hred]
      have htake2 : path.take (((rfindChar path '/').map (· + 1)).getD 0 + pos) =
          dirPart path ++ (lastSegment path).takeWhile (fun c => decide (c ≠ '.')) := by
        rw [List.take_add, htake, hdrop, hts]
      have hdrop2 : path.drop (((rfindChar path '/').map (· + 1)).getD 0 + pos) =
          (lastSegment path).dropWhile (fun c => decide (c ≠ '.')) := by
        rw [← List.drop_drop, hdrop, hds]
      rw [htake2, hdrop2]
      unfold hashFragment HASH_BYTES_IN_FILENAME
      simp
  · rw [if_neg hdot]
    rcases hfc : findChar (path.drop (((rfindChar path '/').map (· + 1)).getD 0)) '.'
      with _ | pos
    · have hred : pathOf PathHash.auto path content =
          path.take path.length ++ ['-'] ++ hashFragment content ++
            path.drop path.length := by
        simp only [pathOf]
        rw [hfc]
      rw [hred]
      rw [List.take_of_length_le (le_refl path.length),
        List.drop_eq_nil_of_le (le_refl path.length)]
      unfold hashFragment HASH_BYTES_IN_FILENAME
      simp
    · exfalso
      apply hdot
      rw [← hdrop]
      by_contra hn
      rw [← findChar_eq_none] at hn
      rw [hn] at hfc
      cases hfc

/-- C10: with `Auto` placement, a path whose last segment begins with a dot is
treated as having its first dot at position 0 of the segment: the result is
the directory part, then a dot, the base64 hash, and the entire original
segment; no byte of the original path is dropped. -/
theorem path_of_dotfile (path : List Char) (content : List Nat)
    (h : (lastSegment path).head? = some '.') :
    pathOf PathHash.auto path content =
      dirPart path ++ '.' ::
        (base64UrlNoPad ((sha256 content).take 9) ++ lastSegment path) ∧
    path = dirPart path ++ lastSegment path := by
  have hsplit : path = dirPart path ++ lastSegment path := by
    rw [← take_lastSegStart, ← drop_lastSegStart]
    exact (List.take_append_drop _ path).symm
  refine ⟨?_, hsplit⟩
  have hauto := (path_of_spec path content [] []).2.2
  rcases hseg : lastSegment path with _ | ⟨c, segrest⟩
  · rw [hseg] at h
    cases h
  · rw [hseg] at h
    simp only [List.head?_cons, Option.some.injEq] at h
    subst h
    have hdot : '.' ∈ lastSegment path := by
      rw [hseg]
      exact List.mem_cons_self _ _
    rw [if_pos hdot, hseg] at hauto
    rw [hauto]
    simp [List.takeWhile_cons, List.dropWhile_cons]

/-- Witness for `path_of_dotfile` at the concrete dotfile path `dir/.env`. -/
theorem path_of_dotfile_witness :
    (lastSegment ("dir/.env".toList)).head? = some '.' ∧
    (pathOf PathHash.auto ("dir/.env".toList) [] =
      dirPart ("dir/.env".toList) ++ '.' ::
        (base64UrlNoPad ((sha256 []).take 9) ++ lastSegment ("dir/.env".toList)) ∧
    "dir/.env".toList = dirPart ("dir/.env".toList) ++ lastSegment ("dir/.env".toList)) :=
  ⟨by decide, path_of_dotfile ("dir/.env".toList) [] (by decide)⟩

/-! ## Generic association lists (the `AHashMap`s of the resolver)

The resolver's `resolved`, `unresolved` and `public_paths` hash maps are
modelled as association lists with unique keys; `insertA` replaces an
existing entry in place (like `HashMap::insert`) and `eraseA` removes one
(like `HashMap::remove`). -/

def lookupA {κ β : Type} [DecidableEq κ] : List (κ × β) → κ → Option β
  | [], _ => none
  | (k, v) :: rest, id => if k = id then some v else lookupA rest id

def insertA {κ β : Type} [DecidableEq κ] : List (κ × β) → κ → β → List (κ × β)
  | [], id, v => [(id, v)]
  | (k, w) :: rest, id, v =>
    if k = id then (k, v) :: rest else (k, w) :: insertA rest id v

def eraseA {κ β : Type} [DecidableEq κ] : List (κ × β) → κ → List (κ × β)
  | [], _ => []
  | (k, v) :: rest, id => if k = id then rest else (k, v) :: eraseA rest id

theorem lookupA_insertA {κ β : Type} [DecidableEq κ]
    (m : List (κ × β)) (k x : κ) (v : β) :
    lookupA (insertA m k v) x = if k = x then some v else lookupA m x := by
  induction m with
  | nil => by_cases hkx : k = x <;> simp [insertA, lookupA, hkx]
  | cons p rest ih =>
    rcases p with ⟨k0, w⟩
    by_cases hk0 : k0 = k
    · subst hk0
      by_cases hkx : k0 = x <;> simp [insertA, lookupA, hkx]
    · by_cases hk0x : k0 = x
      · subst hk0x
        have hkx : ¬ k = k0 := fun he => hk0 he.symm
        simp [insertA, lookupA, hk0, hkx]
      · simp [insertA, lookupA, hk0, hk0x, ih]

theorem lookupA_eraseA_ne {κ β : Type} [DecidableEq κ]
    (m : List (κ × β)) (k x : κ) (hne : k ≠ x) :
    lookupA (eraseA m k) x = lookupA m x := by
  induction m with
  | nil => simp [eraseA]
  | cons p rest ih =>
    rcases p with ⟨k0, w⟩
    by_cases hk0 : k0 = k
    · subst hk0
      have : ¬ k0 = x := hne
      simp [eraseA, lookupA, this]
    · simp [eraseA, lookupA, hk0]
      by_cases hk0x : k0 = x <;> simp [hk0x, ih]

theorem lookupA_isSome_iff {κ β : Type} [DecidableEq κ]
    (m : List (κ × β)) (x : κ) :
    (lookupA m x).isSome ↔ x ∈ m.map Prod.fst := by
  induction m with
  | nil => simp [lookupA]
  | cons p rest ih =>
    rcases p with ⟨k0, w⟩
    by_cases hk0 : k0 = x
    · subst hk0; simp [lookupA]
    · have : ¬ x = k0 := fun he => hk0 he.symm
      simp [lookupA, hk0, this, ih]

/-! ## Asset catalog (reinda-core `Setup` / `AssetDef`)

Paths (`&'static str`) are lists of characters; asset ids (`AssetId(u32)`)
are `Nat`. -/

/-- Models `AssetDef` (reinda-core).  `prepend`/`append` are byte strings
(they are only ever used via `extend_from_slice` on byte buffers). -/
structure AssetDef where
  path : List Char
  serve : Bool
  dynamic : Bool
  /-- Contains two strings in between which the hash should be inserted. -/
  hash : Option (List Char × List Char)
  template : Bool
  append : Option (List Nat)
  prepend : Option (List Nat)
  content : List Nat
deriving Repr, DecidableEq, Inhabited

/-- Models `AssetDef::hashed_filename`: `self.hash.is_some()` in prod mode
and `false` in dev mode.  The compile-time `cfg!` flag is the explicit
parameter `prodHash`. -/
def AssetDef.hashedFilename (d : AssetDef) (prodHash : Bool) : Bool :=
  d.hash.isSome && prodHash

/-- Models `Setup` (the asset catalog produced by the `assets!` macro). -/
structure Setup where
  assets : List AssetDef
  basePath : List Char
deriving Repr, DecidableEq, Inhabited

/-- Models `Setup::def`: `&self.assets[id.0 as usize]` (an out-of-range id
would panic in the source; our claims only ever index in range). -/
def Setup.defAt (s : Setup) (id : Nat) : AssetDef :=
  (s.assets.drop id).headD default

/-- Models `Setup::path_to_id`: the macro-generated map sends a logical path
to the id (= index in `assets`) of the asset with that path. -/
def Setup.pathToId (s : Setup) (p : List Char) : Option Nat :=
  posOf (s.assets.map AssetDef.path) p

/-- Models `Config` as far as `Resolver::resolve` reads it: the variable
key→value table.  (`base_path` / `path_overrides` only influence which
file-system path a dynamic asset is read from; file reading is abstracted
below, so they do not appear.) -/
structure Config where
  /-- The `variables` map of `Config` (`variables` is reserved in Lean). -/
  vars : List (List Char × List Char)
deriving Repr, DecidableEq, Inhabited

/-- Models `crate::Error` as far as the resolver produces it.  The
`panic…` variants model the `unwrap` / `expect` panics of
`Resolver::resolve`, which are precondition violations, not `Error`
values in the source. -/
inductive Error where
  | ioError (path : List Char)
  | template (err : TemplateError) (file : List Char)
  | unresolvedInclude (inFile included : List Char)
  | unresolvedPath (inFile referenced : List Char)
  | missingVariable (key file : List Char)
  | cyclicInclude (cycle : List (List Char))
  | panicMissingInclude
  | panicMissingPathRef
  | panicMissingResolved
deriving Repr, DecidableEq

/-- UTF-8 encoding of one scalar value (models `str::as_bytes` per char). -/
def utf8EncodeChar (c : Char) : List Nat :=
  let n := c.toNat
  if n < 0x80 then [n]
  else if n < 0x800 then [0xC0 + n / 0x40, 0x80 + n % 0x40]
  else if n < 0x10000 then
    [0xE0 + n / 0x1000, 0x80 + (n / 0x40) % 0x40, 0x80 + n % 0x40]
  else
    [0xF0 + n / 0x40000, 0x80 + (n / 0x1000) % 0x40, 0x80 + (n / 0x40) % 0x40,
      0x80 + n % 0x40]

/-- UTF-8 encoding of a string (models `str::as_bytes`). -/
def utf8Encode : List Char → List Nat
  | [] => []
  | c :: rest => utf8EncodeChar c ++ utf8Encode rest

/-- Modelled from the spec: `hash::hashed_path_of(def, content)` is called by
`Resolver::resolve`, but the hash module of that crate version is not part of
this snapshot.  Per the spec's hashing contract, the explicit placement pair
carried by `AssetDef.hash = some (pre, suf)` yields
`pre ++ base64url(sha256(content)[..9]) ++ suf`; the function is only called
when `hashed_filename()` holds, i.e. when `hash` is `some _`. -/
def hashedPathOf (d : AssetDef) (content : List Nat) : List Char :=
  match d.hash with
  | some (pre, suf) => pre ++ hashFragment content ++ suf
  | none => d.path

/-! ## The resolver (src/resolve.rs) -/

/-- Models `load_raw_from_fs`: tokio file IO is abstracted as a partial map
`fs` from asset ids to raw file contents (`none` models an IO error; the
fs-path construction from `base_path` / `path_overrides` is folded into the
map).  The definition's `prepend` / `append` bytes surround the file
contents exactly as in the source. -/
def loadRawFromFs (fs : Nat → Option (List Nat)) (setup : Setup) (id : Nat) :
    Except Error (List Nat) :=
  let d := setup.defAt id
  match fs id with
  | none => .error (.ioError d.path)
  | some bytes => .ok ((d.prepend.getD []) ++ bytes ++ (d.append.getD []))

/-- Models `load_from_static` (prod, `compress` feature disabled):
`Bytes::from_static(def.content)`. -/
def loadFromStatic (d : AssetDef) : List Nat :=
  d.content

/-- Models `RawAsset`. -/
inductive RawAsset where
  | templateAsset (t : Template)
  | literal (b : List Nat)
deriving Repr, DecidableEq

/-- Models `RawAsset::new`. -/
def RawAsset.new (raw : List Nat) (d : AssetDef) : Except Error RawAsset :=
  if d.template then
    match Template.parse raw with
    | .error err => .error (.template err d.path)
    | .ok t => .ok (.templateAsset t)
  else .ok (.literal raw)

/-- Models `RawAsset::into_already_rendered`. -/
def RawAsset.intoAlreadyRendered : RawAsset → Except Template (List Nat)
  | .templateAsset t => t.intoAlreadyRendered
  | .literal b => .ok b

/-- Models `dependency_in_fragment`: an `include:` target is always a
dependency; a `path:` target is a dependency exactly when the referenced
asset has a hashed filename; variables never are. -/
def dependencyInFragment (prodHash : Bool) (fragment : Fragment) (parent : Nat)
    (setup : Setup) : Except Error (Option Nat) :=
  match fragment with
  | .incl p =>
    match setup.pathToId p with
    | some id => .ok (some id)
    | none => .error (.unresolvedInclude (setup.defAt parent).path p)
  | .path p =>
    match setup.pathToId p with
    | none => .error (.unresolvedPath (setup.defAt parent).path p)
    | some refereeId =>
      if (setup.defAt refereeId).hashedFilename prodHash then .ok (some refereeId)
      else .ok none
  | .var _ => .ok none

/-- Models `Resolver` (the three fields of the struct). -/
structure Resolver where
  resolved : List (Nat × List Nat)
  unresolved : List (Nat × Template)
  graph : DepGraph Nat
deriving Repr, DecidableEq

def Resolver.new : Resolver := ⟨[], [], DepGraph.empty⟩

/-- The `for fragment in template.fragments()` loop of `Resolver::add_raw`:
record a graph edge for every fragment that is a dependency. -/
def addFragmentDeps (prodHash : Bool) (assetId : Nat) (setup : Setup) :
    List Fragment → DepGraph Nat → Except Error (DepGraph Nat)
  | [], g => .ok g
  | f :: rest, g =>
    match dependencyInFragment prodHash f assetId setup with
    | .error e => .error e
    | .ok none => addFragmentDeps prodHash assetId setup rest g
    | .ok (some dep) =>
      addFragmentDeps prodHash assetId setup rest (g.addDependency assetId dep)

/-- Models `Resolver::add_raw`. -/
def Resolver.addRaw (r : Resolver) (prodHash : Bool) (rawBytes : List Nat)
    (assetId : Nat) (setup : Setup) : Except Error Resolver :=
  match RawAsset.new rawBytes (setup.defAt assetId) with
  | .error e => .error e
  | .ok rawAsset =>
    match rawAsset.intoAlreadyRendered with
    | .ok resolvedBytes =>
      .ok { r with resolved := insertA r.resolved assetId resolvedBytes }
    | .error t =>
      match addFragmentDeps prodHash assetId setup t.kinds r.graph with
      | .error e => .error e
      | .ok g =>
        .ok { r with graph := g, unresolved := insertA r.unresolved assetId t }

/-- The loop body of `Resolver::for_all_assets` over the enumerated ids. -/
def forAllAssetsLoop (prodHash : Bool) (fs : Nat → Option (List Nat))
    (setup : Setup) : List Nat → Resolver → Except Error Resolver
  | [], r => .ok r
  | id :: rest, r =>
    let r1 : Resolver := { r with graph := r.graph.addAsset id }
    let d := setup.defAt id
    match (if d.dynamic then loadRawFromFs fs setup id else .ok (loadFromStatic d)) with
    | .error e => .error e
    | .ok rawBytes =>
      match r1.addRaw prodHash rawBytes id setup with
      | .error e => .error e
      | .ok r2 => forAllAssetsLoop prodHash fs setup rest r2

/-- Models `Resolver::for_all_assets` (the eager preparation pass):
enumerate all assets of the catalog, register each in the graph, load its
raw bytes and feed them to `add_raw`. -/
def forAllAssets (prodHash : Bool) (fs : Nat → Option (List Nat))
    (setup : Setup) : Except Error Resolver :=
  forAllAssetsLoop prodHash fs setup (List.range setup.assets.length) Resolver.new

/-- The mutable state of the `for id in assets` loop of `Resolver::resolve`:
the `resolved` and `unresolved` maps moved out of the resolver plus the
`public_paths` map (which starts empty). -/
structure ResolveState where
  resolved : List (Nat × List Nat)
  unresolved : List (Nat × Template)
  publicPaths : List (Nat × List Char)
deriving Repr, DecidableEq

def ResolveState.ofResolver (r : Resolver) : ResolveState :=
  ⟨r.resolved, r.unresolved, []⟩

/-- Models the render closure of `Resolver::resolve`: includes append the
already-resolved bytes, `path:` fragments append the referenced asset's
public path (its hashed path if one was computed, its logical path
otherwise), variables come from the config table.  The `panic…` errors
model the source's `unwrap`/`expect` on violated preconditions. -/
def resolveReplacer (setup : Setup) (config : Config) (path : List Char)
    (resolved : List (Nat × List Nat)) (publicPaths : List (Nat × List Char)) :
    Fragment → Except Error (List Nat)
  | .incl p =>
    match setup.pathToId p with
    | some id =>
      match lookupA resolved id with
      | some data => .ok data
      | none => .error .panicMissingInclude
    | none => .error .panicMissingInclude
  | .path p =>
    match setup.pathToId p with
    | none => .error .panicMissingPathRef
    | some referenceId =>
      .ok (utf8Encode ((lookupA publicPaths referenceId).getD
        (setup.defAt referenceId).path))
  | .var key =>
    match lookupA config.vars key with
    | some value => .ok (utf8Encode value)
    | none => .error (.missingVariable key path)

/-- One iteration of the `for id in assets` loop of `Resolver::resolve`:
render the asset if it is still unresolved, then compute and store its
hashed public path if one is requested.  (`.panicMissingResolved` models
the `resolved[&id]` indexing panic.) -/
def resolveStep (prodHash : Bool) (setup : Setup) (config : Config)
    (st : ResolveState) (id : Nat) : Except Error ResolveState :=
  let d := setup.defAt id
  let afterRender : Except Error ResolveState :=
    match lookupA st.unresolved id with
    | some t =>
      match t.render (resolveReplacer setup config d.path st.resolved st.publicPaths) with
      | .error e => .error e
      | .ok rendered =>
        .ok { st with resolved := insertA st.resolved id rendered,
                      unresolved := eraseA st.unresolved id }
    | none => .ok st
  match afterRender with
  | .error e => .error e
  | .ok st1 =>
    if d.hashedFilename prodHash then
      match lookupA st1.resolved id with
      | some content =>
        .ok { st1 with publicPaths := insertA st1.publicPaths id (hashedPathOf d content) }
      | none => .error .panicMissingResolved
    else .ok st1

/-- The `for id in assets` loop of `Resolver::resolve`. -/
def resolveLoop (prodHash : Bool) (setup : Setup) (config : Config) :
    List Nat → ResolveState → Except Error ResolveState
  | [], st => .ok st
  | id :: rest, st =>
    match resolveStep prodHash setup config st id with
    | .error e => .error e
    | .ok st1 => resolveLoop prodHash setup config rest st1

/-- Models `ResolveResult`. -/
structure ResolveResult where
  assets : List (Nat × List Nat)
  publicPaths : List (Nat × List Char)
deriving Repr, DecidableEq

/-- Models `Resolver::resolve`: sort the dependency graph topologically and
process the assets in that order. -/
def Resolver.resolve (r : Resolver) (prodHash : Bool) (setup : Setup)
    (config : Config) : Except Error ResolveResult :=
  match r.graph.topologicalSort with
  | .error cycle => .error (.cyclicInclude (cycle.map (fun id => (setup.defAt id).path)))
  | .ok assets =>
    match resolveLoop prodHash setup config assets (ResolveState.ofResolver r) with
    | .error e => .error e
    | .ok st => .ok ⟨st.resolved, st.publicPaths⟩

/-! ### Invariants of `for_all_assets` -/

/-- Invariant of the resolver built by `for_all_assets`: the graph is
well-formed and every unresolved template's dependency fragments have their
edges recorded. -/
structure FInv (prodHash : Bool) (setup : Setup) (r : Resolver) : Prop where
  wfg : WFG r.graph
  edges : ∀ id t, lookupA r.unresolved id = some t →
    ∀ f ∈ t.kinds, ∀ dep,
      dependencyInFragment prodHash f id setup = .ok (some dep) →
      hasEdge r.graph id dep

theorem addFragmentDeps_ok {prodHash : Bool} {assetId : Nat} {setup : Setup} :
    ∀ {frags : List Fragment} {g g' : DepGraph Nat},
    addFragmentDeps prodHash assetId setup frags g = .ok g' → WFG g →
    WFG g' ∧ (∀ x y, hasEdge g x y → hasEdge g' x y) ∧
    (∀ f ∈ frags, ∀ dep,
      dependencyInFragment prodHash f assetId setup = .ok (some dep) →
      hasEdge g' assetId dep) := by
  intro frags
  induction frags with
  | nil =>
    intro g g' h hW
    simp only [addFragmentDeps] at h
    cases h
    exact ⟨hW, fun _ _ h => h, by simp⟩
  | cons f rest ih =>
    intro g g' h hW
    simp only [addFragmentDeps] at h
    rcases hd : dependencyInFragment prodHash f assetId setup with _ | od
    · rw [hd] at h; cases h
    · rw [hd] at h
      cases od with
      | none =>
        obtain ⟨hW', hmono, hcov⟩ := ih h hW
        refine ⟨hW', hmono, ?_⟩
        intro f' hf' dep hdep
        rcases List.mem_cons.mp hf' with rfl | hf'
        · rw [hd] at hdep; cases hdep
        · exact hcov f' hf' dep hdep
      | some dep0 =>
        obtain ⟨hW', hmono, hcov⟩ := ih h (hW.addDependency assetId dep0)
        refine ⟨hW', ?_, ?_⟩
        · intro x y hxy
          exact hmono x y ((hasEdge_addDependency g assetId dep0 x y).mpr (Or.inr hxy))
        · intro f' hf' dep hdep
          rcases List.mem_cons.mp hf' with rfl | hf'
          · rw [hd] at hdep
            rw [Except.ok.injEq, Option.some.injEq] at hdep
            rw [← hdep]
            exact hmono assetId dep0
              ((hasEdge_addDependency g assetId dep0 assetId dep0).mpr (Or.inl ⟨rfl, rfl⟩))
          · exact hcov f' hf' dep hdep

theorem FInv.addRaw {prodHash : Bool} {setup : Setup} {r : Resolver}
    (h : FInv prodHash setup r) {raw : List Nat} {id : Nat} {r' : Resolver}
    (hr : r.addRaw prodHash raw id setup = .ok r') : FInv prodHash setup r' := by
  unfold Resolver.addRaw at hr
  split at hr
  · cases hr
  · rename_i ra hn
    split at hr
    · rw [Except.ok.injEq] at hr
      subst hr
      exact ⟨h.wfg, h.edges⟩
    · rename_i t hi
      split at hr
      · cases hr
      · rename_i g' hg
        rw [Except.ok.injEq] at hr
        subst hr
        obtain ⟨hW', hmono, hcov⟩ := addFragmentDeps_ok hg h.wfg
        refine ⟨hW', ?_⟩
        intro id' t' hl f hf dep hdep
        simp only at hl
        rw [lookupA_insertA] at hl
        by_cases hid : id = id'
        · subst hid
          rw [if_pos rfl, Option.some.injEq] at hl
          subst hl
          exact hcov f hf dep hdep
        · rw [if_neg hid] at hl
          exact hmono id' dep (h.edges id' t' hl f hf dep hdep)

theorem FInv.loop {prodHash : Bool} {fs : Nat → Option (List Nat)}
    {setup : Setup} : ∀ {ids : List Nat} {r r' : Resolver},
    forAllAssetsLoop prodHash fs setup ids r = .ok r' →
    FInv prodHash setup r → FInv prodHash setup r' := by
  intro ids
  induction ids with
  | nil =>
    intro r r' h hi
    simp only [forAllAssetsLoop] at h
    cases h
    exact hi
  | cons id rest ih =>
    intro r r' h hi
    simp only [forAllAssetsLoop] at h
    have hi1 : FInv prodHash setup { r with graph := r.graph.addAsset id } := by
      refine ⟨hi.wfg.addAsset id, ?_⟩
      intro id' t hl f hf dep hdep
      exact (hasEdge_addAsset r.graph id id' dep).mpr (hi.edges id' t hl f hf dep hdep)
    split at h
    · cases h
    · rename_i raw hload
      split at h
      · cases h
      · rename_i r2 hadd
        exact ih h (hi1.addRaw hadd)

/-- The resolver prepared by `for_all_assets` satisfies the invariant. -/
theorem forAllAssets_FInv {prodHash : Bool} {fs : Nat → Option (List Nat)}
    {setup : Setup} {r : Resolver}
    (h : forAllAssets prodHash fs setup = .ok r) : FInv prodHash setup r := by
  refine FInv.loop h ⟨WFG.empty, ?_⟩
  intro id t hl
  simp [Resolver.new, lookupA] at hl

/-! ### The `resolve` loop, decomposed -/

theorem resolveLoop_append (prodHash : Bool) (setup : Setup) (config : Config) :
    ∀ (l1 l2 : List Nat) (st : ResolveState),
    resolveLoop prodHash setup config (l1 ++ l2) st =
      match resolveLoop prodHash setup config l1 st with
      | .error e => .error e
      | .ok st1 => resolveLoop prodHash setup config l2 st1 := by
  intro l1
  induction l1 with
  | nil => intro l2 st; rfl
  | cons id rest ih =>
    intro l2 st
    rcases hstep : resolveStep prodHash setup config st id with e | st1
    · simp [List.cons_append, resolveLoop, hstep]
    · simp only [List.cons_append, resolveLoop, hstep]
      exact ih l2 st1

/-- A step at a different id does not change the maps at `x`. -/
theorem resolveStep_stable {prodHash : Bool} {setup : Setup} {config : Config}
    {st st' : ResolveState} {id : Nat}
    (h : resolveStep prodHash setup config st id = .ok st') (x : Nat) (hx : id ≠ x) :
    lookupA st'.resolved x = lookupA st.resolved x ∧
    lookupA st'.publicPaths x = lookupA st.publicPaths x ∧
    lookupA st'.unresolved x = lookupA st.unresolved x := by
  unfold resolveStep at h
  simp only at h
  split at h
  · cases h
  · rename_i st1 h1
    split at h
    · split at h
      · rename_i content hres
        rw [Except.ok.injEq] at h
        subst h
        have hst1 : lookupA st1.resolved x = lookupA st.resolved x ∧
            lookupA st1.publicPaths x = lookupA st.publicPaths x ∧
            lookupA st1.unresolved x = lookupA st.unresolved x := by
          split at h1
          · rename_i t ht
            split at h1
            · cases h1
            · rename_i rendered hrend
              rw [Except.ok.injEq] at h1
              subst h1
              refine ⟨?_, rfl, ?_⟩
              · simp only [lookupA_insertA, if_neg hx]
              · simp only [lookupA_eraseA_ne _ _ _ hx]
          · rw [Except.ok.injEq] at h1
            subst h1
            exact ⟨rfl, rfl, rfl⟩
        refine ⟨hst1.1, ?_, hst1.2.2⟩
        simp only [lookupA_insertA, if_neg hx]
        exact hst1.2.1
      · cases h
    · rw [Except.ok.injEq] at h
      subst h
      split at h1
      · rename_i t ht
        split at h1
        · cases h1
        · rename_i rendered hrend
          rw [Except.ok.injEq] at h1
          subst h1
          refine ⟨?_, rfl, ?_⟩
          · simp only [lookupA_insertA, if_neg hx]
          · simp only [lookupA_eraseA_ne _ _ _ hx]
      · rw [Except.ok.injEq] at h1
        subst h1
        exact ⟨rfl, rfl, rfl⟩

/-- Running the loop over ids not containing `x` does not change the maps
at `x`. -/
theorem resolveLoop_stable {prodHash : Bool} {setup : Setup} {config : Config} :
    ∀ {ids : List Nat} {st st' : ResolveState},
    resolveLoop prodHash setup config ids st = .ok st' → ∀ x, x ∉ ids →
    lookupA st'.resolved x = lookupA st.resolved x ∧
    lookupA st'.publicPaths x = lookupA st.publicPaths x ∧
    lookupA st'.unresolved x = lookupA st.unresolved x := by
  intro ids
  induction ids with
  | nil =>
    intro st st' h x hx
    simp only [resolveLoop] at h
    cases h
    exact ⟨rfl, rfl, rfl⟩
  | cons id rest ih =>
    intro st st' h x hx
    simp only [resolveLoop] at h
    split at h
    · cases h
    · rename_i st1 hstep
      have hne : id ≠ x := fun he => hx (he ▸ List.mem_cons_self id rest)
      have h1 := resolveStep_stable hstep x hne
      have h2 := ih h x (fun hm => hx (List.mem_cons_of_mem id hm))
      exact ⟨h2.1.trans h1.1, h2.2.1.trans h1.2.1, h2.2.2.trans h1.2.2⟩

/-- A successful step at an id with a hashed filename stores the hashed path
of that id's resolved content. -/
theorem resolveStep_hashed {prodHash : Bool} {setup : Setup} {config : Config}
    {st st' : ResolveState} {id : Nat}
    (h : resolveStep prodHash setup config st id = .ok st')
    (hhf : (setup.defAt id).hashedFilename prodHash = true) :
    ∃ content, lookupA st'.resolved id = some content ∧
      lookupA st'.publicPaths id = some (hashedPathOf (setup.defAt id) content) := by
  unfold resolveStep at h
  simp only at h
  split at h
  · cases h
  · rename_i st1 h1
    rw [hhf] at h
    simp only [if_pos] at h
    split at h
    · rename_i content hres
      rw [Except.ok.injEq] at h
      subst h
      exact ⟨content, hres, by simp [lookupA_insertA]⟩
    · cases h

/-- A successful step at an id that is still unresolved renders its template
with the replacer over the current state and stores the result. -/
theorem resolveStep_unres {prodHash : Bool} {setup : Setup} {config : Config}
    {st st' : ResolveState} {id : Nat} {t : Template}
    (h : resolveStep prodHash setup config st id = .ok st')
    (ht : lookupA st.unresolved id = some t) :
    ∃ rendered,
      t.render (resolveReplacer setup config (setup.defAt id).path
        st.resolved st.publicPaths) = .ok rendered ∧
      lookupA st'.resolved id = some rendered := by
  unfold resolveStep at h
  simp only [ht] at h
  split at h
  · cases h
  · rename_i st1 heq
    split at heq
    · cases heq
    · rename_i rendered hrend
      rw [Except.ok.injEq] at heq
      subst heq
      refine ⟨rendered, hrend, ?_⟩
      have hl : lookupA (insertA st.resolved id rendered) id = some rendered := by
        simp [lookupA_insertA]
      split at h
      · simp only [hl] at h
        rw [Except.ok.injEq] at h
        subst h
        exact hl
      · rw [Except.ok.injEq] at h
        subst h
        exact hl

/-- `public_paths` only ever receives ids whose filenames are hashed. -/
theorem resolveLoop_pp_hashed {prodHash : Bool} {setup : Setup} {config : Config} :
    ∀ {ids : List Nat} {st st' : ResolveState},
    resolveLoop prodHash setup config ids st = .ok st' →
    (∀ k v, lookupA st.publicPaths k = some v →
      (setup.defAt k).hashedFilename prodHash = true) →
    ∀ k v, lookupA st'.publicPaths k = some v →
      (setup.defAt k).hashedFilename prodHash = true := by
  intro ids
  induction ids with
  | nil =>
    intro st st' h hk
    simp only [resolveLoop] at h
    cases h
    exact hk
  | cons id rest ih =>
    intro st st' h hk
    simp only [resolveLoop] at h
    split at h
    · cases h
    · rename_i st1 hstep
      refine ih h ?_
      intro k v hkv
      unfold resolveStep at hstep
      simp only at hstep
      split at hstep
      · cases hstep
      · rename_i stR hR
        have hRpp : stR.publicPaths = st.publicPaths := by
          split at hR
          · split at hR
            · cases hR
            · rw [Except.ok.injEq] at hR; subst hR; rfl
          · rw [Except.ok.injEq] at hR; subst hR; rfl
        split at hstep
        · rename_i hhf
          split at hstep
          · rename_i content hres
            rw [Except.ok.injEq] at hstep
            subst hstep
            simp only [lookupA_insertA] at hkv
            by_cases hid : id = k
            · exact hid ▸ hhf
            · rw [if_neg hid, hRpp] at hkv
              exact hk k v hkv
          · cases hstep
        · rw [Except.ok.injEq] at hstep
          subst hstep
          rw [hRpp] at hkv
          exact hk k v hkv

/-! ### Splitting a list at a `posOf` position -/

theorem posOf_split {l : List α} {x : α} {i : Nat} (h : posOf l x = some i) :
    l.take i ++ x :: l.drop (i + 1) = l := by
  obtain ⟨t, ht⟩ := posOf_drop h
  have h2 : l.drop (i + 1) = t := by
    have hd : (l.drop i).drop 1 = l.drop (i + 1) := List.drop_drop 1 i l
    rw [ht] at hd
    simp only [List.drop_succ_cons, List.drop_zero] at hd
    exact hd.symm
  rw [h2, ← ht]
  exact List.take_append_drop i l

theorem not_mem_take_posOf {l : List α} {x : α} {i : Nat} (h : posOf l x = some i) :
    x ∉ l.take i := by
  intro hmem
  obtain ⟨i', hi', hlt⟩ := posOf_take hmem
  rw [h, Option.some.injEq] at hi'
  omega

theorem posOf_take_decomp {l : List α} {x : α} {i j : Nat} (h : posOf l x = some i)
    (hij : i < j) :
    l.take j = l.take i ++ x :: (l.drop (i + 1)).take (j - i - 1) := by
  have hsplit := posOf_split h
  obtain ⟨hi, _⟩ := posOf_spec h
  have hlen : (l.take i).length = i := by
    rw [List.length_take]
    omega
  conv_lhs => rw [← hsplit]
  rw [List.take_append_eq_append_take, hlen, List.take_take]
  have hmin : min j i = i := by omega
  rw [hmin]
  have hji : j - i = (j - i - 1) + 1 := by omega
  rw [hji, List.take_succ_cons]
  have hback : j - i - 1 + 1 - 1 = j - i - 1 := by omega
  rw [hback]

theorem posOf_drop_decomp {l : List α} {x y : α} {i j : Nat}
    (hx : posOf l x = some i) (hy : posOf l y = some j) (hij : i < j) :
    l.drop (i + 1) = (l.drop (i + 1)).take (j - i - 1) ++ y :: l.drop (j + 1) := by
  have h1 := posOf_split hx
  have h2 := posOf_split hy
  rw [posOf_take_decomp hx hij] at h2
  have h6 := h1.trans h2.symm
  rw [List.append_assoc, List.cons_append] at h6
  have h7 := List.append_cancel_left h6
  rw [List.cons.injEq] at h7
  exact h7.2

theorem not_mem_drop_posOf {l : List α} {x : α} {i : Nat} (hnd : l.Nodup)
    (h : posOf l x = some i) : x ∉ l.drop (i + 1) := by
  have h1 := posOf_split h
  rw [← h1] at hnd
  have h2 := hnd.of_append_right
  exact (List.nodup_cons.mp h2).1

theorem resolveLoop_append_ok {prodHash : Bool} {setup : Setup} {config : Config}
    {l1 l2 : List Nat} {st st2 : ResolveState}
    (h : resolveLoop prodHash setup config (l1 ++ l2) st = .ok st2) :
    ∃ st1, resolveLoop prodHash setup config l1 st = .ok st1 ∧
      resolveLoop prodHash setup config l2 st1 = .ok st2 := by
  rw [resolveLoop_append] at h
  split at h
  · cases h
  · rename_i st1 h1
    exact ⟨st1, h1, h⟩

theorem resolveLoop_cons_ok {prodHash : Bool} {setup : Setup} {config : Config}
    {id : Nat} {l : List Nat} {st st2 : ResolveState}
    (h : resolveLoop prodHash setup config (id :: l) st = .ok st2) :
    ∃ st1, resolveStep prodHash setup config st id = .ok st1 ∧
      resolveLoop prodHash setup config l st1 = .ok st2 := by
  simp only [resolveLoop] at h
  split at h
  · cases h
  · rename_i st1 h1
    exact ⟨st1, h1, h⟩

theorem resolveLoop_seq {prodHash : Bool} {setup : Setup} {config : Config}
    {l1 l2 : List Nat} {st st1 st2 : ResolveState}
    (h1 : resolveLoop prodHash setup config l1 st = .ok st1)
    (h2 : resolveLoop prodHash setup config l2 st1 = .ok st2) :
    resolveLoop prodHash setup config (l1 ++ l2) st = .ok st2 := by
  rw [resolveLoop_append, h1]
  exact h2

/-- C3: for every catalog prepared by the eager `for_all_assets` pass, and
every templated (unresolved) asset `a` whose template contains a `path:`
fragment referencing an asset `b` whose hash placement is not `None`, a
dependency edge (a, b) is recorded in the graph; consequently, in a
successful eager `resolve` pass, `b` comes strictly before `a` in the
topological order, `b`'s hashed public path is computed from `b`'s final
content and is already stored in `public_paths` in the loop state reached
just before `a` is processed, and `a` is rendered with the replacer over
exactly that state — which substitutes `b`'s real hashed filename for the
fragment — with the result stored as `a`'s resolved content. -/
theorem path_fragment_ordering
    (fs : Nat → Option (List Nat)) (setup : Setup) (config : Config)
    (r : Resolver) (hr : forAllAssets true fs setup = .ok r)
    (a : Nat) (t : Template) (ha : lookupA r.unresolved a = some t)
    (p : List Char) (hfrag : Fragment.path p ∈ t.kinds)
    (b : Nat) (hb : setup.pathToId p = some b)
    (pre suf : List Char) (hhash : (setup.defAt b).hash = some (pre, suf))
    (res : ResolveResult) (hres : r.resolve true setup config = .ok res) :
    hasEdge r.graph a b ∧
    ∃ order i j, r.graph.topologicalSort = .ok order ∧
      posOf order b = some i ∧ posOf order a = some j ∧ i < j ∧
      ∃ bContent stA renderedA,
        lookupA res.assets b = some bContent ∧
        lookupA res.publicPaths b = some (hashedPathOf (setup.defAt b) bContent) ∧
        resolveLoop true setup config (order.take j) (ResolveState.ofResolver r)
          = .ok stA ∧
        lookupA stA.publicPaths b = some (hashedPathOf (setup.defAt b) bContent) ∧
        resolveReplacer setup config (setup.defAt a).path stA.resolved stA.publicPaths
          (Fragment.path p)
          = .ok (utf8Encode (hashedPathOf (setup.defAt b) bContent)) ∧
        t.render (resolveReplacer setup config (setup.defAt a).path
          stA.resolved stA.publicPaths) = .ok renderedA ∧
        lookupA res.assets a = some renderedA := by
  have hinv := forAllAssets_FInv hr
  have hbhf : (setup.defAt b).hashedFilename true = true := by
    unfold AssetDef.hashedFilename
    rw [hhash]
    rfl
  have hdep : dependencyInFragment true (Fragment.path p) a setup = .ok (some b) := by
    simp only [dependencyInFragment, hb, hbhf, if_pos]
  have hedge : hasEdge r.graph a b := hinv.edges a t ha _ hfrag b hdep
  refine ⟨hedge, ?_⟩
  unfold Resolver.resolve at hres
  split at hres
  · cases hres
  · rename_i order hord
    split at hres
    · cases hres
    · rename_i stF hloop
      rw [Except.ok.injEq] at hres
      subst hres
      obtain ⟨hnd, hmem, hord3⟩ := topSort_ok hinv.wfg hord
      obtain ⟨i, j, hib, hja, hij⟩ := hord3 a b hedge
      refine ⟨order, i, j, hord, hib, hja, hij, ?_⟩
      -- decompose the order around b (position i) and a (position j)
      have hsplit_i := posOf_split hib
      have hsplit_j := posOf_split hja
      have htake_j := posOf_take_decomp hib hij
      have hdrop_i := posOf_drop_decomp hib hja hij
      set mid := (order.drop (i + 1)).take (j - i - 1) with hmid
      -- non-membership facts
      have hb_not_drop : b ∉ order.drop (i + 1) := not_mem_drop_posOf hnd hib
      have hb_not_mid : b ∉ mid := fun hm => hb_not_drop (List.take_subset _ _ hm)
      have ha_not_take_j : a ∉ order.take j := not_mem_take_posOf hja
      have ha_not_take_i : a ∉ order.take i := by
        intro hm
        apply ha_not_take_j
        have : (order.take j).take i = order.take i := by
          rw [List.take_take]
          have : min i j = i := by omega
          rw [this]
        rw [← this] at hm
        exact List.take_subset _ _ hm
      have hab : a ≠ b := by
        intro he
        subst he
        rw [hib] at hja
        rw [Option.some.injEq] at hja
        omega
      have ha_not_mid : a ∉ mid := by
        intro hm
        apply ha_not_take_j
        rw [htake_j]
        exact List.mem_append.mpr (Or.inr (List.mem_cons_of_mem b hm))
      have ha_not_drop_j : a ∉ order.drop (j + 1) := not_mem_drop_posOf hnd hja
      have hb_not_drop_j : b ∉ order.drop (j + 1) := by
        intro hm
        apply hb_not_drop
        have hdd : (order.drop (i + 1)).drop (j - i) = order.drop (j + 1) := by
          rw [List.drop_drop]
          have : i + 1 + (j - i) = j + 1 := by omega
          rw [this]
        rw [← hdd] at hm
        exact List.drop_subset _ _ hm
      -- decompose the successful run
      have hloop2 : resolveLoop true setup config
          (order.take i ++ b :: (mid ++ a :: order.drop (j + 1)))
          (ResolveState.ofResolver r) = .ok stF := by
        rw [← List.cons_append, ← List.append_assoc]
        rw [← htake_j]
        rw [← hsplit_j] at hloop
        exact hloop
      obtain ⟨st0, hrun0, hloop3⟩ := resolveLoop_append_ok hloop2
      obtain ⟨st1, hstepb, hloop4⟩ := resolveLoop_cons_ok hloop3
      obtain ⟨stA, hrunmid, hloop5⟩ := resolveLoop_append_ok hloop4
      obtain ⟨stA2, hstepa, hrunend⟩ := resolveLoop_cons_ok hloop5
      -- b's step stores its hashed path
      obtain ⟨cB, hres_b, hpp_b⟩ := resolveStep_hashed hstepb hbhf
      -- stability through mid
      obtain ⟨hstab_res, hstab_pp, _⟩ :=
        (resolveLoop_stable hrunmid b hb_not_mid :
          lookupA stA.resolved b = lookupA st1.resolved b ∧
          lookupA stA.publicPaths b = lookupA st1.publicPaths b ∧
          lookupA stA.unresolved b = lookupA st1.unresolved b)
      have hppA : lookupA stA.publicPaths b = some (hashedPathOf (setup.defAt b) cB) :=
        hstab_pp.trans hpp_b
      have hresA : lookupA stA.resolved b = some cB := hstab_res.trans hres_b
      -- a is still unresolved in stA
      have hunres_init : lookupA (ResolveState.ofResolver r).unresolved a = some t := ha
      have hunres0 : lookupA st0.unresolved a = some t := by
        have := (resolveLoop_stable hrun0 a ha_not_take_i).2.2
        exact this.trans hunres_init
      have hunres1 : lookupA st1.unresolved a = some t := by
        have := (resolveStep_stable hstepb a (fun he => hab he.symm)).2.2
        exact this.trans hunres0
      have hunresA : lookupA stA.unresolved a = some t := by
        have := (resolveLoop_stable hrunmid a ha_not_mid).2.2
        exact this.trans hunres1
      -- a's step renders with the replacer over stA
      obtain ⟨renderedA, hrendA, hresA2⟩ := resolveStep_unres hstepa hunresA
      -- the prefix run up to (but excluding) a is exactly take j
      have hrun_take_j : resolveLoop true setup config (order.take j)
          (ResolveState.ofResolver r) = .ok stA := by
        rw [htake_j]
        refine resolveLoop_seq hrun0 ?_
        simp only [resolveLoop, hstepb]
        exact hrunmid
      -- stability from stA2 to the final state
      have hstab_a := resolveLoop_stable hrunend a ha_not_drop_j
      have hstab_b := resolveLoop_stable hrunend b hb_not_drop_j
      have hstepa_b := resolveStep_stable hstepa b hab
      refine ⟨cB, stA, renderedA, ?_, ?_, hrun_take_j, hppA, ?_, hrendA, ?_⟩
      · show lookupA stF.resolved b = some cB
        rw [hstab_b.1, hstepa_b.1]
        exact hresA
      · show lookupA stF.publicPaths b = some (hashedPathOf (setup.defAt b) cB)
        rw [hstab_b.2.1, hstepa_b.2.1]
        exact hppA
      · simp only [resolveReplacer, hb, hppA, Option.getD_some]
      · show lookupA stF.resolved a = some renderedA
        rw [hstab_a.1]
        exact hresA2

/-- Decidable equality on `Except` (needed to evaluate the resolver runs in
the witnesses below). -/
instance exceptDecEq {ε γ : Type} [DecidableEq ε] [DecidableEq γ] :
    DecidableEq (Except ε γ) := fun x y =>
  match x, y with
  | .error a, .error b =>
    if h : a = b then isTrue (by rw [h])
    else isFalse (by intro he; cases he; exact h rfl)
  | .error _, .ok _ => isFalse (by intro he; cases he)
  | .ok _, .error _ => isFalse (by intro he; cases he)
  | .ok a, .ok b =>
    if h : a = b then isTrue (by rw [h])
    else isFalse (by intro he; cases he; exact h rfl)

/-- Concrete catalog for the C3 witness: asset 0 (`b`) is a plain asset with
an explicit hash placement, asset 1 (`a`) is a template whose raw bytes are
`{{: path:b :}}`. -/
def c3DefB : AssetDef :=
  { path := ['b'], serve := true, dynamic := false, hash := some ([], []),
    template := false, append := none, prepend := none, content := [] }

def c3Raw : List Nat := [123, 123, 58, 32, 112, 97, 116, 104, 58, 98, 32, 58, 125, 125]

def c3DefA : AssetDef :=
  { path := ['a'], serve := true, dynamic := false, hash := none,
    template := true, append := none, prepend := none, content := c3Raw }

def c3Setup : Setup := ⟨[c3DefB, c3DefA], []⟩

def c3Fs : Nat → Option (List Nat) := fun _ => none

def c3Config : Config := ⟨[]⟩

def c3Resolver : Resolver :=
  (forAllAssets true c3Fs c3Setup).toOption.getD Resolver.new

def c3Template : Template :=
  (lookupA c3Resolver.unresolved 1).getD ⟨[], []⟩

def c3Res : ResolveResult :=
  (c3Resolver.resolve true c3Setup c3Config).toOption.getD ⟨[], []⟩

/-- Witness for `path_fragment_ordering` on the concrete two-asset catalog
`c3Setup`. -/
theorem path_fragment_ordering_witness :
    forAllAssets true c3Fs c3Setup = .ok c3Resolver ∧
    lookupA c3Resolver.unresolved 1 = some c3Template ∧
    Fragment.path ['b'] ∈ c3Template.kinds ∧
    c3Setup.pathToId ['b'] = some 0 ∧
    (c3Setup.defAt 0).hash = some ([], []) ∧
    c3Resolver.resolve true c3Setup c3Config = .ok c3Res ∧
    (hasEdge c3Resolver.graph 1 0 ∧
      ∃ order i j, c3Resolver.graph.topologicalSort = .ok order ∧
        posOf order 0 = some i ∧ posOf order 1 = some j ∧ i < j ∧
        ∃ bContent stA renderedA,
          lookupA c3Res.assets 0 = some bContent ∧
          lookupA c3Res.publicPaths 0 = some (hashedPathOf (c3Setup.defAt 0) bContent) ∧
          resolveLoop true c3Setup c3Config (order.take j)
            (ResolveState.ofResolver c3Resolver) = .ok stA ∧
          lookupA stA.publicPaths 0 = some (hashedPathOf (c3Setup.defAt 0) bContent) ∧
          resolveReplacer c3Setup c3Config (c3Setup.defAt 1).path stA.resolved
            stA.publicPaths (Fragment.path ['b'])
            = .ok (utf8Encode (hashedPathOf (c3Setup.defAt 0) bContent)) ∧
          c3Template.render (resolveReplacer c3Setup c3Config (c3Setup.defAt 1).path
            stA.resolved stA.publicPaths) = .ok renderedA ∧
          lookupA c3Res.assets 1 = some renderedA) :=
  ⟨by decide, by decide, by decide, by decide, by decide, by decide,
    path_fragment_ordering c3Fs c3Setup c3Config c3Resolver (by decide) 1 c3Template
      (by decide) ['b'] (by decide) 0 (by decide) [] [] (by decide) c3Res (by decide)⟩

/-- C9: a `path:` fragment whose referenced asset exists but whose filename
is not hashed (hash placement `None`, or dev mode — where `hashed_filename`
is always false, here `prodHash = false`) contributes no dependency edge
(`dependency_in_fragment` returns `Ok(None)` for it), and at every state the
resolve loop can reach (its `public_paths` starts empty), the render
replacer substitutes the referenced asset's original logical path,
unchanged, for the fragment; consequently a successful `resolve` stores no
public path for that asset at all. -/
theorem path_fragment_unhashed (prodHash : Bool) (setup : Setup) (config : Config)
    (p : List Char) (rid : Nat) (hb : setup.pathToId p = some rid)
    (hnh : (setup.defAt rid).hashedFilename prodHash = false) :
    (∀ parent, dependencyInFragment prodHash (Fragment.path p) parent setup = .ok none) ∧
    (∀ (r : Resolver) (ids : List Nat) (st : ResolveState),
      resolveLoop prodHash setup config ids (ResolveState.ofResolver r) = .ok st →
      ∀ path, resolveReplacer setup config path st.resolved st.publicPaths
        (Fragment.path p) = .ok (utf8Encode (setup.defAt rid).path)) ∧
    (∀ (r : Resolver) (res : ResolveResult),
      r.resolve prodHash setup config = .ok res →
      lookupA res.publicPaths rid = none) := by
  have hpp : ∀ (r : Resolver) (ids : List Nat) (st : ResolveState),
      resolveLoop prodHash setup config ids (ResolveState.ofResolver r) = .ok st →
      lookupA st.publicPaths rid = none := by
    intro r ids st hloop
    have hinv := resolveLoop_pp_hashed hloop
      (by intro k v hkv; simp [ResolveState.ofResolver, lookupA] at hkv)
    rcases hl : lookupA st.publicPaths rid with _ | v
    · rfl
    · have := hinv rid v hl
      rw [hnh] at this
      cases this
  refine ⟨?_, ?_, ?_⟩
  · intro parent
    simp [dependencyInFragment, hb, hnh]
  · intro r ids st hloop path
    have hl := hpp r ids st hloop
    simp only [resolveReplacer, hb, hl, Option.getD_none]
  · intro r res hres
    unfold Resolver.resolve at hres
    split at hres
    · cases hres
    · rename_i order hord
      split at hres
      · cases hres
      · rename_i stF hloop
        rw [Except.ok.injEq] at hres
        subst hres
        exact hpp r order stF hloop

/-- Concrete catalog for the C9 witness: one asset `b` with no hash
placement. -/
def c9Def : AssetDef :=
  { path := ['b'], serve := true, dynamic := false, hash := none,
    template := false, append := none, prepend := none, content := [] }

def c9Setup : Setup := ⟨[c9Def], []⟩

def c9Config : Config := ⟨[]⟩

/-- Witness for `path_fragment_unhashed` on the concrete catalog `c9Setup`. -/
theorem path_fragment_unhashed_witness :
    c9Setup.pathToId ['b'] = some 0 ∧
    (c9Setup.defAt 0).hashedFilename true = false ∧
    ((∀ parent, dependencyInFragment true (Fragment.path ['b']) parent c9Setup
        = .ok none) ∧
     (∀ (r : Resolver) (ids : List Nat) (st : ResolveState),
        resolveLoop true c9Setup c9Config ids (ResolveState.ofResolver r) = .ok st →
        ∀ path, resolveReplacer c9Setup c9Config path st.resolved st.publicPaths
          (Fragment.path ['b']) = .ok (utf8Encode (c9Setup.defAt 0).path)) ∧
     (∀ (r : Resolver) (res : ResolveResult),
        r.resolve true c9Setup c9Config = .ok res →
        lookupA res.publicPaths 0 = none)) :=
  ⟨by decide, by decide,
    path_fragment_unhashed true c9Setup c9Config ['b'] 0 (by decide) (by decide)⟩

/-! ## The builder and the two execution strategies
(builder.rs, imp_prod.rs, imp_dev.rs)

The crate-root declarations of `DataSource`, `Modifier`, `Asset` and
`BuildError` (the newer `lib.rs`) are not part of this snapshot; they are
modelled from their usage in `imp_prod.rs` / `imp_dev.rs` / `builder.rs`
and from the spec's wording (modifiers are the tagged union
`None | PathFixup(patterns) | Custom(handle, declared_deps)`; a data source
is either embedded bytes or a file read). -/

/-- Models `BuildError` as far as the builds produce it; the `panic…`
variants model the two panics of the prod `AssetsInner::build`. -/
inductive BuildError where
  | ioError (path : List Char)
  | cyclicDependencies (cycle : List (List Char))
  | panicMissingDependency (asset dep : List Char)
  | panicUnknownSorted (path : List Char)
deriving Repr, DecidableEq

/-- Modelled from the spec: `DataSource` — an asset's bytes either come
from the file system or are embedded into the executable. -/
inductive DataSource where
  | file (fsPath : List Char)
  | embedded (content : List Nat)
deriving Repr, DecidableEq

/-- Modelled from the spec: `DataSource::load`, with the file system
abstracted as a partial map from fs paths to contents (`none` models an IO
error). -/
def DataSource.load (ds : DataSource) (fs : List Char → Option (List Nat)) :
    Except BuildError (List Nat) :=
  match ds with
  | .file p =>
    match fs p with
    | some bytes => .ok bytes
    | Option.none => .error (.ioError p)
  | .embedded c => .ok c

/-- Modelled from the spec: the modifier tagged union.  A custom modifier's
function receives the raw bytes plus the data its `ModifierContext`
exposes in the prod build: the current path map (unhashed → hashed path)
and the set of known unhashed paths. -/
inductive Modifier where
  | none
  | pathFixup (paths : List (List Char))
  | custom (f : List Nat → List (List Char × List Char) → List (List Char) → List Nat)
      (deps : List (List Char))

/-- Modelled from the spec: `Modifier::dependencies()` — the explicitly
declared dependency paths of an entry's modifier (the fixup patterns, or a
custom modifier's declared deps). -/
def Modifier.dependencies : Modifier → Option (List (List Char))
  | .none => Option.none
  | .pathFixup paths => some paths
  | .custom _ deps => some deps

/-- Needle `n` matches ending at position `e` of `src` with its start at or
after `j`. -/
def needleMatch (src n : List Nat) (j e : Nat) : Bool :=
  decide (0 < n.length) && decide (n.length ≤ e - j) &&
    decide ((src.drop (e - n.length)).take n.length = n)

/-- The first needle (in list order) matching with end position `e`. -/
def matchAt (needles : List (List Nat)) (src : List Nat) (j e : Nat) : Option Nat :=
  needles.findIdx? (fun n => needleMatch src n j e)

/-- The earliest end position `> j` at which some needle matches (models
aho-corasick's default semantics as used by `replace_all_with_bytes`:
matches are reported in order of end position, non-overlapping, with the
scan resuming after each match). -/
def findMatch (needles : List (List Nat)) (src : List Nat) (j : Nat) :
    Option (Nat × Nat) :=
  (List.range' (j + 1) (src.length - j)).findSome?
    (fun e => (matchAt needles src j e).map (fun k => (k, e)))

/-- The replacement loop of `util::replace_many` (fuelled; every match end
is strictly beyond the current position, so `src.length + 1` always
suffices). -/
def replaceLoop (reps : List (List Nat × List Nat)) (src : List Nat) :
    Nat → Nat → List Nat
  | 0, j => src.drop j
  | fuel + 1, j =>
    match findMatch (reps.map Prod.fst) src j with
    | Option.none => src.drop j
    | some (k, e) =>
      let n := (reps.map Prod.fst).getD k []
      let rep := (reps.map Prod.snd).getD k []
      (src.drop j).take (e - n.length - j) ++ rep ++ replaceLoop reps src fuel e

/-- Models `util::replace_many`. -/
def replaceMany (src : List Nat) (reps : List (List Nat × List Nat)) : List Nat :=
  replaceLoop reps src (src.length + 1) 0

/-- Models `path_fixup` (imp_prod.rs): replace each given unhashed path
that has an entry in the path map by its hashed path (as UTF-8 bytes). -/
def applyPathFixup (original : List Nat) (paths : List (List Char))
    (pathMap : List (List Char × List Char)) : List Nat :=
  replaceMany original
    ((paths.filter (fun p => (lookupA pathMap p).isSome)).map
      (fun p => (utf8Encode p, utf8Encode ((lookupA pathMap p).getD []))))

/-- The modifier application of the prod build loop. -/
def Modifier.apply (m : Modifier) (raw : List Nat)
    (pathMap : List (List Char × List Char)) (unresolvedKeys : List (List Char)) :
    List Nat :=
  match m with
  | .none => raw
  | .pathFixup paths => applyPathFixup raw paths pathMap
  | .custom f _ => f raw pathMap unresolvedKeys

/-- Models the prod `AssetInner`: final content plus whether the public
path carries a content hash. -/
structure Asset where
  content : List Nat
  hashedFilename : Bool
deriving Repr, DecidableEq

/-- Models `GlobFile` (builder.rs). -/
structure GlobFile where
  suffix : List Char
  source : DataSource
deriving Repr, DecidableEq

/-- Models `GlobFile::http_path`: `format!("{http_prefix}{}", self.suffix)`
— plain concatenation, no separator inserted. -/
def GlobFile.httpPath (f : GlobFile) (httpPre : List Char) : List Char :=
  httpPre ++ f.suffix

/-- Models `EntryBuilderKind` (the `SplitGlob` matcher is only used by the
dev-mode `get` fallback and is not needed at build time). -/
inductive EntryBuilderKind where
  | single (httpPath : List Char) (source : DataSource)
  | glob (httpPre : List Char) (files : List GlobFile) (basePath : List Char)
deriving Repr, DecidableEq

/-- Models `EntryBuilder`. -/
structure EntryBuilder where
  kind : EntryBuilderKind
  pathHash : PathHash
  modifier : Modifier

/-- Models `Builder`. -/
structure Builder where
  assets : List EntryBuilder

/-- Models the prod `UnresolvedAsset`. -/
structure UnresolvedAsset where
  source : DataSource
  modifier : Modifier
  pathHash : PathHash

/-- The flattening loop at the start of the prod `AssetsInner::build`:
single entries are mounted at their HTTP path, glob files at
`http_prefix ++ suffix` (`GlobFile::http_path`). -/
def flattenEntries (entries : List EntryBuilder) :
    List (List Char × UnresolvedAsset) :=
  entries.foldl (fun m e =>
    match e.kind with
    | .single hp src => insertA m hp ⟨src, e.modifier, e.pathHash⟩
    | .glob hpre files _ =>
      files.foldl
        (fun m2 f => insertA m2 (f.httpPath hpre) ⟨f.source, e.modifier, e.pathHash⟩)
        m) []

/-- The dependency-check-and-add loop for one asset's declared modifier
dependencies (prod build); a declared dependency that is not a known asset
panics in the source. -/
def addDepsChecked (m : List (List Char × UnresolvedAsset)) (key : List Char) :
    List (List Char) → DepGraph (List Char) →
    Except BuildError (DepGraph (List Char))
  | [], g => .ok g
  | dep :: rest, g =>
    if (lookupA m dep).isSome then addDepsChecked m key rest (g.addDependency key dep)
    else .error (.panicMissingDependency key dep)

/-- The dep-graph construction loop of the prod build: every asset is added
as a node, and its declared modifier dependencies (if any) as edges. -/
def buildProdGraphLoop (m : List (List Char × UnresolvedAsset)) :
    List (List Char × UnresolvedAsset) → DepGraph (List Char) →
    Except BuildError (DepGraph (List Char))
  | [], g => .ok g
  | (key, ua) :: rest, g =>
    let g1 := g.addAsset key
    match ua.modifier.dependencies with
    | Option.none => buildProdGraphLoop m rest g1
    | some deps =>
      match addDepsChecked m key deps g1 with
      | .error e => .error e
      | .ok g2 => buildProdGraphLoop m rest g2

def buildProdGraph (m : List (List Char × UnresolvedAsset)) :
    Except BuildError (DepGraph (List Char)) :=
  buildProdGraphLoop m m DepGraph.empty

/-- Models the path-map side effect of `hash::path_of` (new hash.rs): for
`None` the path is returned unchanged and no entry is added; otherwise the
hashed path (see `pathOf`) is recorded under the unhashed path. -/
def pathOfMap (hash : PathHash) (path : List Char) (content : List Nat)
    (map : List (List Char × List Char)) :
    List Char × List (List Char × List Char) :=
  match hash with
  | PathHash.none => (path, map)
  | h => (pathOf h path content, insertA map path (pathOf h path content))

/-- The load/modify/hash/insert loop over the topological order (prod
`AssetsInner::build`). -/
def prodBuildLoop (fs : List Char → Option (List Nat))
    (m : List (List Char × UnresolvedAsset)) :
    List (List Char) → List (List Char × Asset) →
    List (List Char × List Char) → Except BuildError (List (List Char × Asset))
  | [], assets, _ => .ok assets
  | path :: rest, assets, pathMap =>
    match lookupA m path with
    | Option.none => .error (.panicUnknownSorted path)
    | some ua =>
      match ua.source.load fs with
      | .error e => .error e
      | .ok raw =>
        let content := ua.modifier.apply raw pathMap (m.map Prod.fst)
        let fp := pathOfMap ua.pathHash path content pathMap
        prodBuildLoop fs m rest
          (insertA assets fp.1 ⟨content, decide (ua.pathHash ≠ PathHash.none)⟩) fp.2

/-- Models the prod `AssetsInner::build`: flatten, build the dep graph,
topologically sort, then load/modify/hash every asset in order. -/
def prodBuild (fs : List Char → Option (List Nat)) (b : Builder) :
    Except BuildError (List (List Char × Asset)) :=
  let m := flattenEntries b.assets
  match buildProdGraph m with
  | .error e => .error e
  | .ok g =>
    match g.topologicalSort with
    | .error cyc => .error (.cyclicDependencies cyc)
    | .ok sorting => prodBuildLoop fs m sorting [] []

/-- Models the dev `AssetsInner` (imp_dev.rs): the statically-known assets
map plus the recorded glob entries (http prefix, modifier, base path). -/
structure DevAssets where
  assets : List (List Char × (DataSource × Modifier))
  globs : List (List Char × Modifier × List Char)

/-- Models the dev `AssetsInner::build` (imp_dev.rs).  Note the assets-map
key for a glob file: `format!("{http_prefix}/{}", file.suffix)` — an extra
`'/'` is inserted between the prefix and the suffix. -/
def devBuild (b : Builder) : DevAssets :=
  let globs := b.assets.filterMap (fun e =>
    match e.kind with
    | .glob hpre _ basePath => some (hpre, e.modifier, basePath)
    | _ => Option.none)
  let assets := b.assets.foldl (fun m e =>
    match e.kind with
    | .single hp src => insertA m hp (src, e.modifier)
    | .glob hpre files _ =>
      files.foldl
        (fun m2 f => insertA m2 (hpre ++ '/' :: f.suffix) (f.source, e.modifier))
        m) []
  ⟨assets, globs⟩

/-! ### All-or-nothing behaviour of the prod build -/

theorem addDepsChecked_ok {m : List (List Char × UnresolvedAsset)}
    {key : List Char} (hkey : key ∈ m.map Prod.fst) :
    ∀ {deps : List (List Char)} {g g' : DepGraph (List Char)},
    addDepsChecked m key deps g = .ok g' → WFG g →
    (∀ k, k ∈ g.nodes.map Prod.fst → k ∈ m.map Prod.fst) →
    WFG g' ∧ (∀ k, k ∈ g'.nodes.map Prod.fst → k ∈ m.map Prod.fst) ∧
    (∀ k, k ∈ g.nodes.map Prod.fst → k ∈ g'.nodes.map Prod.fst) := by
  intro deps
  induction deps with
  | nil =>
    intro g g' h hW hsub
    simp only [addDepsChecked] at h
    cases h
    exact ⟨hW, hsub, fun k hk => hk⟩
  | cons dep rest ih =>
    intro g g' h hW hsub
    simp only [addDepsChecked] at h
    split at h
    · rename_i hdep
      have hdepm : dep ∈ m.map Prod.fst := (lookupA_isSome_iff m dep).mp hdep
      have hsubn : ∀ k, k ∈ (g.addDependency key dep).nodes.map Prod.fst →
          k ∈ m.map Prod.fst := by
        intro k hk
        rcases (mem_keys_addDependency g key dep k).mp hk with hk2 | rfl | rfl
        · exact hsub k hk2
        · exact hkey
        · exact hdepm
      obtain ⟨hW', hsub', hmono⟩ := ih h (hW.addDependency key dep) hsubn
      refine ⟨hW', hsub', ?_⟩
      intro k hk
      exact hmono k ((mem_keys_addDependency g key dep k).mpr (Or.inl hk))
    · cases h

theorem buildProdGraphLoop_ok {m : List (List Char × UnresolvedAsset)} :
    ∀ {rest : List (List Char × UnresolvedAsset)} {g g' : DepGraph (List Char)},
    buildProdGraphLoop m rest g = .ok g' →
    (∀ kv ∈ rest, kv.1 ∈ m.map Prod.fst) → WFG g →
    (∀ k, k ∈ g.nodes.map Prod.fst → k ∈ m.map Prod.fst) →
    WFG g' ∧ (∀ k, k ∈ g'.nodes.map Prod.fst → k ∈ m.map Prod.fst) ∧
    (∀ k, k ∈ g.nodes.map Prod.fst → k ∈ g'.nodes.map Prod.fst) ∧
    (∀ kv ∈ rest, kv.1 ∈ g'.nodes.map Prod.fst) := by
  intro rest
  induction rest with
  | nil =>
    intro g g' h hrest hW hsub
    simp only [buildProdGraphLoop] at h
    cases h
    exact ⟨hW, hsub, fun k hk => hk, by simp⟩
  | cons kv rest ih =>
    intro g g' h hrest hW hsub
    rcases kv with ⟨key, ua⟩
    have hkeym : key ∈ m.map Prod.fst := hrest _ (List.mem_cons_self _ _)
    simp only [buildProdGraphLoop] at h
    have hW1 : WFG (g.addAsset key) := hW.addAsset key
    have hsub1 : ∀ k, k ∈ (g.addAsset key).nodes.map Prod.fst → k ∈ m.map Prod.fst := by
      intro k hk
      rcases (mem_keys_addAsset g key k).mp hk with hk2 | rfl
      · exact hsub k hk2
      · exact hkeym
    have hkeyg1 : key ∈ (g.addAsset key).nodes.map Prod.fst :=
      (mem_keys_addAsset g key key).mpr (Or.inr rfl)
    split at h
    · obtain ⟨hW', hsub', hmono, hin⟩ :=
        ih h (fun kv hm => hrest kv (List.mem_cons_of_mem _ hm)) hW1 hsub1
      refine ⟨hW', hsub', ?_, ?_⟩
      · intro k hk
        exact hmono k ((mem_keys_addAsset g key k).mpr (Or.inl hk))
      · intro kv hm
        rcases List.mem_cons.mp hm with rfl | hm2
        · exact hmono _ hkeyg1
        · exact hin kv hm2
    · rename_i deps hdeps
      split at h
      · cases h
      · rename_i g2 hg2
        obtain ⟨hW2, hsub2, hmono2⟩ := addDepsChecked_ok hkeym hg2 hW1 hsub1
        obtain ⟨hW', hsub', hmono, hin⟩ :=
          ih h (fun kv hm => hrest kv (List.mem_cons_of_mem _ hm)) hW2 hsub2
        refine ⟨hW', hsub', ?_, ?_⟩
        · intro k hk
          exact hmono k (hmono2 k ((mem_keys_addAsset g key k).mpr (Or.inl hk)))
        · intro kv hm
          rcases List.mem_cons.mp hm with rfl | hm2
          · exact hmono _ (hmono2 _ hkeyg1)
          · exact hin kv hm2

theorem buildProdGraph_ok {m : List (List Char × UnresolvedAsset)}
    {g : DepGraph (List Char)} (h : buildProdGraph m = .ok g) :
    WFG g ∧ (∀ k, k ∈ g.nodes.map Prod.fst ↔ k ∈ m.map Prod.fst) := by
  obtain ⟨hW, hsub, _, hin⟩ := buildProdGraphLoop_ok h
    (fun kv hm => List.mem_map_of_mem Prod.fst hm) WFG.empty
    (by intro k hk; simp [DepGraph.empty] at hk)
  refine ⟨hW, fun k => ⟨hsub k, ?_⟩⟩
  intro hk
  obtain ⟨kv, hkv, he⟩ := List.mem_map.mp hk
  exact he ▸ hin kv hkv

theorem prodBuildLoop_loads {fs : List Char → Option (List Nat)}
    {m : List (List Char × UnresolvedAsset)} :
    ∀ {ids : List (List Char)} {assets : List (List Char × Asset)}
      {pm : List (List Char × List Char)} {A : List (List Char × Asset)},
    prodBuildLoop fs m ids assets pm = .ok A →
    ∀ key ∈ ids, ∃ ua raw, lookupA m key = some ua ∧ ua.source.load fs = .ok raw := by
  intro ids
  induction ids with
  | nil => intro assets pm A h key hk; simp at hk
  | cons id rest ih =>
    intro assets pm A h key hk
    simp only [prodBuildLoop] at h
    split at h
    · cases h
    · rename_i ua hua
      split at h
      · cases h
      · rename_i raw hload
        rcases List.mem_cons.mp hk with rfl | hk2
        · exact ⟨ua, raw, hua, hload⟩
        · exact ih h key hk2

theorem prodBuildLoop_total {fs : List Char → Option (List Nat)}
    {m : List (List Char × UnresolvedAsset)} :
    ∀ {ids : List (List Char)},
    (∀ key ∈ ids, ∃ ua, lookupA m key = some ua ∧
      ∃ raw, ua.source.load fs = .ok raw) →
    ∀ assets pm, ∃ A, prodBuildLoop fs m ids assets pm = .ok A := by
  intro ids
  induction ids with
  | nil => intro hok assets pm; exact ⟨assets, rfl⟩
  | cons id rest ih =>
    intro hok assets pm
    obtain ⟨ua, hua, raw, hload⟩ := hok id (List.mem_cons_self _ _)
    have hrest : ∀ key ∈ rest, ∃ ua, lookupA m key = some ua ∧
        ∃ r2, ua.source.load fs = .ok r2 :=
      fun key hk => hok key (List.mem_cons_of_mem _ hk)
    obtain ⟨A, hA⟩ := ih hrest
      (insertA assets (pathOfMap ua.pathHash id
        (ua.modifier.apply raw pm (m.map Prod.fst)) pm).1
        ⟨ua.modifier.apply raw pm (m.map Prod.fst),
          decide (ua.pathHash ≠ PathHash.none)⟩)
      (pathOfMap ua.pathHash id (ua.modifier.apply raw pm (m.map Prod.fst)) pm).2
    refine ⟨A, ?_⟩
    simp only [prodBuildLoop, hua, hload]
    exact hA

/-- C6: the eager (prod) build is all-or-nothing: it returns an asset map
exactly when the dependency-graph construction succeeds (every declared
modifier dependency exists), the topological sort finds no cycle, and every
flattened asset's source loads successfully; any failing step instead makes
`build` return that error, so no partially-populated catalog is ever
produced (the error carries no asset map). -/
theorem build_all_or_nothing (fs : List Char → Option (List Nat)) (b : Builder) :
    (∃ assets, prodBuild fs b = .ok assets) ↔
      ((∃ g, buildProdGraph (flattenEntries b.assets) = .ok g ∧
        ∃ order, g.topologicalSort = .ok order) ∧
      (∀ key ua, lookupA (flattenEntries b.assets) key = some ua →
        ∃ raw, ua.source.load fs = .ok raw)) := by
  constructor
  · rintro ⟨assets, h⟩
    simp only [prodBuild] at h
    split at h
    · cases h
    · rename_i g hg
      split at h
      · cases h
      · rename_i order hord
        refine ⟨⟨g, hg, order, hord⟩, ?_⟩
        intro key ua hua
        obtain ⟨hW, hkeys⟩ := buildProdGraph_ok hg
        obtain ⟨hnd, hmem, _⟩ := topSort_ok hW hord
        have hkeym : key ∈ (flattenEntries b.assets).map Prod.fst := by
          rw [← lookupA_isSome_iff, hua]
          rfl
        have hkey_ord : key ∈ order := (hmem key).mpr ((hkeys key).mpr hkeym)
        obtain ⟨ua', raw, hua', hload⟩ := prodBuildLoop_loads h key hkey_ord
        rw [hua] at hua'
        injection hua' with he
        subst he
        exact ⟨raw, hload⟩
  · rintro ⟨⟨g, hg, order, hord⟩, hloads⟩
    simp only [prodBuild, hg, hord]
    apply prodBuildLoop_total
    intro key hkey
    obtain ⟨hW, hkeys⟩ := buildProdGraph_ok hg
    obtain ⟨_, hmem, _⟩ := topSort_ok hW hord
    have hkeym := (hkeys key).mp ((hmem key).mp hkey)
    rw [← lookupA_isSome_iff] at hkeym
    rcases hua : lookupA (flattenEntries b.assets) key with _ | ua
    · rw [hua] at hkeym
      simp at hkeym
    · exact ⟨ua, rfl, hloads key ua hua⟩

/-- The glob entry of the C7 counterexample: HTTP prefix `animals/`, one
matched file with suffix `cat.svg`, no hashing, no modifier. -/
def c7Entry : EntryBuilder :=
  { kind := EntryBuilderKind.glob ("animals/".toList)
      [⟨"cat.svg".toList, DataSource.embedded []⟩] [],
    pathHash := PathHash.none,
    modifier := Modifier.none }

/-- C7 (refuted — divergence in the dev build): for a glob-expanded entry
under HTTP prefix `animals/` with matched file suffix `cat.svg`, the eager
(prod) build mounts the asset at exactly `prefix ++ suffix` =
`animals/cat.svg` (via `GlobFile::http_path`), but the lazy (dev) build
computes its assets-map key as `format!("{http_prefix}/{}", file.suffix)`,
inserting an extra `'/'`: the asset is mounted at `animals//cat.svg`, and
nothing is mounted at `animals/cat.svg`.  The claim's "no other separator
inserted ... in both strategies" therefore fails for the dev strategy. -/
theorem glob_mount_path_divergence :
    prodBuild (fun _ => Option.none) (Builder.mk [c7Entry])
      = .ok [("animals/".toList ++ "cat.svg".toList, ⟨[], false⟩)] ∧
    (devBuild (Builder.mk [c7Entry])).assets.map Prod.fst
      = ["animals//cat.svg".toList] ∧
    (lookupA (devBuild (Builder.mk [c7Entry])).assets
      ("animals/".toList ++ "cat.svg".toList)).isSome = false ∧
    "animals//cat.svg".toList ≠ "animals/".toList ++ "cat.svg".toList :=
  ⟨by decide, rfl, rfl, by decide⟩

end Reinda
